import Mathlib

/-!
# Range min-max tree over a parenthesis bitstring (`succinct_tree.c`)

A shallow embedding of the construction (`st_create`) and of the queries
(`sum`, `fwd_search`, `bwd_search`, `find_close`, `find_open`, `rank_*`,
`select_*`) of the succinct-tree index, followed by theorems about them.

Conventions of the embedding:

* `int16_t` cells (`e'`, `m'`, `M'`, `n'` and the builder's local variables)
  are integers that are wrapped by `toInt16` at every store;
* `int32_t`, `long` and `unsigned` quantities are unbounded integers or
  naturals: positions and excesses are bounded by the input length, and the
  embedding is meant for lengths below `2^31`;
* arrays are total maps from indices to integers, zero everywhere at
  allocation (`calloc`);
* `cilk_for` loops are run in increasing order of their index: their
  iterations write disjoint cells and read none written by another iteration;
* `ceil(log(x)/log(k))` is computed exactly.
-/

namespace SuccinctTree

/-! ## Machine integers, loops, arrays -/

/-- The value held by an `int16_t` after the integer `x` is stored in it. -/
def toInt16 (x : Int) : Int := (x + 32768) % 65536 - 32768

/-- A counted loop: runs `f 0`, `f 1`, ..., `f (n-1)` in this order from `s`. -/
def forLoop {σ : Type} : Nat → (Nat → σ → σ) → σ → σ
  | 0, _, s => s
  | n + 1, f, s => f n (forLoop n f s)

/-- Array store `a[i] = v`. -/
def setAt (a : Nat → Int) (i : Nat) (v : Int) : Nat → Int :=
  fun j => if j = i then v else a j

/-- The least `h` with `m ≤ k ^ h`, searched upwards from `h` with `fuel` steps. -/
def ceil_log_from (k m : Nat) : Nat → Nat → Nat
  | 0, h => h
  | fuel + 1, h => if m ≤ k ^ h then h else ceil_log_from k m fuel (h + 1)

/-- The C expression `ceil(log(m)/log(k))`, computed exactly. -/
def ceil_log (k m : Nat) : Nat := ceil_log_from k m m 0

/-! ## Bit container and lookup tables -/

/-- Modelled from the spec: the bit container of `bit_array.h` (not among the
sources), a fixed-length bitstring, zero-initialised at creation. -/
structure BIT_ARRAY where
  num_of_bits : Nat
  bits : Nat → Bool

/-- Modelled from the spec: `get(i) → {0,1}` of the bit container; a position
outside the container reads as `0` (zero-initialised padding). -/
def bit_array_get_bit (B : BIT_ARRAY) (i : Int) : Int :=
  if 0 ≤ i ∧ i < B.num_of_bits ∧ B.bits i.toNat = true then 1 else 0

/-- Value of the `len`-bit window of `B` that starts at bit `j`, bit 0 of the
window being `B[j]`. -/
def window (B : BIT_ARRAY) (j : Int) : Nat → Nat
  | 0 => 0
  | len + 1 => (bit_array_get_bit B j).toNat + 2 * window B (j + 1) len

/-- Modelled from the spec: `word8`, the C expression
`(words[j>>logW] & (0xFF << (j&(W-1)))) >> (j&(W-1))` for `j` a multiple of 8. -/
def word8 (B : BIT_ARRAY) (j : Int) : Nat := window B j 8

/-- Excess `2·bit − 1` summed over the `len` low bits of `b`. -/
def bits_excess (b : Nat) : Nat → Int
  | 0 => 0
  | len + 1 => (2 * ((b % 2 : Nat) : Int) - 1) + bits_excess (b / 2) len

/-- Modelled from the spec: `word_sum[b]`, the sum over the 8 bits of `b` of
`2·bit − 1`. -/
def word_sum (b : Nat) : Int := bits_excess b 8

/-- First position `p` (from `p`, with `fuel` bits left) at which the running
excess of `b` becomes `d`; `8` when there is none. -/
def near_fwd_scan (d : Int) : Nat → Nat → Nat → Int → Int
  | 0, _, _, _ => 8
  | fuel + 1, b, p, ex =>
    let ex1 := ex + (2 * ((b % 2 : Nat) : Int) - 1)
    if ex1 = d then (p : Int) else near_fwd_scan d fuel (b / 2) (p + 1) ex1

/-- Modelled from the spec: `near_fwd_pos[(d+8)·256 + b]`, the smallest position
`p ∈ [0..7]` at which the running excess within byte `b`, starting at 0, reaches
`d` after reading bit `p`; `8` if there is no such position. -/
def near_fwd_pos (ii : Nat) : Int :=
  near_fwd_scan (((ii / 256 : Nat) : Int) - 8) 8 (ii % 256) 0 0

/-! ## The rmMt structure and its construction -/

/-- The struct `rmMt_t` of `succinct_tree.h`. -/
structure rmMt where
  s : Nat
  k : Nat
  n : Nat
  height : Nat
  internal_nodes : Nat
  num_chunks : Nat
  e_prime : Nat → Int
  m_prime : Nat → Int
  M_prime : Nat → Int
  n_prime : Nat → Int
  B : BIT_ARRAY

/-- The four arrays of an `rmMt`, as they are threaded through `st_create`. -/
structure Arrays where
  e_prime : Nat → Int
  m_prime : Nat → Int
  M_prime : Nat → Int
  n_prime : Nat → Int

/-- Function `init_rmMt`: the derived quantities for `n` bits. -/
def init_rmMt (n : Nat) : rmMt :=
  { s := 256
    k := 2
    n := n
    num_chunks := (n + 256 - 1) / 256
    height := ceil_log 2 ((n + 256 - 1) / 256)
    internal_nodes := (2 ^ ceil_log 2 ((n + 256 - 1) / 256) - 1) / (2 - 1)
    e_prime := fun _ => 0
    m_prime := fun _ => 0
    M_prime := fun _ => 0
    n_prime := fun _ => 0
    B := ⟨0, fun _ => false⟩ }

/-- The local variables `min`, `max`, `partial_excess`, `num_mins` of a worker
of step 2.1. -/
structure ChunkVars where
  min : Int
  max : Int
  partial_excess : Int
  num_mins : Int

/-- Body of the symbol loop of step 2.1 (lines 145-168). -/
def scan_symbol (B : BIT_ARRAY) (llimit symbol : Nat) (v : ChunkVars) : ChunkVars :=
  let pe := if bit_array_get_bit B symbol = 0 then toInt16 (v.partial_excess - 1)
            else toInt16 (v.partial_excess + 1)
  if symbol = llimit then
    { min := pe, max := pe, partial_excess := pe, num_mins := 1 }
  else
    { min := if pe < v.min then pe else v.min
      max := if pe > v.max then pe else v.max
      partial_excess := pe
      num_mins := if pe < v.min then 1
                  else if pe = v.min then toInt16 (v.num_mins + 1) else v.num_mins }

/-- The limits `llimit`, `ulimit` of a chunk (lines 132-141), in unbounded
arithmetic. `chunk_limits_u32` keeps them in `unsigned int` as the source does;
the two agree for at most `2^32 − 256` bits (`chunk_limits_u32_eq`). -/
def chunk_limits (st : rmMt) (num_threads chunks_per_thread chunk_limit thread chunk : Nat) :
    Nat × Nat :=
  if thread = num_threads - 1 ∧ chunk = chunk_limit - 1 ∧ st.n % (st.num_chunks * st.s) ≠ 0 then
    (thread * chunks_per_thread * st.s + st.s * chunk, st.n)
  else
    (thread * chunks_per_thread * st.s + st.s * chunk,
      if st.n < st.s then st.n else thread * chunks_per_thread * st.s + st.s * chunk + st.s)

/-- Body of the chunk loop of step 2.1 (lines 127-174). -/
def process_chunk (st : rmMt) (num_threads chunks_per_thread chunk_limit thread chunk : Nat)
    (x : ChunkVars × Arrays) : ChunkVars × Arrays :=
  let lim := chunk_limits st num_threads chunks_per_thread chunk_limit thread chunk
  let v := forLoop (lim.2 - lim.1) (fun t v => scan_symbol st.B lim.1 (lim.1 + t) v)
    { x.1 with num_mins := 1 }
  let idx := thread * chunks_per_thread + chunk
  (v, { e_prime := setAt x.2.e_prime idx v.partial_excess
        m_prime := setAt x.2.m_prime (st.internal_nodes + idx) v.min
        M_prime := setAt x.2.M_prime (st.internal_nodes + idx) v.max
        n_prime := setAt x.2.n_prime (st.internal_nodes + idx) v.num_mins })

/-- Body of the worker loop of step 2.1 (lines 115-175). -/
def thread_scan (st : rmMt) (num_threads chunks_per_thread thread : Nat) (a : Arrays) : Arrays :=
  let chunk_limit :=
    if thread = num_threads - 1 ∧ st.num_chunks % chunks_per_thread ≠ 0 then
      st.num_chunks % chunks_per_thread
    else chunks_per_thread
  (forLoop chunk_limit
    (fun chunk x => process_chunk st num_threads chunks_per_thread chunk_limit thread chunk x)
    ({ min := 0, max := 0, partial_excess := 0, num_mins := 1 }, a)).2

/-- Step 2.1: every worker scans its chunks. -/
def step_2_1 (st : rmMt) (num_threads chunks_per_thread : Nat) (a : Arrays) : Arrays :=
  forLoop num_threads (fun thread a => thread_scan st num_threads chunks_per_thread thread a) a

/-- Step 2.2, sequential pass (lines 181-183): `thread = 1 .. num_threads-2`. -/
def step_2_2_seq (num_threads chunks_per_thread : Nat) (a : Arrays) : Arrays :=
  forLoop (num_threads - 1 - 1) (fun t a =>
    let v := toInt16 (a.e_prime ((t + 1) * chunks_per_thread + chunks_per_thread - 1)
      + a.e_prime ((t + 1 - 1) * chunks_per_thread + chunks_per_thread - 1))
    { a with
      e_prime := setAt a.e_prime ((t + 1) * chunks_per_thread + chunks_per_thread - 1) v }) a

/-- Body of the chunk loop of the fix-up of step 2.2 (lines 196-202). -/
def fix_chunk (st : rmMt) (num_threads chunks_per_thread thread chunk : Nat) (a : Arrays) :
    Arrays :=
  let a1 : Arrays :=
    if thread = num_threads - 1 ∨ chunk < chunks_per_thread - 1 then
      let v := toInt16 (a.e_prime (thread * chunks_per_thread + chunk)
        + a.e_prime ((thread - 1) * chunks_per_thread + chunks_per_thread - 1))
      { a with e_prime := setAt a.e_prime (thread * chunks_per_thread + chunk) v }
    else a
  let vm := toInt16 (a1.m_prime (st.internal_nodes + thread * chunks_per_thread + chunk)
    + a1.e_prime ((thread - 1) * chunks_per_thread + chunks_per_thread - 1))
  let a2 : Arrays :=
    { a1 with
      m_prime := setAt a1.m_prime (st.internal_nodes + thread * chunks_per_thread + chunk) vm }
  let vM := toInt16 (a2.M_prime (st.internal_nodes + thread * chunks_per_thread + chunk)
    + a2.e_prime ((thread - 1) * chunks_per_thread + chunks_per_thread - 1))
  { a2 with
    M_prime := setAt a2.M_prime (st.internal_nodes + thread * chunks_per_thread + chunk) vM }

/-- Step 2.2, fix-up (lines 185-203): `thread = 1 .. num_threads-1`; the bound
`ul` of the last worker is an `unsigned int` difference. -/
def step_2_2_fix (st : rmMt) (num_threads chunks_per_thread : Nat) (a : Arrays) : Arrays :=
  forLoop (num_threads - 1) (fun t a =>
    let thread := t + 1
    let ul : Nat :=
      if thread = num_threads - 1 then
        (((st.num_chunks : Int) - (((num_threads - 1) * chunks_per_thread : Nat) : Int))
          % 4294967296).toNat
      else chunks_per_thread
    forLoop ul (fun chunk a => fix_chunk st num_threads chunks_per_thread thread chunk a) a) a

/-- Aggregation of one child into its parent `pos` (lines 231-246 and 264-279). -/
def update_node (a : Arrays) (pos lchild child : Nat) : Arrays :=
  if child = lchild then
    { a with m_prime := setAt a.m_prime pos (a.m_prime child)
             M_prime := setAt a.M_prime pos (a.M_prime child)
             n_prime := setAt a.n_prime pos (a.n_prime child) }
  else
    let a1 : Arrays :=
      if a.m_prime child < a.m_prime pos then
        { a with m_prime := setAt a.m_prime pos (a.m_prime child)
                 n_prime := setAt a.n_prime pos 1 }
      else if a.m_prime child = a.m_prime pos then
        { a with n_prime := setAt a.n_prime pos (toInt16 (a.n_prime pos + 1)) }
      else a
    if a1.M_prime child > a1.M_prime pos then
      { a1 with M_prime := setAt a1.M_prime pos (a1.M_prime child) }
    else a1

/-- The child loop of the parallel part of step 2.3 (lines 226-247): children
`lchild .. rchild` below `total_chunks`. -/
def node_pass (st : rmMt) (total_chunks pos : Nat) (a : Arrays) : Arrays :=
  forLoop (min ((pos + 1) * st.k + 1 - (pos * st.k + 1)) (total_chunks - (pos * st.k + 1)))
    (fun t a => update_node a pos (pos * st.k + 1) (pos * st.k + 1 + t)) a

/-- The child loop of the sequential part of step 2.3 (lines 259-280): a child
with `m' = M'` is skipped. -/
def node_pass_top (st : rmMt) (pos : Nat) (a : Arrays) : Arrays :=
  forLoop ((pos + 1) * st.k + 1 - (pos * st.k + 1))
    (fun t a =>
      if a.m_prime (pos * st.k + 1 + t) = a.M_prime (pos * st.k + 1 + t) then a
      else update_node a pos (pos * st.k + 1) (pos * st.k + 1 + t)) a

/-- Step 2.3, parallel part (lines 218-250). -/
def step_2_3_par (st : rmMt) (p_level num_subtrees total_chunks : Nat) (a : Arrays) : Arrays :=
  forLoop num_subtrees (fun subtree a =>
    forLoop (st.height - p_level) (fun t a =>
      forLoop (st.k ^ (st.height - 1 - t - p_level)) (fun node a =>
        node_pass st total_chunks
          (st.k ^ (st.height - 1 - t) - 1 + node
            + subtree * st.k ^ (st.height - 1 - t - p_level)) a) a) a) a

/-- Step 2.3, sequential part (lines 252-282): levels `p_level-1 .. 0`. -/
def step_2_3_seq (st : rmMt) (p_level : Nat) (a : Arrays) : Arrays :=
  forLoop p_level (fun t a =>
    forLoop (st.k ^ (p_level - 1 - t)) (fun node a =>
      node_pass_top st ((st.k ^ (p_level - 1 - t) - 1) / (st.k - 1) + node) a) a) a

/-- The arrays computed by `st_create` once the size check has passed
(steps 2.1 to 2.3), for `num_threads` workers. -/
def build_arrays (st : rmMt) (num_threads : Nat) : Arrays :=
  let chunks_per_thread := (st.num_chunks + num_threads - 1) / num_threads
  let a0 : Arrays :=
    { e_prime := fun _ => 0, m_prime := fun _ => 0, M_prime := fun _ => 0, n_prime := fun _ => 0 }
  let a1 := step_2_1 st num_threads chunks_per_thread a0
  let a2 := step_2_2_fix st num_threads chunks_per_thread
    (step_2_2_seq num_threads chunks_per_thread a1)
  let p_level := ceil_log st.k num_threads
  let a3 := step_2_3_par st p_level (st.k ^ p_level) (st.internal_nodes + st.num_chunks) a2
  step_2_3_seq st p_level a3

/-- Function `st_create` for a bit array of `B.num_of_bits` bits and
`num_threads` workers (`__cilkrts_get_nworkers()`, 1 under `NOPARALLEL`).
`Except.error c` stands for `exit(c)`. The arrays are total maps, so a write past
the `calloc`ed cells is a write like any other here; the worker counts for which
the source stays inside its arrays are those with
`(num_threads − 1)·⌈num_chunks / num_threads⌉ < num_chunks`. -/
def st_create (num_threads : Nat) (B : BIT_ARRAY) : Except Int rmMt :=
  let st : rmMt := { init_rmMt B.num_of_bits with B := B }
  if st.s ≥ B.num_of_bits then Except.error 0
  else
    let a := build_arrays st num_threads
    Except.ok { st with e_prime := a.e_prime, m_prime := a.m_prime,
                        M_prime := a.M_prime, n_prime := a.n_prime }

/-! ## Binary-tree helpers (`binary_trees.h`) -/

/-- Function `is_root`. -/
def is_root (v : Int) : Bool := v == 0

/-- Function `is_left_child` (the C result is `v%2`, nonzero for a left child). -/
def is_left_child (v : Int) : Bool := if is_root v then false else Int.tmod v 2 != 0

/-- Function `parent`. -/
def parent (v : Int) : Int := if is_root v then 0 else Int.tdiv (v - 1) 2

/-- Function `left_child`. -/
def left_child (v : Int) : Int := 2 * v + 1

/-- Function `right_sibling`. -/
def right_sibling (v : Int) : Int := v + 1

/-- Function `is_leaf`: `v >= pow(2,heigh) - 1`. The global `heigh` it reads is
declared nowhere in the sources and is a parameter here. -/
def is_leaf (heigh : Nat) (v : Int) : Bool := decide (v ≥ 2 ^ heigh - 1)

/-! ## Queries -/

/-- Outcome of a scanning loop: it returned a position, or it ran to its end
with a final running excess. -/
inductive Scan where
  | found (j : Int)
  | done (excess : Int)

/-- The byte loop of `sum` (lines 309-317): `cnt` windows from `j`. -/
def sum_bytes (st : rmMt) : Nat → Int → Int → Int
  | 0, _, excess => excess
  | cnt + 1, j, excess => sum_bytes st cnt (j + 8) (excess + word_sum (word8 st.B j))

/-- The bit loop of `sum` (lines 319-320): `cnt` bits from `i`. -/
def sum_bits (st : rmMt) : Nat → Int → Int → Int
  | 0, _, excess => excess
  | cnt + 1, i, excess => sum_bits st cnt (i + 1) (excess + (2 * bit_array_get_bit st.B i - 1))

/-- Number of iterations of `for (j = lo; j < hi; j += 8)`. -/
def steps8 (lo hi : Int) : Nat := ((hi - lo + 7) / 8).toNat

/-- Function `sum` (lines 293-323). The guard `idx >= st->n` compares as
unsigned, so a negative `idx` also returns -1. -/
def sum (st : rmMt) (idx : Int) : Int :=
  if idx < 0 ∨ idx ≥ st.n then -1
  else
    let chk := idx / st.s
    let excess : Int := if chk ≠ 0 then st.e_prime (chk - 1).toNat else 0
    let llimit := chk * st.s
    let rlimit := (idx / 8) * 8
    let cnt := steps8 llimit rlimit
    let excess := sum_bytes st cnt llimit excess
    let j := llimit + 8 * cnt
    sum_bits st (idx + 1 - j).toNat j excess

/-- A bit-by-bit loop of `check_leaf_r` (lines 334-338 and 359-364). -/
def leaf_bits (st : rmMt) (d : Int) : Nat → Int → Int → Scan
  | 0, _, excess => Scan.done excess
  | cnt + 1, j, excess =>
    let excess1 := excess + (2 * bit_array_get_bit st.B j - 1)
    if excess1 = d - 1 then Scan.found j else leaf_bits st d cnt (j + 1) excess1

/-- The byte loop shared by `check_leaf_r` (lines 340-357) and `check_sibling_r`
(lines 377-395); the table index is `(desired+8<<8) + sum_idx`, that is
`((desired+8) << 8) + sum_idx`. -/
def leaf_bytes (st : rmMt) (d : Int) : Nat → Int → Int → Scan
  | 0, _, excess => Scan.done excess
  | cnt + 1, j, excess =>
    let desired := d - 1 - excess
    let sum_idx := word8 st.B j
    if desired ≥ -8 ∧ desired ≤ 8 ∧ near_fwd_pos (((desired + 8) * 256).toNat + sum_idx) < 8 then
      Scan.found (j + near_fwd_pos (((desired + 8) * 256).toNat + sum_idx))
    else leaf_bytes st d cnt (j + 8) (excess + word_sum sum_idx)

/-- Function `check_leaf_r` (lines 326-367). -/
def check_leaf_r (st : rmMt) (i d : Int) : Int :=
  let chunk_end := (i / st.s + 1) * st.s
  let llimit := ((i + 8) / 8) * 8
  let rlimit := (chunk_end / 8) * 8
  match leaf_bits st d (min chunk_end llimit - (i + 1)).toNat (i + 1) d with
  | Scan.found j => j
  | Scan.done excess =>
    match leaf_bytes st d (steps8 llimit rlimit) llimit excess with
    | Scan.found j => j
    | Scan.done excess =>
      match leaf_bits st d (chunk_end - max llimit rlimit).toNat (max llimit rlimit) excess with
      | Scan.found j => j
      | Scan.done _ => i - 1

/-- Function `check_sibling_r` (lines 370-398); the index `(i-1)/st->s` is an
unsigned 32-bit division. -/
def check_sibling_r (st : rmMt) (i d : Int) : Int :=
  match leaf_bytes st d (steps8 i (i + st.s)) i
      (st.e_prime (((i - 1) % 4294967296) / st.s).toNat) with
  | Scan.found j => j
  | Scan.done _ => i - 1

/-- The ascent of `fwd_search` (lines 428-436); `none` when the root is reached.
Every iteration moves `node` to a strictly smaller index, so `node` iterations
are enough (`go_up_fuel`). -/
def go_up (st : rmMt) (target : Int) : Nat → Int → Option Int
  | 0, _ => none
  | fuel + 1, node =>
    if is_root node then none
    else if is_left_child node then
      if st.m_prime (right_sibling node).toNat ≤ target - 1
          ∧ target - 1 ≤ st.M_prime (right_sibling node).toNat then
        some (right_sibling node)
      else go_up st target fuel (parent (right_sibling node))
    else go_up st target fuel (parent node)

/-- The descent of `fwd_search` (lines 440-448); `none` stands for `return -1`.
Every iteration moves `node` to a child, so `heigh` iterations are enough to
reach `is_leaf` (`go_down_fuel`). -/
def go_down (heigh : Nat) (st : rmMt) (target : Int) : Nat → Int → Option Int
  | 0, node => some node
  | fuel + 1, node =>
    if is_leaf heigh node then some node
    else if st.m_prime (left_child node).toNat ≤ target - 1
        ∧ target - 1 ≤ st.M_prime (left_child node).toNat then
      go_down heigh st target fuel (left_child node)
    else if st.m_prime (right_sibling (left_child node)).toNat > target - 1
        ∨ target - 1 > st.M_prime (right_sibling (left_child node)).toNat then
      none
    else go_down heigh st target fuel (right_sibling (left_child node))

/-- Function `fwd_search` (lines 400-454), with the global `heigh` of `is_leaf`
as a parameter. -/
def fwd_search (heigh : Nat) (st : rmMt) (i d : Int) : Int :=
  let target := sum st i + d
  let chunk := i / st.s
  let output := check_leaf_r st i target
  if output > i then output
  else
    let case2 : Option Int :=
      if chunk % 2 = 0
          ∧ st.m_prime (st.internal_nodes + chunk + 1).toNat ≤ target
          ∧ target ≤ st.M_prime (st.internal_nodes + chunk + 1).toNat
          ∧ check_sibling_r st (st.s * (chunk + 1)) target ≥ st.s * (chunk + 1) then
        some (check_sibling_r st (st.s * (chunk + 1)) target)
      else none
    match case2 with
    | some output => output
    | none =>
      match go_up st target (parent (chunk + st.internal_nodes)).toNat
          (parent (chunk + st.internal_nodes)) with
      | none => -1
      | some node =>
        match go_down heigh st target heigh node with
        | none => -1
        | some leaf => check_sibling_r st (st.s * (leaf - st.internal_nodes)) target

/-- The loop of `naive_bwd_search` (lines 465-469): `cnt` positions downwards
from `j`. -/
def bwd_loop (st : rmMt) (target : Int) : Nat → Int → Int → Int
  | 0, _, _ => -1
  | cnt + 1, j, excess =>
    if excess + (2 * bit_array_get_bit st.B j - 1) = target then j
    else bwd_loop st target cnt (j - 1) (excess + (2 * bit_array_get_bit st.B j - 1))

/-- Function `naive_bwd_search` (lines 458-472). -/
def naive_bwd_search (st : rmMt) (i d : Int) : Int :=
  bwd_loop st (sum st i + d) (i + 1).toNat i (sum st i + d)

/-- Function `bwd_search`. -/
def bwd_search (st : rmMt) (i d : Int) : Int := naive_bwd_search st i d

/-- Function `find_close`. -/
def find_close (heigh : Nat) (st : rmMt) (i : Int) : Int :=
  if bit_array_get_bit st.B i = 0 then -1 else fwd_search heigh st i 0

/-- Function `find_open`. -/
def find_open (st : rmMt) (i : Int) : Int :=
  if bit_array_get_bit st.B i = 1 then -1 else bwd_search st i 0

/-- Function `rank_0` (lines 494-501); the guard `i >= st->n` compares as
unsigned, and `/` of C truncates. -/
def rank_0 (st : rmMt) (i : Int) : Int :=
  let i := if i < 0 ∨ i ≥ st.n then (st.n : Int) - 1 else i
  Int.tdiv (i + 1 - sum st i) 2

/-- Function `rank_1` (lines 503-510). -/
def rank_1 (st : rmMt) (i : Int) : Int :=
  let i := if i < 0 ∨ i ≥ st.n then (st.n : Int) - 1 else i
  Int.tdiv (i + 1 + sum st i) 2

/-- The loop of `select_0` (lines 556-560), `cnt` iterations from `j`. -/
def select_0_loop (st : rmMt) : Nat → Int → Int → Int → Int
  | 0, _, _, _ => -1
  | cnt + 1, j, d, excess =>
    if excess = d then j - 1
    else select_0_loop st cnt (j + 1) (d + 1) (excess + (2 * bit_array_get_bit st.B j - 1))

/-- Function `select_0` (lines 543-563). -/
def select_0 (st : rmMt) (i : Int) : Int :=
  select_0_loop st (st.M_prime 0).toNat (2 * i - 1 + 1) 0 (sum st (2 * i - 1))

/-- The loop of `select_1` (lines 575-579), `cnt` iterations from `j`. -/
def select_1_loop (st : rmMt) : Nat → Int → Int → Int → Int
  | 0, _, _, _ => -1
  | cnt + 1, j, d, excess =>
    if excess + (2 * bit_array_get_bit st.B j - 1) = d then j
    else select_1_loop st cnt (j + 1) (d - 1) (excess + (2 * bit_array_get_bit st.B j - 1))

/-- Function `select_1` (lines 566-582). -/
def select_1 (st : rmMt) (i : Int) : Int :=
  select_1_loop st (2 * i - 1 + 1).toNat 0 (2 * i - 1) 0

/-! ## Specification-level notions -/

/-- Sum of `2·B[j] − 1` over the positions `j < k`. -/
def excessBefore (B : BIT_ARRAY) : Nat → Int
  | 0 => 0
  | k + 1 => excessBefore B k + (2 * bit_array_get_bit B k - 1)

/-- The excess `excess(i) = sum_{j ≤ i} (2·B[j] − 1)`. -/
def excess (B : BIT_ARRAY) (i : Nat) : Int := excessBefore B (i + 1)

/-- Number of 1-bits among the positions `j < k`. -/
def onesBefore (B : BIT_ARRAY) : Nat → Nat
  | 0 => 0
  | k + 1 => onesBefore B k + (bit_array_get_bit B k).toNat

/-- Number of 0-bits among the positions `j < k`. -/
def zerosBefore (B : BIT_ARRAY) : Nat → Nat
  | 0 => 0
  | k + 1 => zerosBefore B k + (1 - bit_array_get_bit B k).toNat

/-- A balanced-parentheses bitstring: every prefix has non-negative excess and
the total excess is zero. -/
def Balanced (B : BIT_ARRAY) : Prop :=
  (∀ i, i < B.num_of_bits → 0 ≤ excess B i) ∧ excessBefore B B.num_of_bits = 0

/-- All prefix excesses fit in an `int16_t`. -/
def FitsInt16 (B : BIT_ARRAY) : Prop :=
  ∀ i, i < B.num_of_bits → -32768 ≤ excess B i ∧ excess B i ≤ 32767

/-! ## Definitions used by the proofs -/

/-- The excess wrapped to 16 bits. -/
def wexcess (B : BIT_ARRAY) (p : Nat) : Int := toInt16 (excess B p)

/-- What the symbol loop of step 2.1 has established after `t` symbols of a
chunk that starts at `lo`. -/
structure ChunkInv (B : BIT_ARRAY) (lo t : Nat) (v : ChunkVars) : Prop where
  pe : v.partial_excess = toInt16 (excessBefore B (lo + t))
  lower : ∀ p, lo ≤ p → p < lo + t → v.min ≤ wexcess B p
  upper : ∀ p, lo ≤ p → p < lo + t → wexcess B p ≤ v.max
  min_att : 0 < t → ∃ p, lo ≤ p ∧ p < lo + t ∧ v.min = wexcess B p
  max_att : 0 < t → ∃ p, lo ≤ p ∧ p < lo + t ∧ v.max = wexcess B p

/-- `m` and `M` are the least and the greatest wrapped excess over `[lo, hi)`. -/
def RangeMinMax (B : BIT_ARRAY) (lo hi : Nat) (m M : Int) : Prop :=
  (∀ p, lo ≤ p → p < hi → m ≤ wexcess B p ∧ wexcess B p ≤ M)
    ∧ (∃ p, lo ≤ p ∧ p < hi ∧ m = wexcess B p) ∧ (∃ p, lo ≤ p ∧ p < hi ∧ M = wexcess B p)

/-- The static fields of the `rmMt` that `st_create` works on, for `n` bits. -/
structure Statics (st : rmMt) (B : BIT_ARRAY) : Prop where
  hs : st.s = 256
  hk : st.k = 2
  hn : st.n = B.num_of_bits
  hB : st.B = B
  hnc : st.num_chunks = (B.num_of_bits + 256 - 1) / 256
  hh : st.height = ceil_log 2 st.num_chunks
  hI : st.internal_nodes = 2 ^ st.height - 1

/-- What the chunk loop of the single worker has established after `c` chunks. -/
structure ThreadInv (st : rmMt) (B : BIT_ARRAY) (a0 : Arrays) (c : Nat)
    (x : ChunkVars × Arrays) : Prop where
  pe : x.1.partial_excess = toInt16 (excessBefore B (min (256 * c) B.num_of_bits))
  e_done : ∀ c', c' < c →
    x.2.e_prime c' = toInt16 (excessBefore B (min (256 * (c' + 1)) B.num_of_bits))
  leaf_done : ∀ c', c' < c →
    RangeMinMax B (256 * c') (min (256 * (c' + 1)) B.num_of_bits)
      (x.2.m_prime (st.internal_nodes + c')) (x.2.M_prime (st.internal_nodes + c'))
  e_rest : ∀ j, c ≤ j → x.2.e_prime j = a0.e_prime j
  rest : ∀ j, (j < st.internal_nodes ∨ st.internal_nodes + c ≤ j) →
    x.2.m_prime j = a0.m_prime j ∧ x.2.M_prime j = a0.M_prime j ∧ x.2.n_prime j = a0.n_prime j

/-- How one node pass relates the parent's cell to its children's cells. -/
def NodeStep (total pos : Nat) (a a' : Arrays) : Prop :=
  (total ≤ 2 * pos + 1 → a'.m_prime pos = a.m_prime pos ∧ a'.M_prime pos = a.M_prime pos)
  ∧ (total = 2 * pos + 2 → a'.m_prime pos = a.m_prime (2 * pos + 1)
      ∧ a'.M_prime pos = a.M_prime (2 * pos + 1))
  ∧ (2 * pos + 2 < total →
      a'.m_prime pos = min (a.m_prime (2 * pos + 1)) (a.m_prime (2 * pos + 2))
      ∧ a'.M_prime pos = max (a.M_prime (2 * pos + 1)) (a.M_prime (2 * pos + 2)))

/-- First bit covered by node `k` of level `l` in a tree of height `h`. -/
def nodeLo (h l k : Nat) : Nat := 256 * (k * 2 ^ (h - l))

/-- One past the last bit covered by node `k` of level `l`, for `n` bits. -/
def nodeHi (n h l k : Nat) : Nat := min n (256 * ((k + 1) * 2 ^ (h - l)))

/-- The cells `m`, `M` of node `k` of level `l` are right: least and greatest
wrapped excess over the bits the node covers, or zero when it covers none. -/
def NodeOK (B : BIT_ARRAY) (h l k : Nat) (m M : Int) : Prop :=
  (nodeLo h l k < B.num_of_bits →
      RangeMinMax B (nodeLo h l k) (nodeHi B.num_of_bits h l k) m M)
    ∧ (B.num_of_bits ≤ nodeLo h l k → m = 0 ∧ M = 0)

/-- What step 2.3 has established once the `t` deepest internal levels are done. -/
structure TreeInv (B : BIT_ARRAY) (h t : Nat) (a : Arrays) : Prop where
  done : ∀ l k, h - t ≤ l → l ≤ h → k < 2 ^ l →
    NodeOK B h l k (a.m_prime (2 ^ l - 1 + k)) (a.M_prime (2 ^ l - 1 + k))
  todo : ∀ j, j + 1 < 2 ^ (h - t) → a.m_prime j = 0 ∧ a.M_prime j = 0

/-- The zero-initialised arrays (`calloc`). -/
def zeroArrays : Arrays :=
  { e_prime := fun _ => 0, m_prime := fun _ => 0, M_prime := fun _ => 0, n_prime := fun _ => 0 }

/-- The arrays after steps 2.1 and 2.2 of a one-worker build. -/
def leafArrays (st : rmMt) : Arrays :=
  (forLoop st.num_chunks
    (fun chunk x => process_chunk st 1 st.num_chunks st.num_chunks 0 chunk x)
    ({ min := 0, max := 0, partial_excess := 0, num_mins := 1 }, zeroArrays)).2

/-- The level loop of step 2.3 of a one-worker build, `t` levels done. -/
def levelsDone (st : rmMt) (t : Nat) (a : Arrays) : Arrays :=
  forLoop t (fun t a =>
    forLoop (2 ^ (st.height - 1 - t)) (fun node a =>
      node_pass st (st.internal_nodes + st.num_chunks) (2 ^ (st.height - 1 - t) - 1 + node) a)
      a) a

/-- The `rmMt` right after `init_rmMt` and the assignment of `B`. -/
def baseSt (B : BIT_ARRAY) : rmMt := { init_rmMt B.num_of_bits with B := B }

/-- The index returned by a one-worker `st_create`. -/
def builtSt (B : BIT_ARRAY) : rmMt :=
  { baseSt B with
    e_prime := (build_arrays (baseSt B) 1).e_prime
    m_prime := (build_arrays (baseSt B) 1).m_prime
    M_prime := (build_arrays (baseSt B) 1).M_prime
    n_prime := (build_arrays (baseSt B) 1).n_prime }

/-- The string `(( ()^127 ))` of 258 parentheses. -/
def B258 : BIT_ARRAY := ⟨258, fun i => decide (i < 2 ∨ (i < 256 ∧ i % 2 = 0))⟩

/-- The string `()^129` of 258 parentheses. -/
def alt258 : BIT_ARRAY := ⟨258, fun i => decide (i % 2 = 0)⟩

/-- The string of 32769 opening then 32769 closing parentheses. -/
def deepB : BIT_ARRAY := ⟨65538, fun i => decide (i < 32769)⟩

/-- Number of positions `p` in `[lo, hi)` with `excess(p) = v`. -/
def countExcess (B : BIT_ARRAY) (lo hi : Nat) (v : Int) : Nat :=
  ((List.range (hi - lo)).filter (fun t => decide (excess B (lo + t) = v))).length

/-- The string `()^130` of 260 parentheses. -/
def alt260 : BIT_ARRAY := ⟨260, fun i => decide (i % 2 = 0)⟩

/-- The string `()^513` of 1026 parentheses (five chunks). -/
def alt1026 : BIT_ARRAY := ⟨1026, fun i => decide (i % 2 = 0)⟩

/-- The string `()^1153` of 2306 parentheses (ten chunks). -/
def alt2306 : BIT_ARRAY := ⟨2306, fun i => decide (i % 2 = 0)⟩

/-- The string of 1030 closing parentheses (five chunks). -/
def zeros1030 : BIT_ARRAY := ⟨1030, fun _ => false⟩

/-- The string `(()())` of 6 parentheses. -/
def B6 : BIT_ARRAY := ⟨6, fun i => decide (i = 0 ∨ i = 1 ∨ i = 3)⟩

/-- Scenario S2: 260 opening then 260 closing parentheses. -/
def S2 : BIT_ARRAY := ⟨520, fun i => decide (i < 260)⟩

/-- Scenario S5: 2048 opening then 2048 closing parentheses. -/
def S5 : BIT_ARRAY := ⟨4096, fun i => decide (i < 2048)⟩

/-- The cells `m'[0..30]` of the index of scenario S5. -/
def S5_m : List Int :=
  [0, 1, 0, 1, 1025, 1024, 0, 1, 513, 1025, 1537, 1536, 1024, 512, 0, 1, 257, 513, 769, 1025,
   1281, 1537, 1793, 1792, 1536, 1280, 1024, 768, 512, 256, 0]

/-- The cells `M'[0..30]` of the index of scenario S5. -/
def S5_M : List Int :=
  [2048, 2048, 2047, 1024, 2048, 2047, 1023, 512, 1024, 1536, 2048, 2047, 1535, 1023, 511, 256,
   512, 768, 1024, 1280, 1536, 1792, 2048, 2047, 1791, 1535, 1279, 1023, 767, 511, 255]

/-- The tree of scenario S5 with its cells `m'`, `M'` written out. -/
def S5tab : rmMt :=
  { baseSt S5 with
    m_prime := fun v => S5_m.getD v 0
    M_prime := fun v => S5_M.getD v 0 }

/-- Node `v` holds the least `m'` and the greatest `M'` of its two children. -/
def RelAt (a : Arrays) (v : Nat) : Prop :=
  a.m_prime v = min (a.m_prime (2 * v + 1)) (a.m_prime (2 * v + 2))
  ∧ a.M_prime v = max (a.M_prime (2 * v + 1)) (a.M_prime (2 * v + 2))

/-- What step 2.3 leaves at node `v` when both children exist: `RelAt`, for a
node of the parallel part (level `p` or deeper) and for a node of the
sequential part none of whose children has `m' = M'`. -/
def GoodAt (total p : Nat) (a : Arrays) (v : Nat) : Prop :=
  2 * v + 2 < total →
  (2 ^ p ≤ v + 1 ∨ (a.m_prime (2 * v + 1) ≠ a.M_prime (2 * v + 1)
      ∧ a.m_prime (2 * v + 2) ≠ a.M_prime (2 * v + 2))) →
  RelAt a v

/-- A part `g` of step 2.3 writes `m'`, `M'` only at the nodes `W` and leaves
every node of `W` good. -/
def Block (total p : Nat) (W : Nat → Prop) (g : Arrays → Arrays) : Prop :=
  ∀ a, (∀ j, ¬ W j → (g a).m_prime j = a.m_prime j ∧ (g a).M_prime j = a.M_prime j)
    ∧ (∀ v, W v → GoodAt total p (g a) v)

/-- Node `j` lies `e` levels below node `u` of level `p`: with 1-based numbers,
`j + 1` shifted right by `e` is `2^p + u`. -/
def InSub (p u e j : Nat) : Prop := (j + 1) / 2 ^ e = 2 ^ p + u

/-- The index returned by `st_create` with `P` workers. -/
def builtWith (P : Nat) (B : BIT_ARRAY) : rmMt :=
  { baseSt B with
    e_prime := (build_arrays (baseSt B) P).e_prime
    m_prime := (build_arrays (baseSt B) P).m_prime
    M_prime := (build_arrays (baseSt B) P).M_prime
    n_prime := (build_arrays (baseSt B) P).n_prime }

/-- The excess of the `len` bits from `j` on: the sum over `k` in `[j, j+len)` of
`2·B[k] − 1`. -/
def rangeExcess (B : BIT_ARRAY) (j : Nat) : Nat → Int
  | 0 => 0
  | len + 1 => rangeExcess B j len + (2 * bit_array_get_bit B ((j + len : Nat) : Int) - 1)

/-- The bitstring `B` from bit `S` on. -/
def shiftB (B : BIT_ARRAY) (S : Nat) : BIT_ARRAY :=
  ⟨B.num_of_bits - S, fun i => B.bits (S + i)⟩

/-- Number of positions `p` in `[lo, lo + t)` whose wrapped excess is `v`. -/
def countW (B : BIT_ARRAY) (lo : Nat) : Nat → Int → Nat
  | 0, _ => 0
  | t + 1, v => countW B lo t v + (if wexcess B (lo + t) = v then 1 else 0)

/-- The bound `chunk_limit` of a worker of step 2.1 (lines 119-122). -/
def chunk_limit_of (st : rmMt) (num_threads chunks_per_thread thread : Nat) : Nat :=
  if thread = num_threads - 1 ∧ st.num_chunks % chunks_per_thread ≠ 0 then
    st.num_chunks % chunks_per_thread
  else chunks_per_thread

/-- What the chunk loop of a worker of step 2.1 has established after `c`
chunks, in terms of the bitstring `B'` that starts at the first bit of the
worker; the worker's first chunk is `g0`. -/
structure WorkerInv (st : rmMt) (B' : BIT_ARRAY) (g0 : Nat) (a0 : Arrays) (c : Nat)
    (x : ChunkVars × Arrays) : Prop where
  pe : x.1.partial_excess = toInt16 (excessBefore B' (min (256 * c) B'.num_of_bits))
  e_done : ∀ c', c' < c →
    x.2.e_prime (g0 + c') = toInt16 (excessBefore B' (min (256 * (c' + 1)) B'.num_of_bits))
  leaf_done : ∀ c', c' < c →
    RangeMinMax B' (256 * c') (min (256 * (c' + 1)) B'.num_of_bits)
      (x.2.m_prime (st.internal_nodes + (g0 + c'))) (x.2.M_prime (st.internal_nodes + (g0 + c')))
  count_done : ∀ c', c' < c →
    x.2.n_prime (st.internal_nodes + (g0 + c'))
      = (countW B' (256 * c') (min (256 * (c' + 1)) B'.num_of_bits - 256 * c')
          (x.2.m_prime (st.internal_nodes + (g0 + c'))) : Nat)
  e_rest : ∀ j, (j < g0 ∨ g0 + c ≤ j) → x.2.e_prime j = a0.e_prime j
  rest : ∀ j, (j < st.internal_nodes + g0 ∨ st.internal_nodes + g0 + c ≤ j) →
    x.2.m_prime j = a0.m_prime j ∧ x.2.M_prime j = a0.M_prime j ∧ x.2.n_prime j = a0.n_prime j

/-- The cells of chunk `c` of worker `t` after step 2.1: excess, least and
greatest excess and the count of the least one, all relative to the first bit of
the worker and wrapped to 16 bits. -/
structure ChunkRel (st : rmMt) (B : BIT_ARRAY) (cpt t c : Nat) (a : Arrays) : Prop where
  e : a.e_prime (t * cpt + c)
    = toInt16 (excessBefore (shiftB B (256 * (t * cpt)))
        (min (256 * (c + 1)) (shiftB B (256 * (t * cpt))).num_of_bits))
  leaf : RangeMinMax (shiftB B (256 * (t * cpt))) (256 * c)
    (min (256 * (c + 1)) (shiftB B (256 * (t * cpt))).num_of_bits)
    (a.m_prime (st.internal_nodes + (t * cpt + c))) (a.M_prime (st.internal_nodes + (t * cpt + c)))
  count : a.n_prime (st.internal_nodes + (t * cpt + c))
    = (countW (shiftB B (256 * (t * cpt))) (256 * c)
        (min (256 * (c + 1)) (shiftB B (256 * (t * cpt))).num_of_bits - 256 * c)
        (a.m_prime (st.internal_nodes + (t * cpt + c))) : Nat)

/-- The arrays after steps 2.1 and 2.2 of `st_create` with `num_threads` workers. -/
def stage_2_2 (st : rmMt) (num_threads : Nat) : Arrays :=
  step_2_2_fix st num_threads ((st.num_chunks + num_threads - 1) / num_threads)
    (step_2_2_seq num_threads ((st.num_chunks + num_threads - 1) / num_threads)
      (step_2_1 st num_threads ((st.num_chunks + num_threads - 1) / num_threads) zeroArrays))

/-- The excess relative to the first bit of the range of each of the
`num_threads` workers of step 2.1 fits an `int16_t` at every bit of the range. -/
def RelFits (B : BIT_ARRAY) (num_threads : Nat) : Prop :=
  ∀ t p, t < num_threads →
    256 * (t * (((baseSt B).num_chunks + num_threads - 1) / num_threads)) ≤ p →
    p < 256 * ((t + 1) * (((baseSt B).num_chunks + num_threads - 1) / num_threads)) →
    p < B.num_of_bits →
    -32768 ≤ excess B p
        - excessBefore B (256 * (t * (((baseSt B).num_chunks + num_threads - 1) / num_threads)))
    ∧ excess B p
        - excessBefore B (256 * (t * (((baseSt B).num_chunks + num_threads - 1) / num_threads)))
      ≤ 32767

/-- The string of 32768 closing then 32768 opening parentheses. -/
def bigB : BIT_ARRAY := ⟨65536, fun i => decide (32768 ≤ i)⟩

/-- The limits `llimit`, `ulimit` of a chunk (lines 129-141) as the
`unsigned int` variables they are in the source: every value assigned to them is
kept modulo 2^32. `num_chunks` is `unsigned long` under `ARCH64` and
`unsigned int` otherwise, which decides whether the product `num_chunks * s` is
reduced (`arch64 = false`) or not. -/
def chunk_limits_u32 (arch64 : Bool) (st : rmMt)
    (num_threads chunks_per_thread chunk_limit thread chunk : Nat) : Nat × Nat :=
  if thread = num_threads - 1 ∧ chunk = chunk_limit - 1
      ∧ st.n % (if arch64 then st.num_chunks * st.s
                else st.num_chunks * st.s % 4294967296) ≠ 0 then
    ((thread * chunks_per_thread * st.s + st.s * chunk) % 4294967296, st.n % 4294967296)
  else
    ((thread * chunks_per_thread * st.s + st.s * chunk) % 4294967296,
      if st.n < st.s then st.n % 4294967296
      else ((thread * chunks_per_thread * st.s + st.s * chunk) % 4294967296 + st.s)
        % 4294967296)

/-- Body of the chunk loop of step 2.1 (lines 127-174) with the `unsigned int`
limits: the symbol loop `for (symbol = llimit; symbol < ulimit; symbol++)` runs
`ulimit − llimit` times, not at all when `ulimit ≤ llimit`. -/
def process_chunk_u32 (arch64 : Bool) (st : rmMt)
    (num_threads chunks_per_thread chunk_limit thread chunk : Nat)
    (x : ChunkVars × Arrays) : ChunkVars × Arrays :=
  let lim := chunk_limits_u32 arch64 st num_threads chunks_per_thread chunk_limit thread chunk
  let v := forLoop (lim.2 - lim.1) (fun t v => scan_symbol st.B lim.1 (lim.1 + t) v)
    { x.1 with num_mins := 1 }
  let idx := thread * chunks_per_thread + chunk
  (v, { e_prime := setAt x.2.e_prime idx v.partial_excess
        m_prime := setAt x.2.m_prime (st.internal_nodes + idx) v.min
        M_prime := setAt x.2.M_prime (st.internal_nodes + idx) v.max
        n_prime := setAt x.2.n_prime (st.internal_nodes + idx) v.num_mins })

/-- Body of the worker loop of step 2.1 (lines 115-175) with the `unsigned int`
limits. -/
def thread_scan_u32 (arch64 : Bool) (st : rmMt) (num_threads chunks_per_thread thread : Nat)
    (a : Arrays) : Arrays :=
  let chunk_limit :=
    if thread = num_threads - 1 ∧ st.num_chunks % chunks_per_thread ≠ 0 then
      st.num_chunks % chunks_per_thread
    else chunks_per_thread
  (forLoop chunk_limit
    (fun chunk x =>
      process_chunk_u32 arch64 st num_threads chunks_per_thread chunk_limit thread chunk x)
    ({ min := 0, max := 0, partial_excess := 0, num_mins := 1 }, a)).2

/-- Step 2.1 with the `unsigned int` limits. -/
def step_2_1_u32 (arch64 : Bool) (st : rmMt) (num_threads chunks_per_thread : Nat)
    (a : Arrays) : Arrays :=
  forLoop num_threads
    (fun thread a => thread_scan_u32 arch64 st num_threads chunks_per_thread thread a) a

/-- The arrays after steps 2.1 and 2.2 of `st_create` with `num_threads` workers,
step 2.1 with the `unsigned int` limits. -/
def stage_2_2_u32 (arch64 : Bool) (st : rmMt) (num_threads : Nat) : Arrays :=
  step_2_2_fix st num_threads ((st.num_chunks + num_threads - 1) / num_threads)
    (step_2_2_seq num_threads ((st.num_chunks + num_threads - 1) / num_threads)
      (step_2_1_u32 arch64 st num_threads ((st.num_chunks + num_threads - 1) / num_threads)
        zeroArrays))

/-- The arrays computed by `st_create` (steps 2.1 to 2.3), step 2.1 with the
`unsigned int` limits. -/
def build_arrays_u32 (arch64 : Bool) (st : rmMt) (num_threads : Nat) : Arrays :=
  step_2_3_seq st (ceil_log st.k num_threads)
    (step_2_3_par st (ceil_log st.k num_threads) (st.k ^ ceil_log st.k num_threads)
      (st.internal_nodes + st.num_chunks) (stage_2_2_u32 arch64 st num_threads))

/-- Function `st_create`, step 2.1 with the `unsigned int` limits. -/
def st_create_u32 (arch64 : Bool) (num_threads : Nat) (B : BIT_ARRAY) : Except Int rmMt :=
  let st : rmMt := { init_rmMt B.num_of_bits with B := B }
  if st.s ≥ B.num_of_bits then Except.error 0
  else
    let a := build_arrays_u32 arch64 st num_threads
    Except.ok { st with e_prime := a.e_prime, m_prime := a.m_prime,
                        M_prime := a.M_prime, n_prime := a.n_prime }

/-- A balanced string of 2^32 + 2 parentheses: `()` repeated up to bit
2^32 − 256, then 129 opening and 127 closing parentheses (the chunk 2^24 − 1),
then two closing parentheses. -/
def wrapB : BIT_ARRAY :=
  ⟨4294967298, fun i => decide ((i < 4294967040 ∧ i % 2 = 0)
    ∨ (4294967040 ≤ i ∧ i < 4294967169))⟩

/-- What the chunk loop of a single worker with the `unsigned int` limits leaves
for the chunk `K` that ends at bit 2^32, when it is not the last chunk: its
`ulimit` wraps to 0, no bit of it is scanned, and its cells receive the values
the worker's variables had after chunk `K − 1`. -/
structure Unscanned (st : rmMt) (B : BIT_ARRAY) (K : Nat) (a : Arrays) : Prop where
  e : a.e_prime K = toInt16 (excessBefore B (256 * K))
  m : a.m_prime (st.internal_nodes + K) = a.m_prime (st.internal_nodes + (K - 1))
  M : a.M_prime (st.internal_nodes + K) = a.M_prime (st.internal_nodes + (K - 1))
  n : a.n_prime (st.internal_nodes + K) = 1
  prev : RangeMinMax B (256 * (K - 1)) (256 * K)
    (a.m_prime (st.internal_nodes + (K - 1))) (a.M_prime (st.internal_nodes + (K - 1)))

/-! ## Lemmas -/

theorem toInt16_of_fits {x : Int} (h1 : -32768 ≤ x) (h2 : x ≤ 32767) : toInt16 x = x := by
  unfold toInt16; omega

theorem toInt16_range (x : Int) : -32768 ≤ toInt16 x ∧ toInt16 x ≤ 32767 := by
  unfold toInt16; omega

theorem toInt16_add_left (x y : Int) : toInt16 (toInt16 x + y) = toInt16 (x + y) := by
  unfold toInt16; omega

theorem toInt16_sub_left (x y : Int) : toInt16 (toInt16 x - y) = toInt16 (x - y) := by
  unfold toInt16; omega

theorem forLoop_zero {σ : Type} (f : Nat → σ → σ) (s : σ) : forLoop 0 f s = s := rfl

theorem forLoop_succ {σ : Type} (n : Nat) (f : Nat → σ → σ) (s : σ) :
    forLoop (n + 1) f s = f n (forLoop n f s) := rfl

theorem setAt_same (a : Nat → Int) (i : Nat) (v : Int) : setAt a i v i = v := by
  simp [setAt]

theorem setAt_other (a : Nat → Int) {i j : Nat} (v : Int) (h : j ≠ i) : setAt a i v j = a j := by
  simp [setAt, h]

theorem bit_cases (B : BIT_ARRAY) (i : Int) :
    bit_array_get_bit B i = 0 ∨ bit_array_get_bit B i = 1 := by
  unfold bit_array_get_bit; split <;> simp

theorem excessBefore_succ (B : BIT_ARRAY) (k : Nat) :
    excessBefore B (k + 1) = excessBefore B k + (2 * bit_array_get_bit B k - 1) := rfl

theorem scan_symbol_pe (B : BIT_ARRAY) (lo sym : Nat) (v : ChunkVars)
    (h : v.partial_excess = toInt16 (excessBefore B sym)) :
    (scan_symbol B lo sym v).partial_excess = wexcess B sym := by
  have hb := bit_cases B sym
  have e : (scan_symbol B lo sym v).partial_excess =
      (if bit_array_get_bit B sym = 0 then toInt16 (v.partial_excess - 1)
        else toInt16 (v.partial_excess + 1)) := by
    unfold scan_symbol; by_cases h1 : sym = lo <;> simp [h1]
  rw [e, h, wexcess, excess, excessBefore_succ]
  rcases hb with hb | hb
  · rw [if_pos hb, hb, toInt16_sub_left]; norm_num
    rfl
  · rw [if_neg (by rw [hb]; decide), hb, toInt16_add_left]; norm_num

theorem scan_inv (B : BIT_ARRAY) (lo : Nat) (v0 : ChunkVars)
    (h0 : v0.partial_excess = toInt16 (excessBefore B lo)) (t : Nat) :
    ChunkInv B lo t (forLoop t (fun t v => scan_symbol B lo (lo + t) v) v0) := by
  induction t with
  | zero =>
    exact ⟨by simpa [forLoop] using h0, fun p h1 h2 => by omega, fun p h1 h2 => by omega,
      fun h => by omega, fun h => by omega⟩
  | succ t ih =>
    rw [forLoop_succ]
    generalize forLoop t (fun t v => scan_symbol B lo (lo + t) v) v0 = v at ih
    have hpe := scan_symbol_pe B lo (lo + t) v ih.pe
    by_cases ht : t = 0
    · subst ht
      have e : scan_symbol B lo (lo + 0) v =
          { min := (scan_symbol B lo (lo + 0) v).partial_excess,
            max := (scan_symbol B lo (lo + 0) v).partial_excess,
            partial_excess := (scan_symbol B lo (lo + 0) v).partial_excess, num_mins := 1 } := by
        unfold scan_symbol; simp
      rw [e, hpe]
      refine ⟨?_, ?_, ?_, ?_, ?_⟩
      · simp [wexcess, excess]
      · intro p h1 h2
        have : p = lo + 0 := by omega
        subst this; exact le_refl _
      · intro p h1 h2
        have : p = lo + 0 := by omega
        subst this; exact le_refl _
      · intro _; exact ⟨lo + 0, by omega, by omega, rfl⟩
      · intro _; exact ⟨lo + 0, by omega, by omega, rfl⟩
    · have hne : lo + t ≠ lo := by omega
      have hmin : (scan_symbol B lo (lo + t) v).min =
          (if wexcess B (lo + t) < v.min then wexcess B (lo + t) else v.min) := by
        rw [← hpe]; unfold scan_symbol; simp [hne]
      have hmax : (scan_symbol B lo (lo + t) v).max =
          (if wexcess B (lo + t) > v.max then wexcess B (lo + t) else v.max) := by
        rw [← hpe]; unfold scan_symbol; simp [hne]
      have htpos : 0 < t := by omega
      obtain ⟨p1, hp1, hp1', hp1e⟩ := ih.min_att htpos
      obtain ⟨p2, hp2, hp2', hp2e⟩ := ih.max_att htpos
      refine ⟨?_, ?_, ?_, ?_, ?_⟩
      · rw [hpe]; rfl
      · intro p h1 h2
        rw [hmin]
        by_cases hp : p = lo + t
        · subst hp; split <;> omega
        · have := ih.lower p h1 (by omega)
          split <;> omega
      · intro p h1 h2
        rw [hmax]
        by_cases hp : p = lo + t
        · subst hp; split <;> omega
        · have := ih.upper p h1 (by omega)
          split <;> omega
      · intro _
        rw [hmin]
        split
        · exact ⟨lo + t, by omega, by omega, rfl⟩
        · exact ⟨p1, hp1, by omega, hp1e⟩
      · intro _
        rw [hmax]
        split
        · exact ⟨lo + t, by omega, by omega, rfl⟩
        · exact ⟨p2, hp2, by omega, hp2e⟩

theorem statics_init (B : BIT_ARRAY) :
    Statics { init_rmMt B.num_of_bits with B := B } B :=
  ⟨rfl, rfl, rfl, rfl, rfl, rfl, by simp [init_rmMt]⟩

theorem chunk_limits_one (st : rmMt) (B : BIT_ARRAY) (hst : Statics st B)
    (hlen : 256 < B.num_of_bits) (c : Nat) (hc : c < st.num_chunks) :
    chunk_limits st 1 st.num_chunks st.num_chunks 0 c
      = (256 * c, min (256 * (c + 1)) B.num_of_bits) := by
  have hnc := hst.hnc
  unfold chunk_limits
  rw [hst.hs, hst.hn]
  by_cases h1 : c = st.num_chunks - 1 ∧ B.num_of_bits % (st.num_chunks * 256) ≠ 0
  · rw [if_pos ⟨by omega, h1.1, h1.2⟩]
    refine Prod.ext (by simp) ?_
    show B.num_of_bits = _
    omega
  · rw [if_neg (by intro h; exact h1 ⟨h.2.1, h.2.2⟩)]
    refine Prod.ext (by simp) ?_
    show (if B.num_of_bits < 256 then _ else _) = _
    rw [if_neg (by omega)]
    have hle : 256 * (c + 1) ≤ B.num_of_bits := by
      by_cases h2 : c = st.num_chunks - 1
      · have h3 : B.num_of_bits % (st.num_chunks * 256) = 0 := by
          by_contra h3; exact h1 ⟨h2, h3⟩
        by_contra hlt
        have h4 : B.num_of_bits < st.num_chunks * 256 := by omega
        rw [Nat.mod_eq_of_lt h4] at h3
        omega
      · omega
    omega

theorem thread_inv (st : rmMt) (B : BIT_ARRAY) (hst : Statics st B)
    (hlen : 256 < B.num_of_bits) (a0 : Arrays) (c : Nat) (hc : c ≤ st.num_chunks) :
    ThreadInv st B a0 c
      (forLoop c (fun chunk x => process_chunk st 1 st.num_chunks st.num_chunks 0 chunk x)
        ({ min := 0, max := 0, partial_excess := 0, num_mins := 1 }, a0)) := by
  induction c with
  | zero =>
    refine ⟨?_, fun c' h => by omega, fun c' h => by omega, fun j _ => rfl, fun j _ => ⟨rfl, rfl, rfl⟩⟩
    simp [forLoop, excessBefore, toInt16]
  | succ c ih =>
    have ih := ih (by omega)
    rw [forLoop_succ]
    generalize forLoop c (fun chunk x => process_chunk st 1 st.num_chunks st.num_chunks 0 chunk x)
      ({ min := 0, max := 0, partial_excess := 0, num_mins := 1 }, a0) = x at ih
    have hnc := hst.hnc
    have hlim := chunk_limits_one st B hst hlen c (by omega)
    have hlo : 256 * c < B.num_of_bits := by omega
    have hmin : min (256 * c) B.num_of_bits = 256 * c := by omega
    have hsc := scan_inv B (256 * c) { x.1 with num_mins := 1 }
      (by rw [← hmin]; exact ih.pe) (min (256 * (c + 1)) B.num_of_bits - 256 * c)
    have hhi : 256 * c + (min (256 * (c + 1)) B.num_of_bits - 256 * c)
        = min (256 * (c + 1)) B.num_of_bits := by omega
    have hpos : 0 < min (256 * (c + 1)) B.num_of_bits - 256 * c := by omega
    unfold process_chunk
    rw [hlim, hst.hB]
    simp only [Nat.zero_mul, Nat.zero_add]
    generalize forLoop (min (256 * (c + 1)) B.num_of_bits - 256 * c)
      (fun t v => scan_symbol B (256 * c) (256 * c + t) v) { x.1 with num_mins := 1 } = v at hsc
    refine ⟨?_, ?_, ?_, ?_, ?_⟩
    · show v.partial_excess = _
      rw [hsc.pe, hhi]
    · intro c' hc'
      show setAt x.2.e_prime c v.partial_excess c' = _
      by_cases h : c' = c
      · subst h; rw [setAt_same, hsc.pe, hhi]
      · rw [setAt_other _ _ h]; exact ih.e_done c' (by omega)
    · intro c' hc'
      show RangeMinMax B _ _ (setAt x.2.m_prime (st.internal_nodes + c) v.min _)
        (setAt x.2.M_prime (st.internal_nodes + c) v.max _)
      by_cases h : c' = c
      · subst h
        rw [setAt_same, setAt_same]
        refine ⟨fun p h1 h2 => ⟨hsc.lower p h1 (by omega), hsc.upper p h1 (by omega)⟩, ?_, ?_⟩
        · obtain ⟨p, h1, h2, h3⟩ := hsc.min_att hpos
          exact ⟨p, h1, by omega, h3⟩
        · obtain ⟨p, h1, h2, h3⟩ := hsc.max_att hpos
          exact ⟨p, h1, by omega, h3⟩
      · rw [setAt_other _ _ (by omega), setAt_other _ _ (by omega)]
        exact ih.leaf_done c' (by omega)
    · intro j hj
      show setAt x.2.e_prime c v.partial_excess j = _
      rw [setAt_other _ _ (by omega)]; exact ih.e_rest j (by omega)
    · intro j hj
      show setAt x.2.m_prime (st.internal_nodes + c) v.min j = _
        ∧ setAt x.2.M_prime (st.internal_nodes + c) v.max j = _
        ∧ setAt x.2.n_prime (st.internal_nodes + c) v.num_mins j = _
      rw [setAt_other _ _ (by omega), setAt_other _ _ (by omega), setAt_other _ _ (by omega)]
      exact ih.rest j (by omega)

theorem forLoop_induct {σ : Type} (P : σ → Prop) (n : Nat) (f : Nat → σ → σ)
    (h : ∀ i s, i < n → P s → P (f i s)) (s : σ) (hs : P s) : P (forLoop n f s) := by
  induction n with
  | zero => exact hs
  | succ n ih =>
    rw [forLoop_succ]
    exact h n _ (by omega) (ih (fun i s hi => h i s (by omega)))

theorem bit_natCast (B : BIT_ARRAY) (p : Nat) :
    bit_array_get_bit B (p : Int) = if p < B.num_of_bits ∧ B.bits p = true then 1 else 0 := by
  unfold bit_array_get_bit
  simp

theorem bit_toNat_cast (B : BIT_ARRAY) (i : Int) :
    (((bit_array_get_bit B i).toNat : Nat) : Int) = bit_array_get_bit B i := by
  rcases bit_cases B i with h | h <;> rw [h] <;> rfl

theorem bits_excess_window (B : BIT_ARRAY) (len : Nat) :
    ∀ j : Nat, bits_excess (window B (j : Int) len) len
      = excessBefore B (j + len) - excessBefore B j := by
  induction len with
  | zero => intro j; simp [bits_excess]
  | succ len ih =>
    intro j
    have h1 := ih (j + 1)
    have hb := bit_cases B (j : Int)
    have hw : window B (j : Int) (len + 1)
        = (bit_array_get_bit B (j : Int)).toNat + 2 * window B ((j + 1 : Nat) : Int) len := by
      simp [window]
    have e1 : j + (len + 1) = j + 1 + len := by omega
    rw [hw, e1]
    unfold bits_excess
    rcases hb with hb | hb
    · have h2 : ((bit_array_get_bit B (j : Int)).toNat + 2 * window B ((j + 1 : Nat) : Int) len) % 2
          = 0 := by rw [hb]; simp
      have h3 : ((bit_array_get_bit B (j : Int)).toNat + 2 * window B ((j + 1 : Nat) : Int) len) / 2
          = window B ((j + 1 : Nat) : Int) len := by rw [hb]; simp
      rw [h2, h3, h1, excessBefore_succ B j, hb]
      push_cast; ring
    · have h2 : ((bit_array_get_bit B (j : Int)).toNat + 2 * window B ((j + 1 : Nat) : Int) len) % 2
          = 1 := by rw [hb]; simp
      have h3 : ((bit_array_get_bit B (j : Int)).toNat + 2 * window B ((j + 1 : Nat) : Int) len) / 2
          = window B ((j + 1 : Nat) : Int) len := by rw [hb]; simp; omega
      rw [h2, h3, h1, excessBefore_succ B j, hb]
      push_cast; ring

theorem word_sum_word8 (B : BIT_ARRAY) (j : Nat) :
    word_sum (word8 B (j : Int)) = excessBefore B (j + 8) - excessBefore B j :=
  bits_excess_window B 8 j

theorem sum_bits_eq (st : rmMt) (cnt : Nat) :
    ∀ (j : Nat) (e : Int), sum_bits st cnt (j : Int) e
      = e + (excessBefore st.B (j + cnt) - excessBefore st.B j) := by
  induction cnt with
  | zero => intro j e; simp [sum_bits]
  | succ cnt ih =>
    intro j e
    have h := ih (j + 1) (e + (2 * bit_array_get_bit st.B (j : Int) - 1))
    have e1 : j + (cnt + 1) = j + 1 + cnt := by omega
    unfold sum_bits
    rw [e1, ← Nat.cast_succ, h, excessBefore_succ]
    ring

theorem sum_bytes_eq (st : rmMt) (cnt : Nat) :
    ∀ (j : Nat) (e : Int), sum_bytes st cnt (j : Int) e
      = e + (excessBefore st.B (j + 8 * cnt) - excessBefore st.B j) := by
  induction cnt with
  | zero => intro j e; simp [sum_bytes]
  | succ cnt ih =>
    intro j e
    have h := ih (j + 8) (e + word_sum (word8 st.B (j : Int)))
    have e1 : j + 8 * (cnt + 1) = j + 8 + 8 * cnt := by omega
    have e2 : ((j : Int) + 8) = ((j + 8 : Nat) : Int) := by push_cast; ring
    unfold sum_bytes
    rw [e1, e2, h, word_sum_word8]
    ring

/-- The value of `sum` at a position inside the bitstring, whatever `e'` holds. -/
theorem sum_nat (st : rmMt) (hs : st.s = 256) (i : Nat) (hi : i < st.n) :
    sum st (i : Int) =
      (if i / 256 ≠ 0 then st.e_prime (i / 256 - 1) else 0)
        + (excessBefore st.B (i + 1) - excessBefore st.B (256 * (i / 256))) := by
  unfold sum
  rw [if_neg (by omega), hs]
  have hchk : ((i : Int) / ((256 : Nat) : Int)) = ((i / 256 : Nat) : Int) := by
    push_cast; rfl
  have hll : ((i / 256 : Nat) : Int) * ((256 : Nat) : Int) = ((256 * (i / 256) : Nat) : Int) := by
    push_cast; ring
  have hcnt : steps8 ((256 * (i / 256) : Nat) : Int) ((i : Int) / 8 * 8) = i / 8 - 32 * (i / 256) := by
    unfold steps8; omega
  have hj : ((256 * (i / 256) : Nat) : Int) + 8 * ((i / 8 - 32 * (i / 256) : Nat) : Int)
      = ((8 * (i / 8) : Nat) : Int) := by omega
  have hcnt2 : ((i : Int) + 1 - ((8 * (i / 8) : Nat) : Int)).toNat = i + 1 - 8 * (i / 8) := by omega
  have hidx : (((i / 256 : Nat) : Int) - 1).toNat = i / 256 - 1 := by omega
  have hne : (((i / 256 : Nat) : Int) ≠ 0) ↔ (i / 256 ≠ 0) := by omega
  simp only [hchk, hll, hcnt, hj, hcnt2, hidx, hne]
  rw [sum_bytes_eq, sum_bits_eq]
  have e1 : 256 * (i / 256) + 8 * (i / 8 - 32 * (i / 256)) = 8 * (i / 8) := by omega
  have e2 : 8 * (i / 8) + (i + 1 - 8 * (i / 8)) = i + 1 := by omega
  rw [e1, e2]
  ring

theorem forLoop_congr {σ : Type} (n : Nat) (f g : Nat → σ → σ)
    (h : ∀ i s, i < n → f i s = g i s) (s : σ) : forLoop n f s = forLoop n g s := by
  induction n with
  | zero => rfl
  | succ n ih =>
    rw [forLoop_succ, forLoop_succ, ih (fun i s hi => h i s (by omega)), h n _ (by omega)]

theorem update_node_first (a : Arrays) (pos lchild : Nat) :
    update_node a pos lchild lchild =
      { a with m_prime := setAt a.m_prime pos (a.m_prime lchild)
               M_prime := setAt a.M_prime pos (a.M_prime lchild)
               n_prime := setAt a.n_prime pos (a.n_prime lchild) } := by
  unfold update_node; simp

theorem update_node_e (a : Arrays) (pos lchild child : Nat) :
    (update_node a pos lchild child).e_prime = a.e_prime := by
  unfold update_node
  by_cases h1 : child = lchild
  · simp [h1]
  · simp only [h1, if_false]
    split_ifs <;> rfl

theorem update_node_m (a : Arrays) (pos lchild child : Nat) (h : child ≠ lchild)
    (hc : child ≠ pos) :
    (update_node a pos lchild child).m_prime
      = setAt a.m_prime pos (min (a.m_prime pos) (a.m_prime child)) := by
  unfold update_node
  simp only [h, if_false]
  funext j
  by_cases hj : j = pos
  · subst hj
    split_ifs <;> (try dsimp only) <;> simp only [setAt, if_true] <;> omega
  · split_ifs <;> (try dsimp only) <;> simp [setAt, hj]

theorem update_node_M (a : Arrays) (pos lchild child : Nat) (h : child ≠ lchild)
    (hc : child ≠ pos) :
    (update_node a pos lchild child).M_prime
      = setAt a.M_prime pos (max (a.M_prime pos) (a.M_prime child)) := by
  unfold update_node
  simp only [h, if_false]
  funext j
  by_cases hj : j = pos
  · subst hj
    split_ifs <;> (try dsimp only at *) <;> simp only [setAt, if_true] <;> omega
  · split_ifs <;> (try dsimp only) <;> simp [setAt, hj]

/-- The effect of the child loop of the parallel part of step 2.3 on `m'` and
`M'`, for arity 2. -/
theorem node_pass_spec (st : rmMt) (hk : st.k = 2) (total pos : Nat) (a : Arrays) :
    (node_pass st total pos a).e_prime = a.e_prime
    ∧ (∀ j, j ≠ pos → (node_pass st total pos a).m_prime j = a.m_prime j
        ∧ (node_pass st total pos a).M_prime j = a.M_prime j)
    ∧ (total ≤ 2 * pos + 1 → (node_pass st total pos a).m_prime pos = a.m_prime pos
        ∧ (node_pass st total pos a).M_prime pos = a.M_prime pos)
    ∧ (total = 2 * pos + 2 → (node_pass st total pos a).m_prime pos = a.m_prime (2 * pos + 1)
        ∧ (node_pass st total pos a).M_prime pos = a.M_prime (2 * pos + 1))
    ∧ (2 * pos + 2 < total →
        (node_pass st total pos a).m_prime pos
          = min (a.m_prime (2 * pos + 1)) (a.m_prime (2 * pos + 2))
        ∧ (node_pass st total pos a).M_prime pos
          = max (a.M_prime (2 * pos + 1)) (a.M_prime (2 * pos + 2))) := by
  unfold node_pass
  rw [hk]
  have e0 : (pos + 1) * 2 + 1 - (pos * 2 + 1) = 2 := by omega
  have e1 : pos * 2 + 1 = 2 * pos + 1 := by omega
  rw [e0, e1]
  rcases Nat.lt_or_ge (2 * pos + 2) total with h | h
  · have e2 : min 2 (total - (2 * pos + 1)) = 2 := by omega
    rw [e2]
    simp only [forLoop, Nat.add_zero]
    rw [update_node_first]
    have hne : 2 * pos + 1 + 1 ≠ 2 * pos + 1 := by omega
    have hne2 : 2 * pos + 1 + 1 ≠ pos := by omega
    refine ⟨?_, ?_, ?_, ?_, ?_⟩
    · rw [update_node_e]
    · intro j hj
      rw [update_node_m _ _ _ _ hne hne2, update_node_M _ _ _ _ hne hne2]
      simp [setAt, hj]
    · intro h'; omega
    · intro h'; omega
    · intro _
      rw [update_node_m _ _ _ _ hne hne2, update_node_M _ _ _ _ hne hne2]
      have h3 : 2 * pos + 1 + 1 ≠ pos := by omega
      simp [setAt, h3]
  · rcases Nat.lt_or_ge (2 * pos + 1) total with h' | h'
    · have e2 : min 2 (total - (2 * pos + 1)) = 1 := by omega
      rw [e2]
      simp only [forLoop, Nat.add_zero]
      rw [update_node_first]
      refine ⟨rfl, ?_, ?_, ?_, ?_⟩
      · intro j hj; simp [setAt, hj]
      · intro h''; omega
      · intro _; simp [setAt]
      · intro h''; omega
    · have e2 : min 2 (total - (2 * pos + 1)) = 0 := by omega
      rw [e2, forLoop_zero]
      refine ⟨rfl, fun j _ => ⟨rfl, rfl⟩, fun _ => ⟨rfl, rfl⟩, ?_, ?_⟩
      · intro h''; omega
      · intro h''; omega

/-- One level of the parallel part of step 2.3: the nodes `base .. base+cnt-1`. -/
theorem level_pass_spec (st : rmMt) (hk : st.k = 2) (total base : Nat) (a : Arrays) (cnt : Nat)
    (hb : cnt ≤ base + 1) :
    (forLoop cnt (fun node a => node_pass st total (base + node) a) a).e_prime = a.e_prime
    ∧ (∀ j, (j < base ∨ base + cnt ≤ j) →
        (forLoop cnt (fun node a => node_pass st total (base + node) a) a).m_prime j = a.m_prime j
        ∧ (forLoop cnt (fun node a => node_pass st total (base + node) a) a).M_prime j
            = a.M_prime j)
    ∧ (∀ node, node < cnt → NodeStep total (base + node) a
        (forLoop cnt (fun node a => node_pass st total (base + node) a) a)) := by
  induction cnt with
  | zero =>
    exact ⟨rfl, fun j _ => ⟨rfl, rfl⟩, fun node h => by omega⟩
  | succ cnt ih =>
    obtain ⟨ih1, ih2, ih3⟩ := ih (by omega)
    rw [forLoop_succ]
    generalize forLoop cnt (fun node a => node_pass st total (base + node) a) a = a1 at *
    obtain ⟨h1, h2, h3, h4, h5⟩ := node_pass_spec st hk total (base + cnt) a1
    refine ⟨by rw [h1, ih1], ?_, ?_⟩
    · intro j hj
      have hne : j ≠ base + cnt := by omega
      rw [(h2 j hne).1, (h2 j hne).2]
      exact ih2 j (by omega)
    · intro node hnode
      by_cases hn : node = cnt
      · subst hn
        have c1 := ih2 (2 * (base + node) + 1) (by omega)
        have c2 := ih2 (2 * (base + node) + 2) (by omega)
        have c0 := ih2 (base + node) (by omega)
        refine ⟨?_, ?_, ?_⟩
        · intro h; rw [(h3 h).1, (h3 h).2]; exact c0
        · intro h; rw [(h4 h).1, (h4 h).2]; exact c1
        · intro h; rw [(h5 h).1, (h5 h).2, c1.1, c1.2, c2.1, c2.2]; exact ⟨rfl, rfl⟩
      · have hne : base + node ≠ base + cnt := by omega
        have := ih3 node (by omega)
        unfold NodeStep at this ⊢
        rw [(h2 _ hne).1, (h2 _ hne).2]
        exact this

theorem node_children (n h l k : Nat) (hl : l < h) :
    0 < 2 ^ (h - (l + 1))
    ∧ nodeLo h (l + 1) (2 * k) = nodeLo h l k
    ∧ nodeLo h (l + 1) (2 * k + 1) = nodeLo h l k + 256 * 2 ^ (h - (l + 1))
    ∧ nodeHi n h (l + 1) (2 * k) = min n (nodeLo h l k + 256 * 2 ^ (h - (l + 1)))
    ∧ nodeHi n h (l + 1) (2 * k + 1) = min n (nodeLo h l k + 512 * 2 ^ (h - (l + 1)))
    ∧ nodeHi n h l k = min n (nodeLo h l k + 512 * 2 ^ (h - (l + 1))) := by
  have e : h - l = (h - (l + 1)) + 1 := by omega
  have hW : 0 < 2 ^ (h - (l + 1)) := by positivity
  unfold nodeLo nodeHi
  rw [e, pow_succ]
  generalize 2 ^ (h - (l + 1)) = W at hW
  refine ⟨hW, by ring, by ring, ?_, ?_, ?_⟩
  · congr 1; ring
  · congr 1; ring
  · congr 1; ring

theorem rangeMinMax_union (B : BIT_ARRAY) (lo mid hi : Nat) (m1 M1 m2 M2 : Int)
    (h1 : RangeMinMax B lo mid m1 M1) (h2 : RangeMinMax B mid hi m2 M2) :
    RangeMinMax B lo hi (min m1 m2) (max M1 M2) := by
  obtain ⟨b1, ⟨p1, hp1, hp1', e1⟩, ⟨q1, hq1, hq1', f1⟩⟩ := h1
  obtain ⟨b2, ⟨p2, hp2, hp2', e2⟩, ⟨q2, hq2, hq2', f2⟩⟩ := h2
  refine ⟨?_, ?_, ?_⟩
  · intro p hp hp'
    by_cases hpm : p < mid
    · have := b1 p hp hpm
      exact ⟨le_trans (min_le_left _ _) this.1, le_trans this.2 (le_max_left _ _)⟩
    · have := b2 p (by omega) hp'
      exact ⟨le_trans (min_le_right _ _) this.1, le_trans this.2 (le_max_right _ _)⟩
  · rcases le_total m1 m2 with hm | hm
    · rw [min_eq_left hm]; exact ⟨p1, hp1, by omega, e1⟩
    · rw [min_eq_right hm]; exact ⟨p2, by omega, hp2', e2⟩
  · rcases le_total M1 M2 with hm | hm
    · rw [max_eq_right hm]; exact ⟨q2, by omega, hq2', f2⟩
    · rw [max_eq_left hm]; exact ⟨q1, hq1, by omega, f1⟩

/-- A node is right after its pass when its two children were right before. -/
theorem node_ok_of_children (B : BIT_ARRAY) (lo W total pos : Nat) (a a' : Arrays)
    (hW : 0 < W) (hn : 0 < B.num_of_bits) (hlast : wexcess B (B.num_of_bits - 1) = 0)
    (hstep : NodeStep total pos a a')
    (okL : (lo < B.num_of_bits →
        RangeMinMax B lo (min B.num_of_bits (lo + 256 * W))
          (a.m_prime (2 * pos + 1)) (a.M_prime (2 * pos + 1)))
      ∧ (B.num_of_bits ≤ lo → a.m_prime (2 * pos + 1) = 0 ∧ a.M_prime (2 * pos + 1) = 0))
    (okR : (lo + 256 * W < B.num_of_bits →
        RangeMinMax B (lo + 256 * W) (min B.num_of_bits (lo + 512 * W))
          (a.m_prime (2 * pos + 2)) (a.M_prime (2 * pos + 2)))
      ∧ (B.num_of_bits ≤ lo + 256 * W →
          a.m_prime (2 * pos + 2) = 0 ∧ a.M_prime (2 * pos + 2) = 0))
    (hz : total ≤ 2 * pos + 1 → a.m_prime pos = 0 ∧ a.M_prime pos = 0)
    (exL : lo < B.num_of_bits → 2 * pos + 1 < total)
    (exR : lo + 256 * W < B.num_of_bits → 2 * pos + 2 < total) :
    (lo < B.num_of_bits →
        RangeMinMax B lo (min B.num_of_bits (lo + 512 * W)) (a'.m_prime pos) (a'.M_prime pos))
      ∧ (B.num_of_bits ≤ lo → a'.m_prime pos = 0 ∧ a'.M_prime pos = 0) := by
  obtain ⟨s1, s2, s3⟩ := hstep
  refine ⟨?_, ?_⟩
  · intro hne
    have rL := okL.1 hne
    have vL := exL hne
    by_cases hmid : lo + 256 * W < B.num_of_bits
    · have rR := okR.1 hmid
      have vR := exR hmid
      rw [(s3 vR).1, (s3 vR).2]
      have e1 : min B.num_of_bits (lo + 256 * W) = lo + 256 * W := by omega
      rw [e1] at rL
      exact rangeMinMax_union B lo _ _ _ _ _ _ rL rR
    · have e1 : min B.num_of_bits (lo + 256 * W) = min B.num_of_bits (lo + 512 * W) := by omega
      rw [e1] at rL
      have e2 : min B.num_of_bits (lo + 512 * W) = B.num_of_bits := by omega
      by_cases vR : 2 * pos + 2 < total
      · have zR := okR.2 (by omega)
        rw [(s3 vR).1, (s3 vR).2, zR.1, zR.2]
        have hb := rL.1 (B.num_of_bits - 1) (by omega) (by omega)
        rw [hlast] at hb
        rw [min_eq_left hb.1, max_eq_left hb.2]
        exact rL
      · have et : total = 2 * pos + 2 := by omega
        rw [(s2 et).1, (s2 et).2]
        exact rL
  · intro hemp
    have zL := okL.2 hemp
    have zR := okR.2 (by omega)
    rcases Nat.lt_trichotomy total (2 * pos + 2) with hc | hc | hc
    · rw [(s1 (by omega)).1, (s1 (by omega)).2]
      exact hz (by omega)
    · rw [(s2 hc).1, (s2 hc).2]; exact zL
    · rw [(s3 hc).1, (s3 hc).2, zL.1, zL.2, zR.1, zR.2]; simp

theorem idx_left (P k : Nat) (hP : 0 < P) : 2 * P - 1 + 2 * k = 2 * (P - 1 + k) + 1 := by omega

theorem idx_right (P k : Nat) (hP : 0 < P) :
    2 * P - 1 + (2 * k + 1) = 2 * (P - 1 + k) + 2 := by omega

/-- A node that covers a bit has a cell in the arrays. -/
theorem node_exists (n h l c : Nat) (hl : l ≤ h) (hc : c < 2 ^ l) (hlo : nodeLo h l c < n) :
    2 ^ l - 1 + c < 2 ^ h - 1 + (n + 256 - 1) / 256 := by
  rcases Nat.lt_or_ge l h with hlt | hge
  · have h1 : 2 ^ (l + 1) ≤ 2 ^ h := Nat.pow_le_pow_right (by decide) (by omega)
    have h2 : 2 ^ (l + 1) = 2 * 2 ^ l := by rw [pow_succ]; ring
    omega
  · have e : l = h := by omega
    subst e
    simp only [nodeLo, Nat.sub_self, pow_zero, Nat.mul_one] at hlo
    omega

/-- One level of step 2.3 extends the invariant by that level. -/
theorem tree_step (st : rmMt) (B : BIT_ARRAY) (hst : Statics st B)
    (hlen : 256 < B.num_of_bits)
    (hlast : wexcess B (B.num_of_bits - 1) = 0)
    (t : Nat) (ht : t < st.height) (a : Arrays) (inv : TreeInv B st.height t a) :
    TreeInv B st.height (t + 1)
      (forLoop (2 ^ (st.height - 1 - t)) (fun node a =>
        node_pass st (st.internal_nodes + st.num_chunks) (2 ^ (st.height - 1 - t) - 1 + node) a)
        a) := by
  obtain ⟨_, lp2, lp3⟩ := level_pass_spec st hst.hk (st.internal_nodes + st.num_chunks)
    (2 ^ (st.height - 1 - t) - 1) a (2 ^ (st.height - 1 - t))
    (by have : 0 < 2 ^ (st.height - 1 - t) := by positivity
        omega)
  generalize forLoop (2 ^ (st.height - 1 - t)) (fun node a =>
        node_pass st (st.internal_nodes + st.num_chunks) (2 ^ (st.height - 1 - t) - 1 + node) a)
        a = a' at *
  have htot : st.internal_nodes + st.num_chunks
      = 2 ^ st.height - 1 + (B.num_of_bits + 256 - 1) / 256 := by rw [hst.hI, hst.hnc]
  rw [htot] at lp3
  clear htot hst
  generalize st.height = h at *
  obtain ⟨idone, itodo⟩ := inv
  have ht0 : h - t = (h - 1 - t) + 1 := by omega
  have ht1 : h - (t + 1) = h - 1 - t := by omega
  rw [ht0] at idone itodo
  have hlh : h - 1 - t < h := by omega
  clear ht0 ht
  generalize h - 1 - t = l at *
  have hP : 0 < 2 ^ l := by positivity
  have hP1 : 2 ^ (l + 1) = 2 * 2 ^ l := by rw [pow_succ]; ring
  refine ⟨?_, ?_⟩
  · intro l' k hl1 hl2 hk
    rw [ht1] at hl1
    by_cases hll : l' = l
    · subst hll
      obtain ⟨hW, cLlo, cRlo, cLhi, cRhi, hhi⟩ := node_children B.num_of_bits h l' k hlh
      have hk2 : 2 * k + 1 < 2 ^ (l' + 1) := by omega
      have okL := idone (l' + 1) (2 * k) (le_refl _) (by omega) (by omega)
      have okR := idone (l' + 1) (2 * k + 1) (le_refl _) (by omega) hk2
      have exL := node_exists B.num_of_bits h (l' + 1) (2 * k) (by omega) (by omega)
      have exR := node_exists B.num_of_bits h (l' + 1) (2 * k + 1) (by omega) hk2
      unfold NodeOK at okL okR ⊢
      rw [hP1, idx_left _ _ hP, cLlo] at okL exL
      rw [hP1, idx_right _ _ hP, cRlo] at okR exR
      rw [cLhi] at okL
      rw [cRhi] at okR
      rw [hhi]
      refine node_ok_of_children B _ _ _ _ a a' hW (by omega) hlast (lp3 k hk) okL okR ?_ exL exR
      intro htot
      exact itodo _ (by omega)
    · have hge : 2 ^ (l + 1) ≤ 2 ^ l' := Nat.pow_le_pow_right (by decide) (by omega)
      have := lp2 (2 ^ l' - 1 + k) (Or.inr (by omega))
      rw [this.1, this.2]
      exact idone l' k (by omega) hl2 hk
  · intro j hj
    rw [ht1] at hj
    have := lp2 j (Or.inl (by omega))
    rw [this.1, this.2]
    exact itodo j (by omega)

theorem ceil_log_from_spec (m : Nat) (fuel : Nat) :
    ∀ h, m ≤ 2 ^ (h + fuel) → m ≤ 2 ^ ceil_log_from 2 m fuel h := by
  induction fuel with
  | zero => intro h hm; simpa [ceil_log_from] using hm
  | succ fuel ih =>
    intro h hm
    unfold ceil_log_from
    split
    · assumption
    · exact ih (h + 1) (by rw [show h + 1 + fuel = h + (fuel + 1) by omega]; exact hm)

theorem le_two_pow_ceil_log (m : Nat) : m ≤ 2 ^ ceil_log 2 m := by
  unfold ceil_log
  exact ceil_log_from_spec m m 0 (by rw [Nat.zero_add]; exact le_of_lt (Nat.lt_two_pow m))

theorem build_arrays_one (st : rmMt) (hk : st.k = 2) :
    build_arrays st 1 = levelsDone st st.height (leafArrays st) := by
  unfold build_arrays step_2_1 step_2_2_seq step_2_2_fix step_2_3_par step_2_3_seq thread_scan
    levelsDone leafArrays zeroArrays
  simp [forLoop, ceil_log, ceil_log_from, hk]

theorem levelsDone_e (st : rmMt) (hk : st.k = 2) (t : Nat) (a : Arrays) :
    (levelsDone st t a).e_prime = a.e_prime := by
  unfold levelsDone
  refine forLoop_induct (fun x => x.e_prime = a.e_prime) t _ ?_ a rfl
  intro i s _ hs
  have h := (level_pass_spec st hk (st.internal_nodes + st.num_chunks)
    (2 ^ (st.height - 1 - i) - 1) s (2 ^ (st.height - 1 - i))
    (by have : 0 < 2 ^ (st.height - 1 - i) := by positivity
        omega)).1
  show (forLoop _ _ s).e_prime = _
  rw [h, hs]

theorem leaf_inv (st : rmMt) (B : BIT_ARRAY) (hst : Statics st B) (hlen : 256 < B.num_of_bits) :
    ThreadInv st B zeroArrays st.num_chunks
      ((forLoop st.num_chunks
        (fun chunk x => process_chunk st 1 st.num_chunks st.num_chunks 0 chunk x)
        ({ min := 0, max := 0, partial_excess := 0, num_mins := 1 }, zeroArrays))) :=
  thread_inv st B hst hlen zeroArrays st.num_chunks (le_refl _)

theorem tree_base (st : rmMt) (B : BIT_ARRAY) (hst : Statics st B) (hlen : 256 < B.num_of_bits) :
    TreeInv B st.height 0 (leafArrays st) := by
  have inv := leaf_inv st B hst hlen
  have hI := hst.hI
  have hnc := hst.hnc
  refine ⟨?_, ?_⟩
  · intro l k hl1 hl2 hk
    have e : l = st.height := by omega
    subst e
    have hlo : nodeLo st.height st.height k = 256 * k := by simp [nodeLo]
    have hhi : nodeHi B.num_of_bits st.height st.height k
        = min (256 * (k + 1)) B.num_of_bits := by simp [nodeHi, Nat.min_comm]
    unfold NodeOK
    rw [hlo, hhi, ← hI]
    refine ⟨?_, ?_⟩
    · intro h
      exact inv.leaf_done k (by omega)
    · intro h
      have := inv.rest (st.internal_nodes + k) (Or.inr (by omega))
      exact ⟨this.1, this.2.1⟩
  · intro j hj
    rw [Nat.sub_zero] at hj
    have := inv.rest j (Or.inl (by omega))
    exact ⟨this.1, this.2.1⟩

theorem tree_levels (st : rmMt) (B : BIT_ARRAY) (hst : Statics st B)
    (hlen : 256 < B.num_of_bits) (hlast : wexcess B (B.num_of_bits - 1) = 0)
    (t : Nat) (ht : t ≤ st.height) :
    TreeInv B st.height t (levelsDone st t (leafArrays st)) := by
  induction t with
  | zero => exact tree_base st B hst hlen
  | succ t ih =>
    exact tree_step st B hst hlen hlast t (by omega) _ (ih (by omega))

theorem st_create_one (B : BIT_ARRAY) (hlen : 256 < B.num_of_bits) :
    st_create 1 B = Except.ok (builtSt B) := by
  unfold st_create
  simp only []
  rw [if_neg (by show ¬ (256 ≥ B.num_of_bits); omega)]
  rfl

theorem statics_base (B : BIT_ARRAY) : Statics (baseSt B) B :=
  ⟨rfl, rfl, rfl, rfl, rfl, rfl, by simp [baseSt, init_rmMt]⟩

theorem statics_built (B : BIT_ARRAY) : Statics (builtSt B) B :=
  ⟨rfl, rfl, rfl, rfl, rfl, rfl, by simp [builtSt, baseSt, init_rmMt]⟩

theorem built_e (B : BIT_ARRAY) : (builtSt B).e_prime = (leafArrays (baseSt B)).e_prime := by
  show (build_arrays _ 1).e_prime = _
  rw [build_arrays_one _ (statics_base B).hk, levelsDone_e _ (statics_base B).hk]

theorem built_m (B : BIT_ARRAY) :
    (builtSt B).m_prime
      = (levelsDone (baseSt B) (baseSt B).height (leafArrays (baseSt B))).m_prime := by
  show (build_arrays _ 1).m_prime = _
  rw [build_arrays_one _ (statics_base B).hk]

theorem built_M (B : BIT_ARRAY) :
    (builtSt B).M_prime
      = (levelsDone (baseSt B) (baseSt B).height (leafArrays (baseSt B))).M_prime := by
  show (build_arrays _ 1).M_prime = _
  rw [build_arrays_one _ (statics_base B).hk]

/-- Invariant 1 up to wrapping: `e'[c]` is the wrapped excess at the end of chunk `c`. -/
theorem built_e_prime (B : BIT_ARRAY) (hlen : 256 < B.num_of_bits) (c : Nat)
    (hc : c < (builtSt B).num_chunks) :
    (builtSt B).e_prime c = toInt16 (excessBefore B (min (256 * (c + 1)) B.num_of_bits)) := by
  rw [built_e]
  exact (leaf_inv (baseSt B) B (statics_base B) hlen).e_done c hc

/-- Every node of the tree is right, up to wrapping, when the total excess is 0. -/
theorem built_tree (B : BIT_ARRAY) (hlen : 256 < B.num_of_bits)
    (hlast : wexcess B (B.num_of_bits - 1) = 0) (l k : Nat) (hl : l ≤ (builtSt B).height)
    (hk : k < 2 ^ l) :
    NodeOK B (builtSt B).height l k ((builtSt B).m_prime (2 ^ l - 1 + k))
      ((builtSt B).M_prime (2 ^ l - 1 + k)) := by
  rw [built_m, built_M]
  exact (tree_levels (baseSt B) B (statics_base B) hlen hlast (baseSt B).height (le_refl _)).done
    l k (by omega) hl hk

theorem excess_eq_ones (B : BIT_ARRAY) (k : Nat) :
    excessBefore B k = 2 * (onesBefore B k : Int) - k := by
  induction k with
  | zero => simp [excessBefore, onesBefore]
  | succ k ih =>
    rw [excessBefore_succ, ih]
    show _ = 2 * ((onesBefore B k + (bit_array_get_bit B k).toNat : Nat) : Int) - _
    push_cast
    rw [bit_toNat_cast]
    ring

theorem ones_add_zeros (B : BIT_ARRAY) (k : Nat) : onesBefore B k + zerosBefore B k = k := by
  induction k with
  | zero => rfl
  | succ k ih =>
    show onesBefore B k + (bit_array_get_bit B k).toNat
      + (zerosBefore B k + (1 - bit_array_get_bit B k).toNat) = k + 1
    rcases bit_cases B k with h | h <;> rw [h] <;> simp <;> omega

theorem excess_eq_zeros (B : BIT_ARRAY) (k : Nat) :
    excessBefore B k = (k : Int) - 2 * (zerosBefore B k : Int) := by
  have h1 := excess_eq_ones B k
  have h2 := ones_add_zeros B k
  omega

theorem wexcess_of_fits (B : BIT_ARRAY) (hfit : FitsInt16 B) (p : Nat)
    (hp : p < B.num_of_bits) : wexcess B p = excess B p := by
  have := hfit p hp
  exact toInt16_of_fits this.1 this.2

theorem wrapped_prefix_of_fits (B : BIT_ARRAY) (hfit : FitsInt16 B) (k : Nat)
    (hk : k ≤ B.num_of_bits) : toInt16 (excessBefore B k) = excessBefore B k := by
  rcases Nat.eq_zero_or_pos k with h | h
  · subst h; rfl
  · have := hfit (k - 1) (by omega)
    unfold excess at this
    rw [show k - 1 + 1 = k by omega] at this
    exact toInt16_of_fits this.1 this.2

/-- Value of `sum` on a one-worker index, whatever the excesses are. -/
theorem built_sum (B : BIT_ARRAY) (hlen : 256 < B.num_of_bits) (i : Nat)
    (hi : i < B.num_of_bits) :
    sum (builtSt B) (i : Int)
      = toInt16 (excessBefore B (256 * (i / 256)))
        + (excess B i - excessBefore B (256 * (i / 256))) := by
  have hst := statics_built B
  rw [sum_nat (builtSt B) hst.hs i (by rw [hst.hn]; exact hi), hst.hB]
  by_cases h : i / 256 = 0
  · rw [if_neg (by simpa using h), h]
    simp [excessBefore, toInt16, excess]
  · rw [if_pos h, built_e_prime B hlen (i / 256 - 1) (by rw [hst.hnc]; omega)]
    have e : min (256 * (i / 256 - 1 + 1)) B.num_of_bits = 256 * (i / 256) := by omega
    rw [e]
    rfl

theorem built_sum_fits (B : BIT_ARRAY) (hlen : 256 < B.num_of_bits) (hfit : FitsInt16 B)
    (i : Nat) (hi : i < B.num_of_bits) : sum (builtSt B) (i : Int) = excess B i := by
  rw [built_sum B hlen i hi, wrapped_prefix_of_fits B hfit _ (by omega)]
  ring

theorem built_rank (B : BIT_ARRAY) (hlen : 256 < B.num_of_bits) (hfit : FitsInt16 B)
    (i : Nat) (hi : i < B.num_of_bits) :
    rank_1 (builtSt B) (i : Int) = onesBefore B (i + 1)
      ∧ rank_0 (builtSt B) (i : Int) = zerosBefore B (i + 1) := by
  have hst := statics_built B
  have hs := built_sum_fits B hlen hfit i hi
  have h1 := excess_eq_ones B (i + 1)
  have h0 := excess_eq_zeros B (i + 1)
  unfold rank_1 rank_0
  rw [hst.hn]
  simp only []
  rw [if_neg (by omega), hs]
  unfold excess
  constructor
  · rw [h1]
    have : ((i : Int) + 1 + (2 * (onesBefore B (i + 1) : Int) - ((i + 1 : Nat) : Int)))
        = 2 * (onesBefore B (i + 1) : Int) := by push_cast; ring
    rw [this]
    exact Int.mul_tdiv_cancel_left _ (by decide)
  · rw [h0]
    have : ((i : Int) + 1 - (((i + 1 : Nat) : Int) - 2 * (zerosBefore B (i + 1) : Int)))
        = 2 * (zerosBefore B (i + 1) : Int) := by push_cast; ring
    rw [this]
    exact Int.mul_tdiv_cancel_left _ (by decide)

/-- A counter that starts below `i` and moves by at most one reaches `i` for
the first time at some step. -/
theorem first_reach (f : Nat → Nat) (hstep : ∀ k, f k ≤ f (k + 1) ∧ f (k + 1) ≤ f k + 1)
    (i : Nat) (h0 : f 0 < i) :
    ∀ K, i ≤ f K → ∃ r, r < K ∧ f (r + 1) = i ∧ ∀ r', r' ≤ r → f r' < i := by
  intro K
  induction K with
  | zero => intro h; omega
  | succ K ih =>
    intro h
    by_cases hK : i ≤ f K
    · obtain ⟨r, h1, h2, h3⟩ := ih hK
      exact ⟨r, by omega, h2, h3⟩
    · refine ⟨K, by omega, by have := hstep K; omega, ?_⟩
      intro r' hr'
      have mono : ∀ d, f (K - d) ≤ f K := by
        intro d
        induction d with
        | zero => exact le_refl _
        | succ d ihd =>
          rcases Nat.lt_or_ge d K with hd | hd
          · have := (hstep (K - (d + 1))).1
            rw [show K - (d + 1) + 1 = K - d by omega] at this
            omega
          · rw [show K - (d + 1) = K - d by omega]; exact ihd
      have := mono (K - r')
      rw [show K - (K - r') = r' by omega] at this
      omega

theorem ones_step (B : BIT_ARRAY) (k : Nat) :
    onesBefore B k ≤ onesBefore B (k + 1) ∧ onesBefore B (k + 1) ≤ onesBefore B k + 1 := by
  show _ ≤ onesBefore B k + (bit_array_get_bit B k).toNat
    ∧ onesBefore B k + (bit_array_get_bit B k).toNat ≤ _
  rcases bit_cases B k with h | h <;> rw [h] <;> simp

theorem zeros_step (B : BIT_ARRAY) (k : Nat) :
    zerosBefore B k ≤ zerosBefore B (k + 1) ∧ zerosBefore B (k + 1) ≤ zerosBefore B k + 1 := by
  show _ ≤ zerosBefore B k + (1 - bit_array_get_bit B k).toNat
    ∧ zerosBefore B k + (1 - bit_array_get_bit B k).toNat ≤ _
  rcases bit_cases B k with h | h <;> rw [h] <;> simp

theorem ones_succ_bit (B : BIT_ARRAY) (k : Nat) (h : onesBefore B k < onesBefore B (k + 1)) :
    bit_array_get_bit B k = 1 := by
  have e : onesBefore B (k + 1) = onesBefore B k + (bit_array_get_bit B k).toNat := rfl
  rcases bit_cases B k with hb | hb
  · rw [e, hb] at h; simp at h
  · exact hb

theorem zeros_succ_bit (B : BIT_ARRAY) (k : Nat) (h : zerosBefore B k < zerosBefore B (k + 1)) :
    bit_array_get_bit B k = 0 := by
  have e : zerosBefore B (k + 1) = zerosBefore B k + (1 - bit_array_get_bit B k).toNat := rfl
  rcases bit_cases B k with hb | hb
  · exact hb
  · rw [e, hb] at h; simp at h

/-- The excess last takes a value `v` it has dropped from. -/
theorem last_crossing (B : BIT_ARRAY) (v : Int) (hv : 0 ≤ v) :
    ∀ j, v < excessBefore B j →
      ∃ r, r < j ∧ excessBefore B r = v ∧ ∀ r', r < r' → r' ≤ j → v < excessBefore B r' := by
  intro j
  induction j with
  | zero => intro h; simp [excessBefore] at h; omega
  | succ j ih =>
    intro h
    by_cases hj : v < excessBefore B j
    · obtain ⟨r, h1, h2, h3⟩ := ih hj
      refine ⟨r, by omega, h2, ?_⟩
      intro r' hr1 hr2
      by_cases e : r' = j + 1
      · subst e; exact h
      · exact h3 r' hr1 (by omega)
    · refine ⟨j, by omega, ?_, ?_⟩
      · rw [excessBefore_succ] at h
        rcases bit_cases B j with hb | hb <;> rw [hb] at h <;> omega
      · intro r' hr1 hr2
        have e : r' = j + 1 := by omega
        subst e; exact h

theorem bwd_loop_found (st : rmMt) (T : Int) (j r : Nat)
    (hr : excessBefore st.B r = excessBefore st.B (j + 1)) :
    ∀ cnt p, r ≤ p → p < r + cnt →
      (∀ r', r < r' → r' ≤ p → excessBefore st.B r' ≠ excessBefore st.B (j + 1)) →
      bwd_loop st T cnt (p : Int)
        (T + (excessBefore st.B (j + 1) - excessBefore st.B (p + 1))) = (r : Int) := by
  intro cnt
  induction cnt with
  | zero => intro p h1 h2; omega
  | succ cnt ih =>
    intro p h1 h2 h3
    unfold bwd_loop
    have e : T + (excessBefore st.B (j + 1) - excessBefore st.B (p + 1))
          + (2 * bit_array_get_bit st.B (p : Int) - 1)
        = T + (excessBefore st.B (j + 1) - excessBefore st.B p) := by
      rw [excessBefore_succ st.B p]; ring
    rw [e]
    by_cases hp : p = r
    · subst hp
      rw [if_pos (by rw [hr]; ring)]
    · have hne := h3 p (by omega) (le_refl _)
      rw [if_neg (by intro h; apply hne; omega)]
      have e2 : ((p : Int) - 1) = ((p - 1 : Nat) : Int) := by omega
      have := ih (p - 1) (by omega) (by omega) (fun r' a b => h3 r' a (by omega))
      rw [show p - 1 + 1 = p by omega] at this
      rw [e2]
      exact this

theorem select_1_loop_found (st : rmMt) (i : Int) (r : Nat)
    (hr : excess st.B r = 2 * i - 1 - r) :
    ∀ cnt j, j ≤ r → r < j + cnt →
      (∀ r', j ≤ r' → r' < r → excess st.B r' ≠ 2 * i - 1 - r') →
      select_1_loop st cnt (j : Int) (2 * i - 1 - j) (excessBefore st.B j) = (r : Int) := by
  intro cnt
  induction cnt with
  | zero => intro j h1 h2; omega
  | succ cnt ih =>
    intro j h1 h2 h3
    unfold select_1_loop
    rw [← excessBefore_succ]
    by_cases hj : j = r
    · subst hj
      rw [if_pos (show excessBefore st.B (j + 1) = _ from hr)]
    · have hne := h3 j (le_refl _) (by omega)
      rw [if_neg (show ¬ excessBefore st.B (j + 1) = _ from hne)]
      have := ih (j + 1) (by omega) (by omega) (fun r' a b => h3 r' (by omega) b)
      rw [show (2 * i - 1 - ((j + 1 : Nat) : Int)) = 2 * i - 1 - (j : Int) - 1 by push_cast; ring,
        show (((j + 1 : Nat) : Int)) = (j : Int) + 1 by push_cast; ring] at this
      exact this

theorem select_0_loop_found (st : rmMt) (i : Int) (r : Nat)
    (hr : excess st.B r = r + 1 - 2 * i) :
    ∀ cnt p, p ≤ r → r < p + cnt →
      (∀ r', p ≤ r' → r' < r → excess st.B r' ≠ r' + 1 - 2 * i) →
      select_0_loop st cnt ((p : Int) + 1) ((p : Int) + 1 - 2 * i) (excess st.B p) = (r : Int) := by
  intro cnt
  induction cnt with
  | zero => intro p h1 h2; omega
  | succ cnt ih =>
    intro p h1 h2 h3
    unfold select_0_loop
    by_cases hp : p = r
    · subst hp
      rw [if_pos hr]; ring
    · have hne := h3 p (le_refl _) (by omega)
      rw [if_neg hne]
      have := ih (p + 1) (by omega) (by omega) (fun r' a b => h3 r' (by omega) b)
      have e1 : excess st.B p + (2 * bit_array_get_bit st.B ((p : Int) + 1) - 1)
          = excess st.B (p + 1) := by
        unfold excess
        rw [excessBefore_succ st.B (p + 1)]
        push_cast; rfl
      rw [e1]
      rw [show ((((p + 1 : Nat) : Int)) + 1 - 2 * i) = (p : Int) + 1 - 2 * i + 1 by push_cast; ring,
        show (((p + 1 : Nat) : Int)) = (p : Int) + 1 by push_cast; ring] at this
      exact this

theorem go_up_succ (st : rmMt) (target : Int) (fuel : Nat) (node : Int) :
    go_up st target (fuel + 1) node =
      if is_root node then none
      else if is_left_child node then
        if st.m_prime (right_sibling node).toNat ≤ target - 1
            ∧ target - 1 ≤ st.M_prime (right_sibling node).toNat then
          some (right_sibling node)
        else go_up st target fuel (parent (right_sibling node))
      else go_up st target fuel (parent node) := rfl

theorem go_down_succ (heigh : Nat) (st : rmMt) (target : Int) (fuel : Nat) (node : Int) :
    go_down heigh st target (fuel + 1) node =
      if is_leaf heigh node then some node
      else if st.m_prime (left_child node).toNat ≤ target - 1
          ∧ target - 1 ≤ st.M_prime (left_child node).toNat then
        go_down heigh st target fuel (left_child node)
      else if st.m_prime (right_sibling (left_child node)).toNat > target - 1
          ∨ target - 1 > st.M_prime (right_sibling (left_child node)).toNat then
        none
      else go_down heigh st target fuel (right_sibling (left_child node)) := rfl

/-- The ascent of `fwd_search` needs no more steps than the index of the node
it starts from: more fuel does not change its result. -/
theorem go_up_fuel (st : rmMt) (target : Int) :
    ∀ (fuel : Nat) (node : Int), 0 ≤ node → node ≤ fuel →
      go_up st target (fuel + 1) node = go_up st target fuel node := by
  intro fuel
  induction fuel with
  | zero =>
    intro node h0 h1
    have e : node = 0 := by omega
    subst e
    simp [go_up, is_root]
  | succ fuel ih =>
    intro node h0 h1
    rw [go_up_succ st target (fuel + 1) node, go_up_succ st target fuel node]
    by_cases hr : is_root node = true
    · simp [hr]
    · have hne : node ≠ 0 := by simpa [is_root] using hr
      have hp1 : parent (right_sibling node) = Int.tdiv node 2 := by
        have : ¬ (node + 1 = 0) := by omega
        simp [parent, right_sibling, is_root, this]
      have hp2 : parent node = Int.tdiv (node - 1) 2 := by
        simp [parent, is_root, hne]
      have b1 : 0 ≤ Int.tdiv node 2 ∧ Int.tdiv node 2 ≤ fuel := by
        rw [Int.tdiv_eq_ediv h0 (by decide)]; omega
      have b2 : 0 ≤ Int.tdiv (node - 1) 2 ∧ Int.tdiv (node - 1) 2 ≤ fuel := by
        rw [Int.tdiv_eq_ediv (by omega) (by decide)]; omega
      rw [hp1, hp2, ih _ b1.1 b1.2, ih _ b2.1 b2.2]

/-- The descent of `fwd_search` needs no more than `heigh` steps: more fuel
does not change its result. -/
theorem go_down_fuel (heigh : Nat) (st : rmMt) (target : Int) :
    ∀ (fuel : Nat) (node : Int), 0 ≤ node → (2 : Int) ^ heigh ≤ (node + 1) * 2 ^ fuel →
      go_down heigh st target (fuel + 1) node = go_down heigh st target fuel node := by
  intro fuel
  induction fuel with
  | zero =>
    intro node h0 h1
    have hl : is_leaf heigh node = true := by
      simp only [is_leaf, decide_eq_true_eq]
      simp only [pow_zero, mul_one] at h1
      omega
    simp [go_down, hl]
  | succ fuel ih =>
    intro node h0 h1
    rw [go_down_succ heigh st target (fuel + 1) node, go_down_succ heigh st target fuel node]
    have e1 : (2 : Int) ^ heigh ≤ (left_child node + 1) * 2 ^ fuel := by
      have : (left_child node + 1) * 2 ^ fuel = (node + 1) * 2 ^ (fuel + 1) := by
        unfold left_child; rw [pow_succ]; ring
      rw [this]; exact h1
    have e2 : (2 : Int) ^ heigh ≤ (right_sibling (left_child node) + 1) * 2 ^ fuel := by
      have hpos : (0 : Int) ≤ 2 ^ fuel := by positivity
      have : (right_sibling (left_child node) + 1) * 2 ^ fuel
          = (left_child node + 1) * 2 ^ fuel + 2 ^ fuel := by
        unfold right_sibling; ring
      rw [this]; omega
    have p1 : 0 ≤ left_child node := by unfold left_child; omega
    have p2 : 0 ≤ right_sibling (left_child node) := by unfold right_sibling left_child; omega
    rw [ih _ p1 e1, ih _ p2 e2]

/-- `st_create` returns an index over `B` for every worker count once `n > 256`. -/
theorem st_create_ok (P : Nat) (B : BIT_ARRAY) (hlen : 256 < B.num_of_bits) :
    ∃ st, st_create P B = Except.ok st ∧ st.B = B ∧ st.n = B.num_of_bits ∧ st.s = 256 := by
  unfold st_create
  simp only []
  rw [if_neg (by show ¬ (256 ≥ B.num_of_bits); omega)]
  exact ⟨_, rfl, rfl, rfl, rfl⟩

theorem balanced_last (B : BIT_ARRAY) (hlen : 0 < B.num_of_bits) (hbal : Balanced B) :
    wexcess B (B.num_of_bits - 1) = 0 := by
  unfold wexcess excess
  rw [show B.num_of_bits - 1 + 1 = B.num_of_bits by omega, hbal.2]
  rfl

theorem balanced_prefix_nonneg (B : BIT_ARRAY) (hbal : Balanced B) (k : Nat)
    (hk : k ≤ B.num_of_bits) : 0 ≤ excessBefore B k := by
  rcases Nat.eq_zero_or_pos k with h | h
  · subst h; exact le_refl _
  · have := hbal.1 (k - 1) (by omega)
    unfold excess at this
    rwa [show k - 1 + 1 = k by omega] at this

/-- The scan of `find_open` from a closing parenthesis of a balanced string. -/
theorem find_open_spec (B : BIT_ARRAY) (hbal : Balanced B) (st : rmMt) (hB : st.B = B)
    (j : Nat) (hj : j < B.num_of_bits) (hbit : bit_array_get_bit B j = 0) :
    ∃ r : Nat, find_open st (j : Int) = (r : Int) ∧ r < j ∧ bit_array_get_bit B r = 1
      ∧ excess B r = excess B j + 1
      ∧ ∀ r', r < r' → r' < j → ¬ (bit_array_get_bit B r' = 1 ∧ excess B r' = excess B j + 1) := by
  have hv : 0 ≤ excessBefore B (j + 1) := hbal.1 j hj
  have hdrop : excessBefore B (j + 1) < excessBefore B j := by
    rw [excessBefore_succ, hbit]; omega
  obtain ⟨r, h1, h2, h3⟩ := last_crossing B _ hv j hdrop
  have hr1 : excessBefore B (r + 1) = excessBefore B (j + 1) + 1 := by
    have := h3 (r + 1) (by omega) (by omega)
    have e := excessBefore_succ B r
    rcases bit_cases B r with hb | hb <;> rw [hb] at e <;> omega
  refine ⟨r, ?_, h1, ?_, hr1, ?_⟩
  · unfold find_open
    rw [hB, if_neg (by rw [hbit]; decide)]
    unfold bwd_search naive_bwd_search
    have hcnt : ((j : Int) + 1).toNat = j + 1 := by omega
    rw [hcnt]
    have := bwd_loop_found st (sum st (j : Int) + 0) j r (by rw [hB]; exact h2) (j + 1) j
      (by omega) (by omega)
      (fun r' a b => by
        rw [hB]
        rcases Nat.lt_or_ge r' (j + 1) with c | c
        · have := h3 r' a (by omega); omega
        · omega)
    rw [hB] at this
    simpa using this
  · have e := excessBefore_succ B r
    rcases bit_cases B r with hb | hb
    · rw [hb] at e; omega
    · exact hb
  · intro r' a b ⟨c1, c2⟩
    have := h3 r' a (by omega)
    have e := excessBefore_succ B r'
    unfold excess at c2
    rw [c1] at e
    omega

/-- The scan of `select_1` for the `i`-th opening parenthesis of a balanced string. -/
theorem select_1_spec (B : BIT_ARRAY) (hbal : Balanced B) (st : rmMt) (hB : st.B = B)
    (i : Nat) (h1 : 1 ≤ i) (h2 : 2 * i ≤ B.num_of_bits) :
    ∃ r : Nat, select_1 st (i : Int) = (r : Int) ∧ r < 2 * i ∧ bit_array_get_bit B r = 1
      ∧ onesBefore B (r + 1) = i ∧ excess B r = 2 * (i : Int) - r - 1
      ∧ ∀ r', r' < r → excess B r' ≠ 2 * (i : Int) - r' - 1 := by
  have hnn := balanced_prefix_nonneg B hbal (2 * i) h2
  have hone := excess_eq_ones B (2 * i)
  obtain ⟨r, hr1, hr2, hr3⟩ := first_reach (onesBefore B) (ones_step B) i
    (by show 0 < i; omega) (2 * i) (by omega)
  have hex : ∀ k, excess B k = 2 * (onesBefore B (k + 1) : Int) - k - 1 := by
    intro k; unfold excess; rw [excess_eq_ones]; push_cast; ring
  refine ⟨r, ?_, hr1, ?_, hr2, ?_, ?_⟩
  · unfold select_1
    have hcnt : (2 * (i : Int) - 1 + 1).toNat = 2 * i := by omega
    rw [hcnt]
    have := select_1_loop_found st (i : Int) r (by rw [hB, hex, hr2]; ring) (2 * i) 0
      (by omega) (by omega)
      (fun r' _ b => by
        rw [hB, hex]
        have := hr3 (r' + 1) (by omega)
        omega)
    simpa [excessBefore] using this
  · exact ones_succ_bit B r (by have := hr3 r (le_refl _); omega)
  · rw [hex, hr2]
  · intro r' hr'
    rw [hex]
    have := hr3 (r' + 1) (by omega)
    omega

/-- The root cell of a one-worker index holds the extreme wrapped excesses of
the whole string when the total excess is 0. -/
theorem built_root (B : BIT_ARRAY) (hlen : 256 < B.num_of_bits)
    (hlast : wexcess B (B.num_of_bits - 1) = 0) :
    RangeMinMax B 0 B.num_of_bits ((builtSt B).m_prime 0) ((builtSt B).M_prime 0) := by
  have h := built_tree B hlen hlast 0 0 (Nat.zero_le _) (by simp)
  have hst := statics_built B
  have hle := le_two_pow_ceil_log (builtSt B).num_chunks
  rw [← hst.hh] at hle
  have hnc := hst.hnc
  have e1 : nodeLo (builtSt B).height 0 0 = 0 := by simp [nodeLo]
  have e2 : nodeHi B.num_of_bits (builtSt B).height 0 0 = B.num_of_bits := by
    simp only [nodeHi, Nat.zero_add, Nat.one_mul, Nat.sub_zero]
    omega
  unfold NodeOK at h
  rw [e1, e2] at h
  simpa using h.1 (by omega)

/-- The scan of `select_0` on a one-worker index of a balanced string whose
excesses fit in 16 bits. -/
theorem select_0_spec (B : BIT_ARRAY) (hlen : 256 < B.num_of_bits) (hbal : Balanced B)
    (hfit : FitsInt16 B) (i : Nat) (h1 : 1 ≤ i) (h2 : 2 * i ≤ B.num_of_bits) :
    ∃ r : Nat, select_0 (builtSt B) (i : Int) = (r : Int) ∧ r < B.num_of_bits
      ∧ bit_array_get_bit B r = 0 ∧ zerosBefore B (r + 1) = i
      ∧ excess B r = (r : Int) + 1 - 2 * i
      ∧ (∀ r', r' < r → excess B r' ≠ (r' : Int) + 1 - 2 * i)
      ∧ 2 * (i : Int) - 1 ≤ r ∧ (r : Int) < 2 * i - 1 + (builtSt B).M_prime 0 := by
  have hst := statics_built B
  have hz := excess_eq_zeros B B.num_of_bits
  rw [hbal.2] at hz
  obtain ⟨r, hr1, hr2, hr3⟩ := first_reach (zerosBefore B) (zeros_step B) i
    (by show 0 < i; omega) B.num_of_bits (by omega)
  have hex : ∀ k, excess B k = (k : Int) + 1 - 2 * (zerosBefore B (k + 1) : Int) := by
    intro k; unfold excess; rw [excess_eq_zeros]; push_cast; ring
  have hbit : bit_array_get_bit B r = 0 :=
    zeros_succ_bit B r (by have := hr3 r (le_refl _); omega)
  have hnn := hbal.1 r hr1
  have hexr : excess B r = (r : Int) + 1 - 2 * i := by rw [hex, hr2]
  have hroot := built_root B hlen (balanced_last B (by omega) hbal)
  have hrpos : 1 ≤ r := by omega
  have hprev : excess B (r - 1) = excess B r + 1 := by
    unfold excess
    rw [show r - 1 + 1 = r by omega, excessBefore_succ B r, hbit]; ring
  have hM := (hroot.1 (r - 1) (Nat.zero_le _) (by omega)).2
  rw [wexcess_of_fits B hfit _ (by omega), hprev] at hM
  refine ⟨r, ?_, hr1, hbit, hr2, hexr, ?_, by omega, by omega⟩
  · unfold select_0
    have e0 : (2 * (i : Int) - 1) = ((2 * i - 1 : Nat) : Int) := by omega
    have hs := built_sum_fits B hlen hfit (2 * i - 1) (by omega)
    rw [e0, hs]
    have := select_0_loop_found (builtSt B) (i : Int) r (by rw [hst.hB]; exact hexr)
      ((builtSt B).M_prime 0).toNat (2 * i - 1) (by omega) (by omega)
      (fun r' _ b => by
        rw [hst.hB, hex]
        have := hr3 (r' + 1) (by omega)
        omega)
    rw [hst.hB] at this
    rw [← this]
    congr 1
    omega
  · intro r' hr'
    rw [hex]
    have := hr3 (r' + 1) (by omega)
    omega

theorem deep_bit (k : Nat) :
    bit_array_get_bit deepB (k : Int) = if k < 32769 then 1 else 0 := by
  rw [bit_natCast]
  simp only [deepB, decide_eq_true_eq]
  by_cases h : k < 32769
  · rw [if_pos ⟨by omega, h⟩, if_pos h]
  · rw [if_neg (fun c => h c.2), if_neg h]

theorem deep_before (k : Nat) :
    excessBefore deepB k = if k ≤ 32769 then (k : Int) else 65538 - k := by
  induction k with
  | zero => simp [excessBefore]
  | succ k ih =>
    rw [excessBefore_succ, ih, deep_bit]
    split_ifs <;> push_cast <;> omega

theorem deep_excess (k : Nat) :
    excess deepB k = if k < 32769 then (k : Int) + 1 else 65537 - k := by
  unfold excess
  rw [deep_before]
  split_ifs <;> push_cast <;> omega

theorem deep_balanced : Balanced deepB := by
  refine ⟨?_, ?_⟩
  · intro i hi
    rw [deep_excess]
    have : i < 65538 := hi
    split_ifs <;> omega
  · show excessBefore deepB 65538 = 0
    rw [deep_before]; simp

theorem deep_len : 256 < deepB.num_of_bits := by decide

theorem deep_sum (i : Nat) (hi : i < 65538) :
    sum (builtSt deepB) (i : Int)
      = toInt16 (excessBefore deepB (256 * (i / 256)))
        + (excess deepB i - excessBefore deepB (256 * (i / 256))) :=
  built_sum deepB deep_len i hi

theorem deep_sum_32768 : sum (builtSt deepB) 32768 = -32767 := by
  have := deep_sum 32768 (by decide)
  rw [deep_excess, deep_before] at this
  simpa [toInt16] using this

theorem deep_sum_32767 : sum (builtSt deepB) 32767 = 32768 := by
  have := deep_sum 32767 (by decide)
  rw [deep_excess, deep_before] at this
  simpa [toInt16] using this

theorem deep_sum_32770 : sum (builtSt deepB) 32770 = -32769 := by
  have := deep_sum 32770 (by decide)
  rw [deep_excess, deep_before] at this
  simpa [toInt16] using this

theorem deep_last : wexcess deepB (deepB.num_of_bits - 1) = 0 :=
  balanced_last deepB (by decide) deep_balanced

theorem deep_ones (k : Nat) (hk : k ≤ 32769) : onesBefore deepB k = k := by
  have h1 := excess_eq_ones deepB k
  rw [deep_before, if_pos hk] at h1
  omega

theorem deep_zeros_32770 : zerosBefore deepB 32770 = 1 := by
  have h1 := excess_eq_zeros deepB 32770
  rw [deep_before] at h1
  simp at h1
  omega

theorem select_0_loop_none (st : rmMt) (i : Int) :
    ∀ cnt (p : Nat), (∀ r', p ≤ r' → r' < p + cnt → excess st.B r' ≠ r' + 1 - 2 * i) →
      select_0_loop st cnt ((p : Int) + 1) ((p : Int) + 1 - 2 * i) (excess st.B p) = -1 := by
  intro cnt
  induction cnt with
  | zero => intro p _; rfl
  | succ cnt ih =>
    intro p h
    unfold select_0_loop
    rw [if_neg (h p (le_refl _) (by omega))]
    have := ih (p + 1) (fun r' a b => h r' (by omega) (by omega))
    have e1 : excess st.B p + (2 * bit_array_get_bit st.B ((p : Int) + 1) - 1)
        = excess st.B (p + 1) := by
      unfold excess
      rw [excessBefore_succ st.B (p + 1)]
      push_cast; rfl
    rw [e1]
    rw [show ((((p + 1 : Nat) : Int)) + 1 - 2 * i) = (p : Int) + 1 - 2 * i + 1 by push_cast; ring,
      show (((p + 1 : Nat) : Int)) = (p : Int) + 1 by push_cast; ring] at this
    exact this

theorem deep_root_max : (builtSt deepB).M_prime 0 ≤ 32767 := by
  obtain ⟨_, _, ⟨q, _, _, hq⟩⟩ := built_root deepB deep_len deep_last
  rw [hq]
  exact (toInt16_range _).2

theorem deep_select_0 : select_0 (builtSt deepB) 1 = -1 := by
  unfold select_0
  have hs : sum (builtSt deepB) (2 * 1 - 1) = excess deepB 1 := by
    have := deep_sum 1 (by decide)
    rw [deep_before] at this
    simpa [toInt16] using this
  rw [hs]
  have hM := deep_root_max
  have := select_0_loop_none (builtSt deepB) 1 ((builtSt deepB).M_prime 0).toNat 1
    (fun r' a b => by
      show excess deepB r' ≠ _
      rw [deep_excess, if_pos (by omega)]
      omega)
  exact this

theorem deep_find_open : find_open (builtSt deepB) 32770 = 32767 := by
  unfold find_open
  have hb : bit_array_get_bit (builtSt deepB).B 32770 = 0 := by
    show bit_array_get_bit deepB ((32770 : Nat) : Int) = 0
    rw [deep_bit]; simp
  rw [if_neg (by rw [hb]; decide)]
  unfold bwd_search naive_bwd_search
  have := bwd_loop_found (builtSt deepB) (sum (builtSt deepB) 32770 + 0) 32770 32767
    (by show excessBefore deepB 32767 = excessBefore deepB 32771
        rw [deep_before, deep_before]; simp)
    32771 32770 (by omega) (by omega)
    (fun r' a b => by
      show excessBefore deepB r' ≠ excessBefore deepB 32771
      rw [deep_before, deep_before]
      split_ifs <;> omega)
  simpa using this

theorem deep_select_1 : select_1 (builtSt deepB) 32769 = 32768 := by
  unfold select_1
  have := select_1_loop_found (builtSt deepB) 32769 32768
    (by show excess deepB 32768 = _
        rw [deep_excess]; simp)
    65538 0 (by omega) (by omega)
    (fun r' a b => by
      show excess deepB r' ≠ _
      rw [deep_excess, if_pos (by omega)]
      omega)
  simpa [excessBefore] using this

theorem deep_leaf_127 : (builtSt deepB).M_prime (2 ^ 9 - 1 + 127) ≤ 32767 := by
  have h := built_tree deepB deep_len deep_last 9 127 (by decide) (by decide)
  obtain ⟨_, _, ⟨q, _, _, hq⟩⟩ := h.1 (by decide)
  rw [hq]
  exact (toInt16_range _).2

theorem deep_rank_1 : rank_1 (builtSt deepB) 32768 = 1 := by
  unfold rank_1
  have hn : (builtSt deepB).n = 65538 := rfl
  simp only [hn]
  rw [if_neg (by decide), deep_sum_32768]
  decide

theorem B258_len : 256 < B258.num_of_bits := by decide

theorem B258_balanced : Balanced B258 := by
  unfold Balanced
  decide!

theorem B258_fits : FitsInt16 B258 := by
  unfold FitsInt16
  decide!

theorem ok_one_eq (B : BIT_ARRAY) (hlen : 256 < B.num_of_bits) (st : rmMt)
    (h : st_create 1 B = Except.ok st) : st = builtSt B := by
  rw [st_create_one B hlen] at h
  exact (Except.ok.inj h).symm

theorem alt_before (n k : Nat) (hk : k ≤ n) :
    excessBefore ⟨n, fun i => decide (i % 2 = 0)⟩ k = ((k % 2 : Nat) : Int) := by
  induction k with
  | zero => rfl
  | succ k ih =>
    rw [excessBefore_succ, ih (by omega), bit_natCast]
    simp only [decide_eq_true_eq]
    by_cases h : k % 2 = 0
    · rw [if_pos ⟨by omega, h⟩]
      have : (k + 1) % 2 = 1 := by omega
      rw [h, this]; rfl
    · rw [if_neg (fun c => h c.2)]
      have h1 : k % 2 = 1 := by omega
      have : (k + 1) % 2 = 0 := by omega
      rw [h1, this]; rfl

theorem alt_balanced (n : Nat) (hn : n % 2 = 0) :
    Balanced ⟨n, fun i => decide (i % 2 = 0)⟩ := by
  refine ⟨?_, ?_⟩
  · intro i hi
    show 0 ≤ excessBefore _ (i + 1)
    rw [alt_before n (i + 1) hi]
    exact Int.natCast_nonneg _
  · show excessBefore _ n = 0
    rw [alt_before n n (le_refl _), hn]; rfl

theorem window_const (B : BIT_ARRAY) (b : Int) (len : Nat) :
    ∀ j : Nat, (∀ t, t < len → bit_array_get_bit B ((j + t : Nat) : Int) = b) →
      window B (j : Int) len = b.toNat * (2 ^ len - 1) := by
  induction len with
  | zero => intro j _; simp [window]
  | succ len ih =>
    intro j h
    have h0 := h 0 (by omega)
    have e1 : ((j : Int) + 1) = ((j + 1 : Nat) : Int) := by push_cast; rfl
    have h1 := ih (j + 1) (fun t ht => by
      have e : j + 1 + t = j + (t + 1) := by omega
      rw [e]; exact h (t + 1) (by omega))
    simp only [Nat.add_zero] at h0
    rw [window, h0, e1, h1]
    have : 0 < 2 ^ len := by positivity
    have e2 : 2 ^ (len + 1) = 2 * 2 ^ len := by rw [pow_succ]; ring
    rw [e2]
    generalize 2 ^ len = p at *
    have e3 : 2 * p - 1 = 2 * (p - 1) + 1 := by omega
    rw [e3]
    ring

theorem word8_ones (B : BIT_ARRAY) (j : Nat)
    (h : ∀ t, t < 8 → bit_array_get_bit B ((j + t : Nat) : Int) = 1) : word8 B (j : Int) = 255 := by
  unfold word8
  rw [window_const B 1 8 j h]
  rfl

theorem word8_zeros (B : BIT_ARRAY) (j : Nat)
    (h : ∀ t, t < 8 → bit_array_get_bit B ((j + t : Nat) : Int) = 0) : word8 B (j : Int) = 0 := by
  unfold word8
  rw [window_const B 0 8 j h]
  rfl

theorem near_fwd_pos_ones : ∀ k : Nat, k < 8 → near_fwd_pos (k * 256 + 255) = 8 := by decide

theorem near_fwd_pos_zeros : ∀ k : Nat, k < 8 → near_fwd_pos (k * 256 + 0) = 7 - (k : Int) := by
  decide

/-- A bit loop of `check_leaf_r` over opening parentheses only runs to its end. -/
theorem leaf_bits_ones (st : rmMt) (d : Int) (cnt : Nat) :
    ∀ (j : Nat) (excess : Int), d ≤ excess →
      (∀ t, t < cnt → bit_array_get_bit st.B ((j + t : Nat) : Int) = 1) →
      leaf_bits st d cnt (j : Int) excess = Scan.done (excess + cnt) := by
  induction cnt with
  | zero => intro j e _ _; simp [leaf_bits]
  | succ cnt ih =>
    intro j e he h
    have h0 := h 0 (by omega)
    simp only [Nat.add_zero] at h0
    have e1 : ((j : Int) + 1) = ((j + 1 : Nat) : Int) := by push_cast; rfl
    have h1 := ih (j + 1) (e + 1) (by omega) (fun t ht => by
      have e : j + 1 + t = j + (t + 1) := by omega
      rw [e]; exact h (t + 1) (by omega))
    rw [leaf_bits]
    simp only [h0]
    rw [if_neg (by omega), e1]
    have e2 : e + (2 * 1 - 1) = e + 1 := by ring
    rw [e2, h1]
    have e3 : e + 1 + (cnt : Int) = e + ((cnt + 1 : Nat) : Int) := by push_cast; ring
    rw [e3]

/-- The byte loop over opening parentheses only runs to its end. -/
theorem leaf_bytes_ones (st : rmMt) (d : Int) (cnt : Nat) :
    ∀ (j : Nat) (excess : Int), d ≤ excess →
      (∀ t, t < 8 * cnt → bit_array_get_bit st.B ((j + t : Nat) : Int) = 1) →
      leaf_bytes st d cnt (j : Int) excess = Scan.done (excess + 8 * cnt) := by
  induction cnt with
  | zero => intro j e _ _; simp [leaf_bytes]
  | succ cnt ih =>
    intro j e he h
    have hw := word8_ones st.B j (fun t ht => h t (by omega))
    have e1 : ((j : Int) + 8) = ((j + 8 : Nat) : Int) := by push_cast; rfl
    have h1 := ih (j + 8) (e + 8) (by omega) (fun t ht => by
      have e : j + 8 + t = j + (t + 8) := by omega
      rw [e]; exact h (t + 8) (by omega))
    rw [leaf_bytes]
    simp only [hw]
    have hno : ¬ (d - 1 - e ≥ -8 ∧ d - 1 - e ≤ 8
        ∧ near_fwd_pos (((d - 1 - e + 8) * 256).toNat + 255) < 8) := by
      rintro ⟨a, _, c⟩
      have hk : ((d - 1 - e + 8) * 256).toNat = (d - 1 - e + 8).toNat * 256 := by omega
      rw [hk, near_fwd_pos_ones (d - 1 - e + 8).toNat (by omega)] at c
      omega
    rw [if_neg hno, e1]
    have e2 : e + word_sum 255 = e + 8 := by
      have : word_sum 255 = 8 := by decide
      rw [this]
    rw [e2, h1]
    have e3 : e + 8 + 8 * (cnt : Int) = e + 8 * ((cnt + 1 : Nat) : Int) := by push_cast; ring
    rw [e3]

/-- The byte loop over closing parentheses only: it stops `excess − d` bits
further, if that is within its windows. -/
theorem leaf_bytes_zeros (st : rmMt) (d : Int) (cnt : Nat) :
    ∀ (j : Nat) (excess : Int), d ≤ excess →
      (∀ t, t < 8 * cnt → bit_array_get_bit st.B ((j + t : Nat) : Int) = 0) →
      leaf_bytes st d cnt (j : Int) excess
        = if excess - d < 8 * cnt then Scan.found (j + (excess - d))
          else Scan.done (excess - 8 * cnt) := by
  induction cnt with
  | zero =>
    intro j e he _
    have hge : ¬ e - d < 8 * ((0 : Nat) : Int) := by push_cast; omega
    rw [if_neg hge]
    simp [leaf_bytes]
  | succ cnt ih =>
    intro j e he h
    have hw := word8_zeros st.B j (fun t ht => h t (by omega))
    have e1 : ((j : Int) + 8) = ((j + 8 : Nat) : Int) := by push_cast; rfl
    rw [leaf_bytes]
    simp only [hw]
    by_cases hnear : e - d < 8
    · have hk : ((d - 1 - e + 8) * 256).toNat = (d - 1 - e + 8).toNat * 256 := by omega
      have hp := near_fwd_pos_zeros (d - 1 - e + 8).toNat (by omega)
      have hc : (((d - 1 - e + 8).toNat : Nat) : Int) = d - 1 - e + 8 := by omega
      rw [hc] at hp
      have hyes : d - 1 - e ≥ -8 ∧ d - 1 - e ≤ 8
          ∧ near_fwd_pos (((d - 1 - e + 8) * 256).toNat + 0) < 8 := by
        rw [hk, hp]
        exact ⟨by omega, by omega, by omega⟩
      have hlt : e - d < 8 * ((cnt + 1 : Nat) : Int) := by push_cast; omega
      have e3 : 7 - (d - 1 - e + 8) = e - d := by ring
      rw [if_pos hyes, if_pos hlt, hk, hp, e3]
    · have hno : ¬ (d - 1 - e ≥ -8 ∧ d - 1 - e ≤ 8
          ∧ near_fwd_pos (((d - 1 - e + 8) * 256).toNat + 0) < 8) := by
        rintro ⟨a, _, _⟩
        omega
      have h1 := ih (j + 8) (e - 8) (by omega) (fun t ht => by
        have e : j + 8 + t = j + (t + 8) := by omega
        rw [e]; exact h (t + 8) (by omega))
      have e2 : e + word_sum 0 = e - 8 := by
        have : word_sum 0 = -8 := by decide
        rw [this]; ring
      rw [if_neg hno, e1, e2, h1]
      by_cases hfar : e - 8 - d < 8 * (cnt : Int)
      · have hlt : e - d < 8 * ((cnt + 1 : Nat) : Int) := by push_cast; omega
        have e3 : ((j + 8 : Nat) : Int) + (e - 8 - d) = (j : Int) + (e - d) := by
          push_cast; ring
        rw [if_pos hfar, if_pos hlt, e3]
      · have hge : ¬ e - d < 8 * ((cnt + 1 : Nat) : Int) := by push_cast; omega
        have e3 : e - 8 - 8 * (cnt : Int) = e - 8 * ((cnt + 1 : Nat) : Int) := by
          push_cast; ring
        rw [if_neg hfar, if_neg hge, e3]

/-- In a chunk that holds only opening parentheses after `i`, `check_leaf_r`
finds nothing and returns `i − 1`. -/
theorem check_leaf_r_ones (st : rmMt) (hs : st.s = 256) (i : Nat) (d : Int)
    (h : ∀ p : Nat, i < p → p < (i / 256 + 1) * 256 → bit_array_get_bit st.B (p : Int) = 1) :
    check_leaf_r st (i : Int) d = (i : Int) - 1 := by
  unfold check_leaf_r
  rw [hs]
  have hE : (((i : Int) / ((256 : Nat) : Int) + 1) * ((256 : Nat) : Int))
      = (((i / 256 + 1) * 256 : Nat) : Int) := by push_cast; rfl
  have hL : (((i : Int) + 8) / 8) * 8 = ((((i + 8) / 8) * 8 : Nat) : Int) := by push_cast; rfl
  simp only [hE, hL]
  generalize hEd : (i / 256 + 1) * 256 = E at *
  generalize hLd : ((i + 8) / 8) * 8 = L at *
  have hR : ((E : Int) / 8) * 8 = (E : Int) := by omega
  have hLE : L ≤ E := by omega
  have hiL : i < L := by omega
  rw [hR]
  have hmin : min (E : Int) (L : Int) = (L : Int) := by omega
  have hmax : max (L : Int) (E : Int) = (E : Int) := by omega
  rw [hmin, hmax]
  have c1 : ((L : Int) - ((i : Int) + 1)).toNat = L - (i + 1) := by omega
  have c2 : steps8 (L : Int) (E : Int) = (E - L) / 8 := by unfold steps8; omega
  have c3 : ((E : Int) - (E : Int)).toNat = 0 := by omega
  have e1 : ((i : Int) + 1) = ((i + 1 : Nat) : Int) := by push_cast; rfl
  rw [c1, c2, c3, e1]
  rw [leaf_bits_ones st d (L - (i + 1)) (i + 1) d (le_refl _)
    (fun t ht => h (i + 1 + t) (by omega) (by omega))]
  simp only []
  rw [leaf_bytes_ones st d ((E - L) / 8) L _ (by omega)
    (fun t ht => h (L + t) (by omega) (by omega))]
  simp only [leaf_bits]

/-- On a chunk that holds only closing parentheses and starts at bit `256·c`,
`c ≥ 1`, `check_sibling_r` stops `e'[c−1] − d` bits into the chunk. -/
theorem check_sibling_r_zeros (st : rmMt) (hs : st.s = 256) (c : Nat) (hc1 : 1 ≤ c)
    (hc2 : c < 16777216) (d : Int) (hd : d ≤ st.e_prime (c - 1))
    (hd2 : st.e_prime (c - 1) - d < 256)
    (h : ∀ t, t < 256 → bit_array_get_bit st.B ((256 * c + t : Nat) : Int) = 0) :
    check_sibling_r st ((256 * c : Nat) : Int) d
      = ((256 * c : Nat) : Int) + (st.e_prime (c - 1) - d) := by
  unfold check_sibling_r
  rw [hs]
  have c1 : steps8 ((256 * c : Nat) : Int) (((256 * c : Nat) : Int) + ((256 : Nat) : Int)) = 32 := by
    unfold steps8; omega
  have c2 : (((((256 * c : Nat) : Int) - 1) % 4294967296) / ((256 : Nat) : Int)).toNat = c - 1 := by
    omega
  rw [c1, c2, leaf_bytes_zeros st d 32 (256 * c) _ hd (fun t ht => h t (by omega))]
  rw [if_pos (by push_cast; omega)]

/-- The ascent of `fwd_search` reads only the cells of nodes up to the one next
to its start. -/
theorem go_up_congr (st1 st2 : rmMt) (target : Int) (N : Nat)
    (h : ∀ v, v < N → st1.m_prime v = st2.m_prime v ∧ st1.M_prime v = st2.M_prime v) :
    ∀ (fuel : Nat) (node : Int), 0 ≤ node → node + 1 < N →
      go_up st1 target fuel node = go_up st2 target fuel node := by
  intro fuel
  induction fuel with
  | zero => intro node _ _; rfl
  | succ fuel ih =>
    intro node h0 h1
    rw [go_up_succ st1 target fuel node, go_up_succ st2 target fuel node]
    by_cases hr : is_root node = true
    · simp [hr]
    · have hne : node ≠ 0 := by simpa [is_root] using hr
      have hp1 : parent (right_sibling node) = Int.tdiv node 2 := by
        have : ¬ (node + 1 = 0) := by omega
        simp [parent, right_sibling, is_root, this]
      have hp2 : parent node = Int.tdiv (node - 1) 2 := by
        simp [parent, is_root, hne]
      have b1 : 0 ≤ Int.tdiv node 2 ∧ Int.tdiv node 2 + 1 < N := by
        rw [Int.tdiv_eq_ediv h0 (by decide)]; omega
      have b2 : 0 ≤ Int.tdiv (node - 1) 2 ∧ Int.tdiv (node - 1) 2 + 1 < N := by
        rw [Int.tdiv_eq_ediv (by omega) (by decide)]; omega
      have hc := h (right_sibling node).toNat (by unfold right_sibling; omega)
      rw [hp1, hp2, ih _ b1.1 b1.2, ih _ b2.1 b2.2, hc.1, hc.2]

/-- The descent of `fwd_search` reads only the cells of the tree. -/
theorem go_down_congr (heigh : Nat) (st1 st2 : rmMt) (target : Int)
    (h : ∀ v, v + 1 < 2 ^ (heigh + 1) →
      st1.m_prime v = st2.m_prime v ∧ st1.M_prime v = st2.M_prime v) :
    ∀ (fuel : Nat) (node : Int), 0 ≤ node →
      go_down heigh st1 target fuel node = go_down heigh st2 target fuel node := by
  intro fuel
  induction fuel with
  | zero => intro node _; rfl
  | succ fuel ih =>
    intro node h0
    rw [go_down_succ heigh st1 target fuel node, go_down_succ heigh st2 target fuel node]
    by_cases hl : is_leaf heigh node = true
    · simp [hl]
    · have hlt : node < 2 ^ heigh - 1 := by
        simp only [is_leaf, decide_eq_true_eq] at hl
        omega
      have hcast : ((2 : Int) ^ heigh) = ((2 ^ heigh : Nat) : Int) := by push_cast; rfl
      have e2 : 2 ^ (heigh + 1) = 2 * 2 ^ heigh := by rw [pow_succ]; ring
      rw [hcast] at hlt
      have p1 : 0 ≤ left_child node := by unfold left_child; omega
      have p2 : 0 ≤ right_sibling (left_child node) := by unfold right_sibling left_child; omega
      have hc1 := h (left_child node).toNat (by unfold left_child; omega)
      have hc2 := h (right_sibling (left_child node)).toNat
        (by unfold right_sibling left_child; omega)
      rw [ih _ p1, ih _ p2, hc1.1, hc1.2, hc2.1, hc2.2]

theorem S5_cells : ∀ v : Nat, v < 31 → (builtSt S5).m_prime v = S5tab.m_prime v
    ∧ (builtSt S5).M_prime v = S5tab.M_prime v := by decide!

set_option maxRecDepth 100000 in
/-- On the written-out tree of scenario S5 the ascent from the leaf of an
opening parenthesis `i` stops at node 2, and the descent from node 2 ends at the
leaf of chunk `15 − i/256`. -/
theorem S5tab_walk : ∀ i : Nat, i < 2048 →
    go_up S5tab ((i : Int) + 1 + 0) (parent (((i / 256 : Nat) : Int) + 15)).toNat
        (parent (((i / 256 : Nat) : Int) + 15)) = some 2
    ∧ go_down 4 S5tab ((i : Int) + 1 + 0) 4 2 = some (30 - ((i / 256 : Nat) : Int))
    ∧ ¬ ((i / 256) % 2 = 0 ∧ S5tab.m_prime (16 + i / 256) ≤ (i : Int) + 1 + 0) := by
  decide!

theorem S5_bit (k : Nat) :
    bit_array_get_bit S5 (k : Int) = if k < 2048 then 1 else 0 := by
  rw [bit_natCast]
  simp only [S5, decide_eq_true_eq]
  by_cases h : k < 2048
  · rw [if_pos ⟨by omega, h⟩, if_pos h]
  · rw [if_neg (fun c => h c.2), if_neg h]

theorem S5_before (k : Nat) :
    excessBefore S5 k = if k ≤ 2048 then (k : Int) else 4096 - k := by
  induction k with
  | zero => simp [excessBefore]
  | succ k ih =>
    rw [excessBefore_succ, ih, S5_bit]
    split_ifs <;> push_cast <;> omega

theorem S5_len : 256 < S5.num_of_bits := by decide

theorem S5_fits : FitsInt16 S5 := by
  intro i hi
  have : i < 4096 := hi
  unfold excess
  rw [S5_before]
  split_ifs <;> push_cast <;> omega

theorem S5_sum (i : Nat) (hi : i < 2048) : sum (builtSt S5) (i : Int) = (i : Int) + 1 := by
  rw [built_sum_fits S5 S5_len S5_fits i (by show i < 4096; omega)]
  unfold excess
  rw [S5_before, if_pos (by omega)]
  push_cast; rfl

theorem S5_e_prime (c : Nat) (hc : c < 8) :
    (builtSt S5).e_prime (14 - c) = 256 * (c : Int) + 256 := by
  rw [built_e_prime S5 S5_len (14 - c) (by show 14 - c < 16; omega)]
  have e : min (256 * (14 - c + 1)) S5.num_of_bits = 256 * (15 - c) := by
    show min (256 * (14 - c + 1)) 4096 = _
    omega
  rw [e, S5_before]
  have hv : (if 256 * (15 - c) ≤ 2048 then ((256 * (15 - c) : Nat) : Int)
      else 4096 - ((256 * (15 - c) : Nat) : Int)) = 256 * (c : Int) + 256 := by
    split_ifs <;> push_cast <;> omega
  rw [hv, toInt16_of_fits (by omega) (by omega)]

/-- On the one-worker index of scenario S5, `find_close(i) = 4095 − i` for
every opening parenthesis `i < 2048`. -/
theorem S5_find_close (i : Nat) (hi : i < 2048) :
    find_close 4 (builtSt S5) (i : Int) = 4095 - (i : Int) := by
  have hst := statics_built S5
  have hbit : bit_array_get_bit (builtSt S5).B (i : Int) = 1 := by
    show bit_array_get_bit S5 (i : Int) = 1
    rw [S5_bit, if_pos hi]
  unfold find_close
  rw [if_neg (by rw [hbit]; decide)]
  unfold fwd_search
  simp only []
  rw [S5_sum i hi]
  have hleaf := check_leaf_r_ones (builtSt S5) hst.hs i ((i : Int) + 1 + 0) (fun p hp1 hp2 => by
    show bit_array_get_bit S5 (p : Int) = 1
    rw [S5_bit, if_pos (by omega)])
  rw [hleaf, if_neg (by omega)]
  have hI : (builtSt S5).internal_nodes = 15 := rfl
  have hchunk : (i : Int) / (((builtSt S5).s : Nat) : Int) = ((i / 256 : Nat) : Int) := by
    rw [hst.hs]; push_cast; rfl
  obtain ⟨hup, hdown, hcase2⟩ := S5tab_walk i hi
  rw [hchunk, hI]
  have e15 : (((i / 256 : Nat) : Int) + ((15 : Nat) : Int)) = ((i / 256 : Nat) : Int) + 15 := by
    push_cast; rfl
  have hc2 : ((((15 : Nat) : Int) + ((i / 256 : Nat) : Int) + 1)).toNat = 16 + i / 256 := by omega
  rw [e15, hc2]
  have hcell := (S5_cells (16 + i / 256) (by omega)).1
  have hpar : 0 ≤ parent (((i / 256 : Nat) : Int) + 15)
      ∧ parent (((i / 256 : Nat) : Int) + 15) + 1 < 31 := by
    have hne : ¬ (((i / 256 : Nat) : Int) + 15 = 0) := by omega
    simp only [parent, is_root, beq_iff_eq, hne, if_false]
    rw [Int.tdiv_eq_ediv (by omega) (by decide)]
    omega
  rw [if_neg (by
    rintro ⟨a, b, _⟩
    rw [hcell] at b
    exact hcase2 ⟨by omega, b⟩)]
  simp only []
  rw [go_up_congr (builtSt S5) S5tab _ 31 S5_cells _ _ hpar.1 hpar.2, hup]
  simp only []
  rw [go_down_congr 4 (builtSt S5) S5tab _ (fun v hv => S5_cells v (by
    have : (2 : Nat) ^ (4 + 1) = 32 := by decide
    omega)) 4 2 (by decide), hdown]
  simp only []
  have hs : ((((builtSt S5).s : Nat) : Int)) * (30 - ((i / 256 : Nat) : Int) - ((15 : Nat) : Int))
      = ((256 * (15 - i / 256) : Nat) : Int) := by
    rw [hst.hs]; push_cast; omega
  rw [hs]
  have he := S5_e_prime (i / 256) (by omega)
  have e14 : 15 - i / 256 - 1 = 14 - i / 256 := by omega
  rw [check_sibling_r_zeros (builtSt S5) hst.hs (15 - i / 256) (by omega) (by omega) _
    (by rw [e14, he]; omega) (by rw [e14, he]; omega)
    (fun t ht => by
      show bit_array_get_bit S5 _ = 0
      rw [S5_bit, if_neg (by omega)])]
  rw [e14, he]
  push_cast
  omega

theorem goodAt_congr (total p : Nat) (a a' : Arrays) (v : Nat)
    (h0 : a'.m_prime v = a.m_prime v ∧ a'.M_prime v = a.M_prime v)
    (h1 : a'.m_prime (2 * v + 1) = a.m_prime (2 * v + 1)
      ∧ a'.M_prime (2 * v + 1) = a.M_prime (2 * v + 1))
    (h2 : a'.m_prime (2 * v + 2) = a.m_prime (2 * v + 2)
      ∧ a'.M_prime (2 * v + 2) = a.M_prime (2 * v + 2))
    (h : GoodAt total p a v) : GoodAt total p a' v := by
  unfold GoodAt RelAt at *
  rw [h0.1, h0.2, h1.1, h1.2, h2.1, h2.2]
  exact h

theorem block_iff (total p : Nat) (W W' : Nat → Prop) (g : Arrays → Arrays)
    (hW : ∀ j, W j ↔ W' j) (h : Block total p W g) : Block total p W' g := by
  intro a
  obtain ⟨h1, h2⟩ := h a
  exact ⟨fun j hj => h1 j (fun c => hj ((hW j).1 c)), fun v hv => h2 v ((hW v).2 hv)⟩

/-- Two parts in a row: the second must not write a node of the first, nor a
child of such a node. -/
theorem block_comp (total p : Nat) (W1 W2 : Nat → Prop) (g1 g2 : Arrays → Arrays)
    (h1 : Block total p W1 g1) (h2 : Block total p W2 g2)
    (hord : ∀ v, W1 v → ¬ W2 v ∧ ¬ W2 (2 * v + 1) ∧ ¬ W2 (2 * v + 2)) :
    Block total p (fun j => W1 j ∨ W2 j) (fun a => g2 (g1 a)) := by
  intro a
  obtain ⟨f1, g1ok⟩ := h1 a
  obtain ⟨f2, g2ok⟩ := h2 (g1 a)
  refine ⟨?_, ?_⟩
  · intro j hj
    have a1 := f1 j (fun c => hj (Or.inl c))
    have a2 := f2 j (fun c => hj (Or.inr c))
    exact ⟨a2.1.trans a1.1, a2.2.trans a1.2⟩
  · intro v hv
    by_cases hv2 : W2 v
    · exact g2ok v hv2
    · have hv1 : W1 v := hv.resolve_right hv2
      obtain ⟨n0, n1, n2⟩ := hord v hv1
      exact goodAt_congr total p (g1 a) (g2 (g1 a)) v (f2 v n0) (f2 _ n1) (f2 _ n2) (g1ok v hv1)

/-- A loop of parts, each later one writing no node of an earlier one nor a
child of such a node. -/
theorem block_loop (total p : Nat) (W : Nat → Nat → Prop) (g : Nat → Arrays → Arrays) (n : Nat)
    (hb : ∀ i, i < n → Block total p (W i) (g i))
    (hord : ∀ i i', i < i' → i' < n → ∀ v, W i v →
      ¬ W i' v ∧ ¬ W i' (2 * v + 1) ∧ ¬ W i' (2 * v + 2)) :
    Block total p (fun j => ∃ i, i < n ∧ W i j) (fun a => forLoop n g a) := by
  induction n with
  | zero =>
    intro a
    exact ⟨fun j _ => ⟨rfl, rfl⟩, fun v hv => by obtain ⟨i, hi, _⟩ := hv; omega⟩
  | succ n ih =>
    have ih := ih (fun i hi => hb i (by omega)) (fun i i' h1 h2 => hord i i' h1 (by omega))
    have hc := block_comp total p _ _ _ _ ih (hb n (by omega)) (by
      intro v hv
      obtain ⟨i, hi, hw⟩ := hv
      exact hord i n hi (by omega) v hw)
    refine block_iff total p _ _ _ ?_ hc
    intro j
    constructor
    · rintro (⟨i, hi, hw⟩ | hw)
      · exact ⟨i, by omega, hw⟩
      · exact ⟨n, by omega, hw⟩
    · rintro ⟨i, hi, hw⟩
      by_cases e : i = n
      · subst e; exact Or.inr hw
      · exact Or.inl ⟨i, by omega, hw⟩

/-- A node pass of the parallel part, at a node of level `p` or deeper. -/
theorem block_node_pass (st : rmMt) (hk : st.k = 2) (total p pos : Nat) :
    Block total p (fun j => j = pos) (node_pass st total pos) := by
  intro a
  obtain ⟨_, hframe, _, _, hrel⟩ := node_pass_spec st hk total pos a
  refine ⟨fun j hj => hframe j hj, ?_⟩
  intro v hv
  subst hv
  intro hc _
  have c1 := hframe (2 * v + 1) (by omega)
  have c2 := hframe (2 * v + 2) (by omega)
  unfold RelAt
  rw [c1.1, c1.2, c2.1, c2.2]
  exact hrel hc

theorem update_node_frame (a : Arrays) (pos lchild child : Nat) (hc : child ≠ pos) (j : Nat)
    (hj : j ≠ pos) :
    (update_node a pos lchild child).m_prime j = a.m_prime j
    ∧ (update_node a pos lchild child).M_prime j = a.M_prime j := by
  by_cases h : child = lchild
  · subst h
    rw [update_node_first]
    exact ⟨setAt_other _ _ hj, setAt_other _ _ hj⟩
  · rw [update_node_m a pos lchild child h hc, update_node_M a pos lchild child h hc]
    exact ⟨setAt_other _ _ hj, setAt_other _ _ hj⟩

/-- The effect of the child loop of the sequential part of step 2.3 on `m'` and
`M'`, for arity 2: only the cell `pos` is written, and when no child is skipped
it receives the least `m'` and the greatest `M'` of the two children. -/
theorem node_pass_top_spec (st : rmMt) (hk : st.k = 2) (pos : Nat) (a : Arrays) :
    (∀ j, j ≠ pos → (node_pass_top st pos a).m_prime j = a.m_prime j
        ∧ (node_pass_top st pos a).M_prime j = a.M_prime j)
    ∧ (a.m_prime (2 * pos + 1) ≠ a.M_prime (2 * pos + 1) →
        a.m_prime (2 * pos + 2) ≠ a.M_prime (2 * pos + 2) →
        (node_pass_top st pos a).m_prime pos
          = min (a.m_prime (2 * pos + 1)) (a.m_prime (2 * pos + 2))
        ∧ (node_pass_top st pos a).M_prime pos
          = max (a.M_prime (2 * pos + 1)) (a.M_prime (2 * pos + 2))) := by
  unfold node_pass_top
  rw [hk]
  have e2 : (pos + 1) * 2 + 1 - (pos * 2 + 1) = 2 := by omega
  have eL : pos * 2 + 1 + 0 = 2 * pos + 1 := by omega
  have eR : pos * 2 + 1 + 1 = 2 * pos + 2 := by omega
  have eL' : pos * 2 + 1 = 2 * pos + 1 := by omega
  rw [e2, forLoop_succ, forLoop_succ, forLoop_zero]
  simp only [eL, eR, eL']
  generalize h1 : (if a.m_prime (2 * pos + 1) = a.M_prime (2 * pos + 1) then a
      else update_node a pos (2 * pos + 1) (2 * pos + 1)) = a1
  have f1 : ∀ j, j ≠ pos → a1.m_prime j = a.m_prime j ∧ a1.M_prime j = a.M_prime j := by
    intro j hj
    rw [← h1]
    split_ifs
    · exact ⟨rfl, rfl⟩
    · exact update_node_frame a pos _ _ (by omega) j hj
  refine ⟨?_, ?_⟩
  · intro j hj
    split_ifs
    · exact f1 j hj
    · have := update_node_frame a1 pos (2 * pos + 1) (2 * pos + 2) (by omega) j hj
      exact ⟨this.1.trans (f1 j hj).1, this.2.trans (f1 j hj).2⟩
  · intro hL hR
    have cR := f1 (2 * pos + 2) (by omega)
    have e1 : a1 = update_node a pos (2 * pos + 1) (2 * pos + 1) := by
      rw [← h1, if_neg hL]
    rw [if_neg (by rw [cR.1, cR.2]; exact hR)]
    rw [update_node_m a1 pos (2 * pos + 1) (2 * pos + 2) (by omega) (by omega),
      update_node_M a1 pos (2 * pos + 1) (2 * pos + 2) (by omega) (by omega)]
    rw [setAt_same, setAt_same, cR.1, cR.2]
    have p1 : a1.m_prime pos = a.m_prime (2 * pos + 1) := by
      rw [e1, update_node_first]; exact setAt_same _ _ _
    have p2 : a1.M_prime pos = a.M_prime (2 * pos + 1) := by
      rw [e1, update_node_first]; exact setAt_same _ _ _
    rw [p1, p2]
    exact ⟨rfl, rfl⟩

/-- A node pass of the sequential part, at a node above level `p`. -/
theorem block_node_pass_top (st : rmMt) (hk : st.k = 2) (total p pos : Nat)
    (hp : pos + 1 < 2 ^ p) :
    Block total p (fun j => j = pos) (node_pass_top st pos) := by
  intro a
  obtain ⟨hframe, hrel⟩ := node_pass_top_spec st hk pos a
  refine ⟨fun j hj => hframe j hj, ?_⟩
  intro v hv
  subst hv
  intro _ hor
  have c1 := hframe (2 * v + 1) (by omega)
  have c2 := hframe (2 * v + 2) (by omega)
  rcases hor with h | ⟨hL, hR⟩
  · omega
  · rw [c1.1, c1.2] at hL
    rw [c2.1, c2.2] at hR
    unfold RelAt
    rw [c1.1, c1.2, c2.1, c2.2]
    exact hrel hL hR

theorem div_eq_iff_bounds (x q d : Nat) (hd : 0 < d) :
    x / d = q ↔ q * d ≤ x ∧ x < (q + 1) * d := by
  constructor
  · intro h
    subst h
    refine ⟨Nat.div_mul_le_self x d, ?_⟩
    have h1 := Nat.div_add_mod x d
    have h2 := Nat.mod_lt x hd
    have h3 : (x / d + 1) * d = d * (x / d) + d := by ring
    omega
  · rintro ⟨h1, h2⟩
    apply le_antisymm
    · exact Nat.lt_succ_iff.1 ((Nat.div_lt_iff_lt_mul hd).2 h2)
    · exact (Nat.le_div_iff_mul_le hd).2 h1

theorem quot_unique (y a b p u u' : Nat) (hu : u < 2 ^ p) (hu' : u' < 2 ^ p)
    (h1 : y / 2 ^ a = 2 ^ p + u) (h2 : y / 2 ^ b = 2 ^ p + u') : a = b ∧ u = u' := by
  have key : ∀ (a b u u' : Nat), u < 2 ^ p → u' < 2 ^ p → y / 2 ^ a = 2 ^ p + u →
      y / 2 ^ b = 2 ^ p + u' → ¬ a < b := by
    intro a b u u' hu hu' h1 h2 hab
    have pa : 0 < 2 ^ a := by positivity
    have pb : 0 < 2 ^ b := by positivity
    obtain ⟨_, ub⟩ := (div_eq_iff_bounds y _ _ pa).1 h1
    obtain ⟨lb, _⟩ := (div_eq_iff_bounds y _ _ pb).1 h2
    have hpow : 2 * 2 ^ a ≤ 2 ^ b := by
      have : 2 ^ (a + 1) ≤ 2 ^ b := Nat.pow_le_pow_right (by decide) (by omega)
      rw [pow_succ] at this
      omega
    have s1 : (2 ^ p + u + 1) * 2 ^ a ≤ (2 * 2 ^ p) * 2 ^ a :=
      Nat.mul_le_mul_right _ (by omega)
    have s2 : (2 * 2 ^ p) * 2 ^ a = 2 ^ p * (2 * 2 ^ a) := by ring
    have s3 : 2 ^ p * (2 * 2 ^ a) ≤ 2 ^ p * 2 ^ b := Nat.mul_le_mul_left _ hpow
    have s4 : 2 ^ p * 2 ^ b ≤ (2 ^ p + u') * 2 ^ b := Nat.mul_le_mul_right _ (by omega)
    omega
  have hab : a = b := by
    rcases Nat.lt_trichotomy a b with h | h | h
    · exact absurd h (key a b u u' hu hu' h1 h2)
    · exact h
    · exact absurd h (key b a u' u hu' hu h2 h1)
  subst hab
  exact ⟨rfl, by omega⟩

theorem child_quot (y e : Nat) :
    (2 * y) / 2 ^ (e + 1) = y / 2 ^ e ∧ (2 * y + 1) / 2 ^ (e + 1) = y / 2 ^ e := by
  have e1 : 2 ^ (e + 1) = 2 * 2 ^ e := by rw [pow_succ]; ring
  rw [e1, ← Nat.div_div_eq_div_mul, ← Nat.div_div_eq_div_mul]
  have a1 : 2 * y / 2 = y := by omega
  have a2 : (2 * y + 1) / 2 = y := by omega
  rw [a1, a2]
  exact ⟨rfl, rfl⟩

/-- A node of one subtree level is neither a node of another one nor the
parent of such a node, unless that level is the next one of the same subtree. -/
theorem inSub_excl (p u u' e e' v : Nat) (hu : u < 2 ^ p) (hu' : u' < 2 ^ p)
    (hne : ¬ (e' = e ∧ u' = u)) (hne2 : ¬ (e' = e + 1 ∧ u' = u)) (hv : InSub p u e v) :
    ¬ InSub p u' e' v ∧ ¬ InSub p u' e' (2 * v + 1) ∧ ¬ InSub p u' e' (2 * v + 2) := by
  unfold InSub at *
  have c := child_quot (v + 1) e
  refine ⟨?_, ?_, ?_⟩
  · intro h
    have := quot_unique _ _ _ _ _ _ hu hu' hv h
    omega
  · intro h
    have e1 : 2 * v + 1 + 1 = 2 * (v + 1) := by ring
    rw [e1] at h
    have := quot_unique _ _ _ _ _ _ hu hu' (c.1.trans hv) h
    omega
  · intro h
    have e1 : 2 * v + 2 + 1 = 2 * (v + 1) + 1 := by ring
    rw [e1] at h
    have := quot_unique _ _ _ _ _ _ hu hu' (c.2.trans hv) h
    omega

/-- One level of one subtree in the parallel part of step 2.3. -/
theorem block_par_level (st : rmMt) (hk : st.k = 2) (total p u e l : Nat) (hl : l = p + e) :
    Block total p (InSub p u e) (fun a =>
      forLoop (2 ^ e) (fun node a =>
        node_pass st total (2 ^ l - 1 + node + u * 2 ^ e) a) a) := by
  have hL : 2 ^ l = 2 ^ p * 2 ^ e := by rw [hl, pow_add]
  have pE : 0 < 2 ^ e := by positivity
  have pP : 0 < 2 ^ p := by positivity
  have hLE : 2 ^ e ≤ 2 ^ l := by
    rw [hL]; exact Nat.le_mul_of_pos_left _ pP
  have hb := block_loop total p (fun node j => j = 2 ^ l - 1 + node + u * 2 ^ e)
    (fun node a => node_pass st total (2 ^ l - 1 + node + u * 2 ^ e) a) (2 ^ e)
    (fun i _ => block_node_pass st hk total p _)
    (by
      intro i i' h1 h2 v hv
      subst hv
      refine ⟨?_, ?_, ?_⟩ <;> omega)
  refine block_iff total p _ _ _ ?_ hb
  intro j
  unfold InSub
  rw [div_eq_iff_bounds _ _ _ pE]
  have e1 : (2 ^ p + u) * 2 ^ e = 2 ^ l + u * 2 ^ e := by rw [hL]; ring
  have e2 : (2 ^ p + u + 1) * 2 ^ e = 2 ^ l + u * 2 ^ e + 2 ^ e := by rw [hL]; ring
  rw [e1, e2]
  generalize 2 ^ l = L at *
  generalize 2 ^ e = E at *
  generalize u * E = X at *
  constructor
  · rintro ⟨i, hi, rfl⟩
    omega
  · rintro ⟨h1, h2⟩
    exact ⟨j + 1 - L - X, by omega, by omega⟩

/-- The parallel part of step 2.3: it writes the internal nodes of level `p`
and deeper, subtree after subtree, every level after the one below it. -/
theorem block_par (st : rmMt) (hk : st.k = 2) (total p : Nat) :
    Block total p (fun j => ∃ u, u < 2 ^ p ∧ ∃ e, e < st.height - p ∧ InSub p u e j)
      (fun a => step_2_3_par st p (2 ^ p) total a) := by
  unfold step_2_3_par
  rw [hk]
  refine block_loop total p (fun u j => ∃ e, e < st.height - p ∧ InSub p u e j) _ (2 ^ p) ?_ ?_
  · intro u hu
    have hb := block_loop total p (fun t j => InSub p u (st.height - 1 - t - p) j)
      (fun t a => forLoop (2 ^ (st.height - 1 - t - p)) (fun node a =>
        node_pass st total (2 ^ (st.height - 1 - t) - 1 + node
          + u * 2 ^ (st.height - 1 - t - p)) a) a) (st.height - p)
      (fun t ht => block_par_level st hk total p u _ _ (by omega))
      (by
        intro t t' h1 h2 v hv
        exact inSub_excl p u u _ _ v hu hu (by omega) (by omega) hv)
    refine block_iff total p _ _ _ ?_ hb
    intro j
    constructor
    · rintro ⟨t, ht, h⟩
      exact ⟨_, by omega, h⟩
    · rintro ⟨e, he, h⟩
      refine ⟨st.height - 1 - e - p, by omega, ?_⟩
      have : st.height - 1 - (st.height - 1 - e - p) - p = e := by omega
      show InSub p u (st.height - 1 - (st.height - 1 - e - p) - p) j
      rw [this]
      exact h
  · intro u u' h1 h2 v hv
    obtain ⟨e, _, hv⟩ := hv
    have hex : ∀ e', ¬ InSub p u' e' v ∧ ¬ InSub p u' e' (2 * v + 1)
        ∧ ¬ InSub p u' e' (2 * v + 2) :=
      fun e' => inSub_excl p u u' e e' v (by omega) h2 (by omega) (by omega) hv
    refine ⟨?_, ?_, ?_⟩
    · rintro ⟨e', _, h⟩; exact (hex e').1 h
    · rintro ⟨e', _, h⟩; exact (hex e').2.1 h
    · rintro ⟨e', _, h⟩; exact (hex e').2.2 h

/-- One level of the sequential part of step 2.3. -/
theorem block_seq_level (st : rmMt) (hk : st.k = 2) (total p lvl : Nat) (hl : lvl < p) :
    Block total p (fun j => 2 ^ lvl ≤ j + 1 ∧ j + 1 < 2 ^ (lvl + 1)) (fun a =>
      forLoop (2 ^ lvl) (fun node a =>
        node_pass_top st ((2 ^ lvl - 1) / (2 - 1) + node) a) a) := by
  have pL : 0 < 2 ^ lvl := by positivity
  have h2 : 2 ^ (lvl + 1) = 2 * 2 ^ lvl := by rw [pow_succ]; ring
  have hp : 2 ^ (lvl + 1) ≤ 2 ^ p := Nat.pow_le_pow_right (by decide) (by omega)
  have e1 : (2 ^ lvl - 1) / (2 - 1) = 2 ^ lvl - 1 := by simp
  rw [e1]
  have hb := block_loop total p (fun node j => j = 2 ^ lvl - 1 + node)
    (fun node a => node_pass_top st (2 ^ lvl - 1 + node) a) (2 ^ lvl)
    (fun i hi => block_node_pass_top st hk total p _ (by omega))
    (by
      intro i i' h1 h2 v hv
      subst hv
      refine ⟨?_, ?_, ?_⟩ <;> omega)
  refine block_iff total p _ _ _ ?_ hb
  intro j
  rw [h2]
  generalize 2 ^ lvl = L at *
  constructor
  · rintro ⟨i, hi, rfl⟩
    omega
  · rintro ⟨h1, h2⟩
    exact ⟨j + 1 - L, by omega, by omega⟩

/-- The sequential part of step 2.3: it writes the nodes above level `p`, level
after level from the deepest. -/
theorem block_seq (st : rmMt) (hk : st.k = 2) (total p : Nat) :
    Block total p (fun j => ∃ t, t < p ∧ 2 ^ (p - 1 - t) ≤ j + 1 ∧ j + 1 < 2 ^ (p - 1 - t + 1))
      (fun a => step_2_3_seq st p a) := by
  unfold step_2_3_seq
  rw [hk]
  refine block_loop total p (fun t j => 2 ^ (p - 1 - t) ≤ j + 1 ∧ j + 1 < 2 ^ (p - 1 - t + 1))
    _ p ?_ ?_
  · intro t ht
    exact block_seq_level st hk total p (p - 1 - t) (by omega)
  · intro t t' h1 h2 v hv
    have hpow : 2 ^ (p - 1 - t' + 1) ≤ 2 ^ (p - 1 - t) :=
      Nat.pow_le_pow_right (by decide) (by omega)
    refine ⟨?_, ?_, ?_⟩ <;> (intro c; omega)

theorem level_exists (x : Nat) (hx : 1 ≤ x) : ∃ l, 2 ^ l ≤ x ∧ x < 2 ^ (l + 1) :=
  ⟨Nat.log 2 x, Nat.pow_log_le_self 2 (by omega), Nat.lt_pow_succ_log_self (by decide) x⟩

/-- Step 2.3 as a whole leaves every internal node good, whatever arrays
steps 2.1 and 2.2 have left. -/
theorem step_2_3_good (st : rmMt) (hk : st.k = 2) (total p : Nat) (a : Arrays) (v : Nat)
    (hv : v + 1 < 2 ^ st.height) :
    GoodAt total p (step_2_3_seq st p (step_2_3_par st p (2 ^ p) total a)) v := by
  have hb := block_comp total p _ _ _ _ (block_par st hk total p) (block_seq st hk total p) (by
    intro v hv
    obtain ⟨u, hu, e, he, hin⟩ := hv
    have pE : 0 < 2 ^ e := by positivity
    obtain ⟨lb, _⟩ := (div_eq_iff_bounds _ _ _ pE).1 hin
    have h1 : 2 ^ p ≤ (2 ^ p + u) * 2 ^ e :=
      le_trans (Nat.le_add_right _ _) (Nat.le_mul_of_pos_right _ pE)
    have hex : ∀ t j, t < p → v ≤ j →
        ¬ (2 ^ (p - 1 - t) ≤ j + 1 ∧ j + 1 < 2 ^ (p - 1 - t + 1)) := by
      intro t j ht hj c
      have : 2 ^ (p - 1 - t + 1) ≤ 2 ^ p := Nat.pow_le_pow_right (by decide) (by omega)
      omega
    refine ⟨?_, ?_, ?_⟩
    · rintro ⟨t, ht, c⟩; exact hex t _ ht (le_refl _) c
    · rintro ⟨t, ht, c⟩; exact hex t _ ht (by omega) c
    · rintro ⟨t, ht, c⟩; exact hex t _ ht (by omega) c)
  refine (hb a).2 v ?_
  obtain ⟨l, hl1, hl2⟩ := level_exists (v + 1) (by omega)
  by_cases hvp : v + 1 < 2 ^ p
  · right
    have hlp : l < p := by
      by_contra c
      have : 2 ^ p ≤ 2 ^ l := Nat.pow_le_pow_right (by decide) (by omega)
      omega
    refine ⟨p - 1 - l, by omega, ?_⟩
    have : p - 1 - (p - 1 - l) = l := by omega
    show 2 ^ (p - 1 - (p - 1 - l)) ≤ v + 1 ∧ v + 1 < 2 ^ (p - 1 - (p - 1 - l) + 1)
    rw [this]
    exact ⟨hl1, hl2⟩
  · left
    have hpl : p ≤ l := by
      by_contra c
      have : 2 ^ (l + 1) ≤ 2 ^ p := Nat.pow_le_pow_right (by decide) (by omega)
      omega
    have hlh : l < st.height := by
      by_contra c
      have : 2 ^ st.height ≤ 2 ^ l := Nat.pow_le_pow_right (by decide) (by omega)
      omega
    have pE : 0 < 2 ^ (l - p) := by positivity
    have hL : 2 ^ l = 2 ^ p * 2 ^ (l - p) := by rw [← pow_add]; congr 1; omega
    have hL1 : 2 ^ (l + 1) = (2 * 2 ^ p) * 2 ^ (l - p) := by rw [pow_succ, hL]; ring
    have q1 : 2 ^ p ≤ (v + 1) / 2 ^ (l - p) := (Nat.le_div_iff_mul_le pE).2 (by rw [← hL]; exact hl1)
    have q2 : (v + 1) / 2 ^ (l - p) < 2 * 2 ^ p :=
      (Nat.div_lt_iff_lt_mul pE).2 (by rw [← hL1]; exact hl2)
    refine ⟨(v + 1) / 2 ^ (l - p) - 2 ^ p, by omega, l - p, by omega, ?_⟩
    unfold InSub
    omega

theorem st_create_with (P : Nat) (B : BIT_ARRAY) (hlen : 256 < B.num_of_bits) :
    st_create P B = Except.ok (builtWith P B) := by
  unfold st_create
  simp only []
  rw [if_neg (by show ¬ (256 ≥ B.num_of_bits); omega)]
  rfl

/-- On the index built by any number of workers every internal node is good. -/
theorem built_good (P : Nat) (B : BIT_ARRAY) (v : Nat)
    (hv : v < (builtWith P B).internal_nodes) :
    GoodAt ((builtWith P B).internal_nodes + (builtWith P B).num_chunks) (ceil_log 2 P)
      (build_arrays (baseSt B) P) v := by
  have hst := statics_base B
  have hI : (builtWith P B).internal_nodes = 2 ^ (baseSt B).height - 1 := hst.hI
  have hp : 0 < 2 ^ (baseSt B).height := by positivity
  have h := step_2_3_good (baseSt B) hst.hk
    ((baseSt B).internal_nodes + (baseSt B).num_chunks) (ceil_log 2 P)
    (step_2_2_fix (baseSt B) P (((baseSt B).num_chunks + P - 1) / P)
      (step_2_2_seq P (((baseSt B).num_chunks + P - 1) / P)
        (step_2_1 (baseSt B) P (((baseSt B).num_chunks + P - 1) / P)
          { e_prime := fun _ => 0, m_prime := fun _ => 0, M_prime := fun _ => 0,
            n_prime := fun _ => 0 })))
    v (by omega)
  exact h

theorem rangeExcess_eq (B : BIT_ARRAY) (j len : Nat) :
    rangeExcess B j len = excessBefore B (j + len) - excessBefore B j := by
  induction len with
  | zero => simp [rangeExcess]
  | succ len ih =>
    rw [rangeExcess, ih, ← Nat.add_assoc, excessBefore_succ]
    ring

theorem bwd_loop_none (st : rmMt) (T : Int) (j : Nat) :
    ∀ cnt p, p + 1 = cnt →
      (∀ r', r' ≤ p → excessBefore st.B r' ≠ excessBefore st.B (j + 1)) →
      bwd_loop st T cnt (p : Int)
        (T + (excessBefore st.B (j + 1) - excessBefore st.B (p + 1))) = -1 := by
  intro cnt
  induction cnt with
  | zero => intro p h1; omega
  | succ cnt ih =>
    intro p h1 h3
    unfold bwd_loop
    have e : T + (excessBefore st.B (j + 1) - excessBefore st.B (p + 1))
          + (2 * bit_array_get_bit st.B (p : Int) - 1)
        = T + (excessBefore st.B (j + 1) - excessBefore st.B p) := by
      rw [excessBefore_succ st.B p]; ring
    rw [e]
    have hne := h3 p (le_refl _)
    rw [if_neg (by intro h; apply hne; omega)]
    by_cases hp : p = 0
    · subst hp
      have : cnt = 0 := by omega
      subst this
      rfl
    · have e2 : ((p : Int) - 1) = ((p - 1 : Nat) : Int) := by omega
      rw [e2]
      have := ih (p - 1) (by omega) (fun r' hr => h3 r' (by omega))
      rw [show p - 1 + 1 = p by omega] at this
      exact this

/-- Among the positions `j ≤ i` there is a largest one from which the bits up to
`i` have excess 0, or there is none. -/
theorem last_zero_segment (B : BIT_ARRAY) (i : Nat) :
    ∀ p, p ≤ i + 1 →
      (∃ r, r < p ∧ excessBefore B r = excessBefore B (i + 1)
        ∧ ∀ r', r < r' → r' < p → excessBefore B r' ≠ excessBefore B (i + 1))
      ∨ (∀ r', r' < p → excessBefore B r' ≠ excessBefore B (i + 1)) := by
  intro p
  induction p with
  | zero => intro _; right; intro r' h; omega
  | succ p ih =>
    intro hp
    by_cases h : excessBefore B p = excessBefore B (i + 1)
    · left
      exact ⟨p, by omega, h, fun r' a b => by omega⟩
    · rcases ih (by omega) with ⟨r, h1, h2, h3⟩ | h4
      · left
        refine ⟨r, by omega, h2, ?_⟩
        intro r' a b
        by_cases e : r' = p
        · subst e; exact h
        · exact h3 r' a (by omega)
      · right
        intro r' a
        by_cases e : r' = p
        · subst e; exact h
        · exact h4 r' (by omega)

theorem window_succ (B : BIT_ARRAY) (j len : Nat) :
    window B (j : Int) (len + 1) % 2 = (bit_array_get_bit B (j : Int)).toNat
    ∧ window B (j : Int) (len + 1) / 2 = window B ((j + 1 : Nat) : Int) len := by
  have hw : window B (j : Int) (len + 1)
      = (bit_array_get_bit B (j : Int)).toNat + 2 * window B ((j + 1 : Nat) : Int) len := by
    simp [window]
  have hb1 : (bit_array_get_bit B (j : Int)).toNat ≤ 1 := by
    rcases bit_cases B (j : Int) with hb | hb <;> rw [hb] <;> decide
  rw [hw]
  constructor <;> omega

theorem window_lt (B : BIT_ARRAY) (len : Nat) : ∀ j : Nat, window B (j : Int) len < 2 ^ len := by
  induction len with
  | zero => intro j; simp [window]
  | succ len ih =>
    intro j
    have h := ih (j + 1)
    have hw : window B (j : Int) (len + 1)
        = (bit_array_get_bit B (j : Int)).toNat + 2 * window B ((j + 1 : Nat) : Int) len := by
      simp [window]
    have hb1 : (bit_array_get_bit B (j : Int)).toNat ≤ 1 := by
      rcases bit_cases B (j : Int) with hb | hb <;> rw [hb] <;> decide
    rw [hw, pow_succ]
    omega

theorem leaf_bits_succ (st : rmMt) (d : Int) (cnt : Nat) (j e : Int) :
    leaf_bits st d (cnt + 1) j e =
      if e + (2 * bit_array_get_bit st.B j - 1) = d - 1 then Scan.found j
      else leaf_bits st d cnt (j + 1) (e + (2 * bit_array_get_bit st.B j - 1)) := rfl

/-- A bit loop over `c1 + c2` bits is the loop over `c1` bits followed, if it
finds nothing, by the loop over the next `c2` bits. -/
theorem leaf_bits_append (st : rmMt) (d : Int) (c2 : Nat) (c1 : Nat) :
    ∀ (j : Nat) (e : Int), leaf_bits st d (c1 + c2) (j : Int) e =
      match leaf_bits st d c1 (j : Int) e with
      | Scan.found x => Scan.found x
      | Scan.done e1 => leaf_bits st d c2 ((j + c1 : Nat) : Int) e1 := by
  induction c1 with
  | zero => intro j e; simp [leaf_bits]
  | succ c1 ih =>
    intro j e
    have e1 : c1 + 1 + c2 = (c1 + c2) + 1 := by omega
    have e2 : ((j : Int) + 1) = ((j + 1 : Nat) : Int) := by push_cast; rfl
    have e3 : j + 1 + c1 = j + (c1 + 1) := by omega
    rw [e1, leaf_bits_succ, leaf_bits_succ]
    by_cases h : e + (2 * bit_array_get_bit st.B (j : Int) - 1) = d - 1
    · rw [if_pos h, if_pos h]
    · rw [if_neg h, if_neg h, e2, ih (j + 1), e3]

theorem near_fwd_scan_succ (d : Int) (fuel b p : Nat) (ex : Int) :
    near_fwd_scan d (fuel + 1) b p ex =
      if ex + (2 * ((b % 2 : Nat) : Int) - 1) = d then (p : Int)
      else near_fwd_scan d fuel (b / 2) (p + 1) (ex + (2 * ((b % 2 : Nat) : Int) - 1)) := rfl

theorem bits_excess_succ (b len : Nat) :
    bits_excess b (len + 1) = (2 * ((b % 2 : Nat) : Int) - 1) + bits_excess (b / 2) len := rfl

/-- The table entry `near_fwd_pos` of a window agrees with the bit loop over
the eight bits of the window. -/
theorem byte_scan (st : rmMt) (d e0 : Int) (fuel : Nat) :
    ∀ (j p : Nat) (ex : Int), p + fuel = 8 →
      (p : Int) ≤ near_fwd_scan (d - 1 - e0) fuel (window st.B (j : Int) fuel) p ex
      ∧ leaf_bits st d fuel (j : Int) (e0 + ex) =
        if near_fwd_scan (d - 1 - e0) fuel (window st.B (j : Int) fuel) p ex < 8
        then Scan.found ((j : Int)
          + (near_fwd_scan (d - 1 - e0) fuel (window st.B (j : Int) fuel) p ex - p))
        else Scan.done (e0 + ex + bits_excess (window st.B (j : Int) fuel) fuel) := by
  induction fuel with
  | zero =>
    intro j p ex hp
    simp only [near_fwd_scan, leaf_bits, bits_excess, window]
    refine ⟨by omega, ?_⟩
    rw [if_neg (by omega)]
    simp
  | succ fuel ih =>
    intro j p ex hp
    obtain ⟨w1, w2⟩ := window_succ st.B j fuel
    have hbit := bit_toNat_cast st.B (j : Int)
    obtain ⟨ihb, ihe⟩ := ih (j + 1) (p + 1) (ex + (2 * bit_array_get_bit st.B (j : Int) - 1))
      (by omega)
    have e2 : ((j : Int) + 1) = ((j + 1 : Nat) : Int) := by push_cast; rfl
    rw [near_fwd_scan_succ, leaf_bits_succ, bits_excess_succ, w1, w2, hbit]
    generalize hN : near_fwd_scan (d - 1 - e0) fuel (window st.B ((j + 1 : Nat) : Int) fuel) (p + 1)
      (ex + (2 * bit_array_get_bit st.B (j : Int) - 1)) = N at *
    by_cases h : ex + (2 * bit_array_get_bit st.B (j : Int) - 1) = d - 1 - e0
    · rw [if_pos h, if_pos (by omega), if_pos (by omega)]
      refine ⟨le_refl _, ?_⟩
      simp
    · rw [if_neg h, if_neg (by omega)]
      refine ⟨by push_cast at ihb; omega, ?_⟩
      have e3 : e0 + ex + (2 * bit_array_get_bit st.B (j : Int) - 1)
          = e0 + (ex + (2 * bit_array_get_bit st.B (j : Int) - 1)) := by ring
      rw [e2, e3, ihe]
      by_cases hN8 : N < 8
      · rw [if_pos hN8, if_pos hN8]
        have e4 : ((j + 1 : Nat) : Int) + (N - ((p + 1 : Nat) : Int)) = (j : Int) + (N - (p : Int)) := by
          push_cast; ring
        rw [e4]
      · rw [if_neg hN8, if_neg hN8]
        have e4 : e0 + (ex + (2 * bit_array_get_bit st.B (j : Int) - 1))
              + bits_excess (window st.B ((j + 1 : Nat) : Int) fuel) fuel
            = e0 + ex + (2 * bit_array_get_bit st.B (j : Int) - 1
              + bits_excess (window st.B ((j + 1 : Nat) : Int) fuel) fuel) := by ring
        rw [e4]

/-- A target further away than the bits left cannot be reached. -/
theorem near_fwd_scan_far (d : Int) (fuel : Nat) :
    ∀ (b p : Nat) (ex : Int), (d - ex > fuel ∨ ex - d > fuel) →
      near_fwd_scan d fuel b p ex = 8 := by
  induction fuel with
  | zero => intro b p ex _; rfl
  | succ fuel ih =>
    intro b p ex h
    rw [near_fwd_scan_succ]
    have hb : ((b % 2 : Nat) : Int) = 0 ∨ ((b % 2 : Nat) : Int) = 1 := by omega
    rw [if_neg (by push_cast at h; omega)]
    exact ih _ _ _ (by push_cast at h; omega)

/-- One step of the byte loop is the bit loop over the eight bits of the window. -/
theorem byte_step (st : rmMt) (d : Int) (j : Nat) (e : Int) :
    leaf_bits st d 8 (j : Int) e =
      if d - 1 - e ≥ -8 ∧ d - 1 - e ≤ 8
          ∧ near_fwd_pos (((d - 1 - e + 8) * 256).toNat + word8 st.B (j : Int)) < 8 then
        Scan.found ((j : Int)
          + near_fwd_pos (((d - 1 - e + 8) * 256).toNat + word8 st.B (j : Int)))
      else Scan.done (e + word_sum (word8 st.B (j : Int))) := by
  obtain ⟨_, hs⟩ := byte_scan st d e 8 j 0 0 (by omega)
  have e0 : e + 0 = e := by ring
  rw [e0] at hs
  have hw : word8 st.B (j : Int) < 256 := window_lt st.B 8 j
  rw [hs]
  show _ = if _ then Scan.found ((j : Int) + near_fwd_pos _) else Scan.done (e + bits_excess _ 8)
  change (if near_fwd_scan (d - 1 - e) 8 (word8 st.B (j : Int)) 0 0 < 8 then
      Scan.found ((j : Int) + (near_fwd_scan (d - 1 - e) 8 (word8 st.B (j : Int)) 0 0 - (0 : Nat)))
    else Scan.done (e + bits_excess (word8 st.B (j : Int)) 8)) = _
  generalize word8 st.B (j : Int) = w at *
  by_cases hr : d - 1 - e ≥ -8 ∧ d - 1 - e ≤ 8
  · have hi1 : (((d - 1 - e + 8) * 256).toNat + w) / 256 = (d - 1 - e + 8).toNat := by omega
    have hi2 : (((d - 1 - e + 8) * 256).toNat + w) % 256 = w := by omega
    have hi3 : (((d - 1 - e + 8).toNat : Nat) : Int) - 8 = d - 1 - e := by omega
    have hp : near_fwd_pos (((d - 1 - e + 8) * 256).toNat + w)
        = near_fwd_scan (d - 1 - e) 8 w 0 0 := by
      unfold near_fwd_pos
      rw [hi1, hi2, hi3]
    rw [hp]
    by_cases hN : near_fwd_scan (d - 1 - e) 8 w 0 0 < 8
    · rw [if_pos hN, if_pos ⟨hr.1, hr.2, hN⟩]
      simp
    · rw [if_neg hN, if_neg (fun c => hN c.2.2)]
  · have hfar := near_fwd_scan_far (d - 1 - e) 8 w 0 0 (by push_cast; omega)
    rw [hfar, if_neg (by decide), if_neg (fun c => hr ⟨c.1, c.2.1⟩)]

/-- The byte loop is the bit loop over the same bits. -/
theorem leaf_bytes_eq_bits (st : rmMt) (d : Int) (cnt : Nat) :
    ∀ (j : Nat) (e : Int), leaf_bytes st d cnt (j : Int) e = leaf_bits st d (8 * cnt) (j : Int) e := by
  induction cnt with
  | zero => intro j e; rfl
  | succ cnt ih =>
    intro j e
    have e1 : 8 * (cnt + 1) = 8 + 8 * cnt := by ring
    have e2 : ((j : Int) + 8) = ((j + 8 : Nat) : Int) := by push_cast; rfl
    rw [e1, leaf_bits_append, byte_step]
    rw [leaf_bytes]
    split_ifs
    · rfl
    · rw [e2, ih]

/-- `check_leaf_r` is the bit-by-bit scan of the rest of the chunk of `i`. -/
theorem check_leaf_r_naive (st : rmMt) (hs : st.s = 256) (i : Nat) (d : Int) :
    check_leaf_r st (i : Int) d =
      match leaf_bits st d ((i / 256 + 1) * 256 - (i + 1)) ((i + 1 : Nat) : Int) d with
      | Scan.found j => j
      | Scan.done _ => (i : Int) - 1 := by
  unfold check_leaf_r
  rw [hs]
  have hE : (((i : Int) / ((256 : Nat) : Int) + 1) * ((256 : Nat) : Int))
      = (((i / 256 + 1) * 256 : Nat) : Int) := by push_cast; rfl
  have hL : (((i : Int) + 8) / 8) * 8 = ((((i + 8) / 8) * 8 : Nat) : Int) := by push_cast; rfl
  simp only [hE, hL]
  generalize hEd : (i / 256 + 1) * 256 = E at *
  generalize hLd : ((i + 8) / 8) * 8 = L at *
  have hR : ((E : Int) / 8) * 8 = (E : Int) := by omega
  have hLE : L ≤ E := by omega
  have hiL : i < L := by omega
  rw [hR]
  have hmin : min (E : Int) (L : Int) = (L : Int) := by omega
  have hmax : max (L : Int) (E : Int) = (E : Int) := by omega
  rw [hmin, hmax]
  have c1 : ((L : Int) - ((i : Int) + 1)).toNat = L - (i + 1) := by omega
  have c2 : steps8 (L : Int) (E : Int) = (E - L) / 8 := by unfold steps8; omega
  have c3 : ((E : Int) - (E : Int)).toNat = 0 := by omega
  have e1 : ((i : Int) + 1) = ((i + 1 : Nat) : Int) := by push_cast; rfl
  rw [c1, c2, c3, e1]
  have hsplit : E - (i + 1) = (L - (i + 1)) + 8 * ((E - L) / 8) := by omega
  have hj : i + 1 + (L - (i + 1)) = L := by omega
  rw [hsplit, leaf_bits_append, hj]
  cases leaf_bits st d (L - (i + 1)) ((i + 1 : Nat) : Int) d with
  | found j => rfl
  | done e =>
    simp only []
    rw [leaf_bytes_eq_bits]
    cases leaf_bits st d (8 * ((E - L) / 8)) (L : Int) e with
    | found j => rfl
    | done e' => simp only [leaf_bits]

/-- What a bit loop returns: the first position at which the running excess is
the one looked for, or the running excess at its end. -/
theorem leaf_bits_spec (st : rmMt) (d : Int) (cnt : Nat) :
    ∀ (j : Nat) (e : Int),
      (∃ k, k < cnt ∧ leaf_bits st d cnt (j : Int) e = Scan.found ((j + k : Nat) : Int)
        ∧ e + rangeExcess st.B j (k + 1) = d - 1
        ∧ ∀ k', k' < k → e + rangeExcess st.B j (k' + 1) ≠ d - 1)
      ∨ (leaf_bits st d cnt (j : Int) e = Scan.done (e + rangeExcess st.B j cnt)
        ∧ ∀ k', k' < cnt → e + rangeExcess st.B j (k' + 1) ≠ d - 1) := by
  induction cnt with
  | zero =>
    intro j e
    right
    exact ⟨by simp [leaf_bits, rangeExcess], fun k' h => by omega⟩
  | succ cnt ih =>
    intro j e
    have e2 : ((j : Int) + 1) = ((j + 1 : Nat) : Int) := by push_cast; rfl
    have hr : ∀ k, e + (2 * bit_array_get_bit st.B (j : Int) - 1) + rangeExcess st.B (j + 1) k
        = e + rangeExcess st.B j (k + 1) := by
      intro k
      rw [rangeExcess_eq, rangeExcess_eq, excessBefore_succ st.B j,
        show j + 1 + k = j + (k + 1) by omega]
      ring
    rw [leaf_bits_succ]
    by_cases h : e + (2 * bit_array_get_bit st.B (j : Int) - 1) = d - 1
    · left
      refine ⟨0, by omega, by rw [if_pos h]; rfl, ?_, fun k' hk => by omega⟩
      have := hr 0
      simp only [rangeExcess] at this ⊢
      omega
    · rw [if_neg h, e2]
      have h0 : e + rangeExcess st.B j (0 + 1) ≠ d - 1 := by
        have := hr 0
        simp only [rangeExcess] at this ⊢
        omega
      rcases ih (j + 1) (e + (2 * bit_array_get_bit st.B (j : Int) - 1)) with
        ⟨k, h1, h2, h3, h4⟩ | ⟨h5, h6⟩
      · left
        refine ⟨k + 1, by omega, ?_, ?_, ?_⟩
        · rw [h2, show j + 1 + k = j + (k + 1) by omega]
        · rw [← hr (k + 1)]; exact h3
        · intro k' hk'
          by_cases hz : k' = 0
          · subst hz; exact h0
          · have := h4 (k' - 1) (by omega)
            rw [hr (k' - 1 + 1), show k' - 1 + 1 = k' by omega] at this
            exact this
      · right
        refine ⟨?_, ?_⟩
        · rw [h5, hr cnt]
        · intro k' hk'
          by_cases hz : k' = 0
          · subst hz; exact h0
          · have := h6 (k' - 1) (by omega)
            rw [hr (k' - 1 + 1), show k' - 1 + 1 = k' by omega] at this
            exact this

/-- The position `check_leaf_r` returns, for whatever target: the first bit
after `i` in the chunk of `i` at which the excess counted from `i + 1` is -1, or
`i − 1`. -/
theorem check_leaf_r_first (st : rmMt) (hs : st.s = 256) (i : Nat) (x : Int) :
    (∃ k, k < (i / 256 + 1) * 256 - (i + 1)
        ∧ check_leaf_r st (i : Int) x = ((i + 1 + k : Nat) : Int)
        ∧ rangeExcess st.B (i + 1) (k + 1) = -1
        ∧ ∀ k', k' < k → rangeExcess st.B (i + 1) (k' + 1) ≠ -1)
    ∨ (check_leaf_r st (i : Int) x = (i : Int) - 1
        ∧ ∀ k', k' < (i / 256 + 1) * 256 - (i + 1) → rangeExcess st.B (i + 1) (k' + 1) ≠ -1) := by
  rw [check_leaf_r_naive st hs i x]
  rcases leaf_bits_spec st x ((i / 256 + 1) * 256 - (i + 1)) (i + 1) x with
    ⟨k, h1, h2, h3, h4⟩ | ⟨h5, h6⟩
  · left
    refine ⟨k, h1, by rw [h2], by omega, ?_⟩
    intro k' hk'
    have := h4 k' hk'
    intro c
    apply this
    omega
  · right
    refine ⟨by rw [h5], ?_⟩
    intro k' hk'
    have := h6 k' hk'
    intro c
    apply this
    omega

theorem shift_bit (B : BIT_ARRAY) (S k : Nat) :
    bit_array_get_bit (shiftB B S) (k : Int) = bit_array_get_bit B ((S + k : Nat) : Int) := by
  rw [bit_natCast, bit_natCast]
  show (if k < B.num_of_bits - S ∧ B.bits (S + k) = true then (1 : Int) else 0) = _
  by_cases h : B.bits (S + k) = true
  · by_cases h2 : k < B.num_of_bits - S
    · rw [if_pos ⟨h2, h⟩, if_pos ⟨by omega, h⟩]
    · rw [if_neg (fun c => h2 c.1), if_neg (fun c => h2 (by have := c.1; omega))]
  · rw [if_neg (fun c => h c.2), if_neg (fun c => h c.2)]

theorem shift_before (B : BIT_ARRAY) (S k : Nat) :
    excessBefore (shiftB B S) k = excessBefore B (S + k) - excessBefore B S := by
  induction k with
  | zero => simp [excessBefore]
  | succ k ih =>
    rw [excessBefore_succ, ih, shift_bit, ← Nat.add_assoc, excessBefore_succ B (S + k)]
    ring

theorem shift_zero (B : BIT_ARRAY) : shiftB B 0 = B := by
  cases B with
  | mk n bits =>
    unfold shiftB
    simp

/-- The symbol loop of a chunk sees only the bits from the start of its worker on. -/
theorem scan_shift (B : BIT_ARRAY) (S lo : Nat) (hS : S ≤ lo) (v0 : ChunkVars) (t : Nat) :
    forLoop t (fun t v => scan_symbol B lo (lo + t) v) v0
      = forLoop t (fun t v => scan_symbol (shiftB B S) (lo - S) (lo - S + t) v) v0 := by
  apply forLoop_congr
  intro i v _
  have hb : bit_array_get_bit B ((lo + i : Nat) : Int)
      = bit_array_get_bit (shiftB B S) ((lo - S + i : Nat) : Int) := by
    rw [shift_bit]; congr 2; omega
  have hc : (lo + i = lo) ↔ (lo - S + i = lo - S) := by omega
  unfold scan_symbol
  rw [hb]
  simp only [hc]

/-- The symbol loop counts the positions at which the wrapped excess is the
least one seen so far. -/
theorem scan_count (B : BIT_ARRAY) (lo : Nat) (v0 : ChunkVars)
    (h0 : v0.partial_excess = toInt16 (excessBefore B lo)) (t : Nat) (ht : t < 32767) :
    0 < t → (forLoop t (fun t v => scan_symbol B lo (lo + t) v) v0).num_mins
      = (countW B lo t (forLoop t (fun t v => scan_symbol B lo (lo + t) v) v0).min : Nat)
      ∧ countW B lo t (forLoop t (fun t v => scan_symbol B lo (lo + t) v) v0).min ≤ t := by
  induction t with
  | zero => intro h; omega
  | succ t ih =>
    intro _
    have hinv := scan_inv B lo v0 h0 t
    rw [forLoop_succ]
    generalize forLoop t (fun t v => scan_symbol B lo (lo + t) v) v0 = v at ih hinv
    have hpe := scan_symbol_pe B lo (lo + t) v hinv.pe
    by_cases ht0 : t = 0
    · subst ht0
      have e : scan_symbol B lo (lo + 0) v =
          { min := (scan_symbol B lo (lo + 0) v).partial_excess,
            max := (scan_symbol B lo (lo + 0) v).partial_excess,
            partial_excess := (scan_symbol B lo (lo + 0) v).partial_excess, num_mins := 1 } := by
        unfold scan_symbol; simp
      rw [e, hpe]
      simp [countW]
    · have hne : lo + t ≠ lo := by omega
      obtain ⟨ihn, ihle⟩ := ih (by omega) (by omega)
      have hmin : (scan_symbol B lo (lo + t) v).min =
          (if wexcess B (lo + t) < v.min then wexcess B (lo + t) else v.min) := by
        rw [← hpe]; unfold scan_symbol; simp [hne]
      have hnum : (scan_symbol B lo (lo + t) v).num_mins =
          (if wexcess B (lo + t) < v.min then 1
            else if wexcess B (lo + t) = v.min then toInt16 (v.num_mins + 1) else v.num_mins) := by
        rw [← hpe]; unfold scan_symbol; simp [hne]
      have hzero : ∀ w, w < v.min → countW B lo t w = 0 := by
        intro w hw
        have : ∀ s, s ≤ t → countW B lo s w = 0 := by
          intro s
          induction s with
          | zero => intro _; rfl
          | succ s ihs =>
            intro hs
            have hl := hinv.lower (lo + s) (by omega) (by omega)
            rw [countW, ihs (by omega), if_neg (by omega)]
        exact this t (le_refl _)
      rw [hmin, hnum, countW]
      by_cases h1 : wexcess B (lo + t) < v.min
      · rw [if_pos h1, if_pos h1, hzero _ h1, if_pos rfl]
        exact ⟨by simp, by omega⟩
      · rw [if_neg h1, if_neg h1]
        by_cases h2 : wexcess B (lo + t) = v.min
        · rw [if_pos h2, if_pos h2, ihn, toInt16_of_fits (by omega) (by omega)]
          exact ⟨by push_cast; ring, by omega⟩
        · rw [if_neg h2, if_neg h2, ihn]
          exact ⟨by simp, by omega⟩

theorem thread_scan_eq (st : rmMt) (P cpt t : Nat) (a : Arrays) :
    thread_scan st P cpt t a =
      (forLoop (chunk_limit_of st P cpt t)
        (fun chunk x => process_chunk st P cpt (chunk_limit_of st P cpt t) t chunk x)
        ({ min := 0, max := 0, partial_excess := 0, num_mins := 1 }, a)).2 := rfl

/-- With `cpt = ⌈nc / P⌉` chunks per worker, the workers have room for all chunks. -/
theorem cpt_facts (nc P : Nat) (hP : 1 ≤ P) (hnc : 1 ≤ nc) :
    1 ≤ (nc + P - 1) / P ∧ nc ≤ (P - 1) * ((nc + P - 1) / P) + (nc + P - 1) / P := by
  have h1 := Nat.div_add_mod (nc + P - 1) P
  have h2 := Nat.mod_lt (nc + P - 1) (by omega : 0 < P)
  have h3 : (P - 1) * ((nc + P - 1) / P) + (nc + P - 1) / P = P * ((nc + P - 1) / P) := by
    obtain ⟨k, rfl⟩ : ∃ k, P = k + 1 := ⟨P - 1, by omega⟩
    rw [Nat.add_sub_cancel]
    ring
  refine ⟨?_, by omega⟩
  exact (Nat.le_div_iff_mul_le (by omega)).2 (by omega)

/-- When every worker has a chunk, the last worker scans the chunks that are
left and every other worker scans `cpt` chunks. -/
theorem chunk_limit_valid (st : rmMt) (P cpt t : Nat) (hc1 : 1 ≤ cpt)
    (hv : (P - 1) * cpt < st.num_chunks) (hle : st.num_chunks ≤ (P - 1) * cpt + cpt) :
    chunk_limit_of st P cpt t
      = if t = P - 1 then st.num_chunks - (P - 1) * cpt else cpt := by
  unfold chunk_limit_of
  by_cases ht : t = P - 1
  · rw [if_pos ht]
    obtain ⟨r, hr⟩ : ∃ r, st.num_chunks = r + (P - 1) * cpt := ⟨st.num_chunks - (P - 1) * cpt, by omega⟩
    have hmod : st.num_chunks % cpt = r % cpt := by
      rw [hr, Nat.add_mul_mod_self_right]
    by_cases hr2 : r = cpt
    · rw [if_neg (by rw [hmod, hr2, Nat.mod_self]; simp)]
      omega
    · have : r % cpt = r := Nat.mod_eq_of_lt (by omega)
      rw [if_pos ⟨ht, by rw [hmod, this]; omega⟩, hmod, this]
      omega
  · rw [if_neg (fun c => ht c.1), if_neg ht]

/-- The chunks of a worker lie below `num_chunks`. -/
theorem worker_chunk_lt (st : rmMt) (P cpt t c : Nat) (hc1 : 1 ≤ cpt)
    (hv : (P - 1) * cpt < st.num_chunks) (hle : st.num_chunks ≤ (P - 1) * cpt + cpt)
    (ht : t < P) (hc : c < chunk_limit_of st P cpt t) :
    t * cpt + c < st.num_chunks ∧ (t * cpt + c = st.num_chunks - 1 →
      t = P - 1 ∧ c = chunk_limit_of st P cpt t - 1) := by
  rw [chunk_limit_valid st P cpt t hc1 hv hle] at hc ⊢
  by_cases h : t = P - 1
  · rw [if_pos h] at hc ⊢
    subst h
    exact ⟨by omega, fun _ => ⟨rfl, by omega⟩⟩
  · rw [if_neg h] at hc ⊢
    have h1 : (t + 1) * cpt ≤ (P - 1) * cpt := Nat.mul_le_mul_right _ (by omega)
    have h2 : (t + 1) * cpt = t * cpt + cpt := by ring
    exact ⟨by omega, fun c => by omega⟩

/-- The limits of the chunks of step 2.1 when every worker has a chunk: chunk
`g = t·cpt + c` is scanned from bit `256·g` up to bit `min(256·(g+1), n)`. -/
theorem chunk_limits_valid (st : rmMt) (B : BIT_ARRAY) (hst : Statics st B)
    (hlen : 256 < B.num_of_bits) (P cpt t c : Nat) (hc1 : 1 ≤ cpt)
    (hv : (P - 1) * cpt < st.num_chunks) (hle : st.num_chunks ≤ (P - 1) * cpt + cpt)
    (ht : t < P) (hc : c < chunk_limit_of st P cpt t) :
    chunk_limits st P cpt (chunk_limit_of st P cpt t) t c
      = (256 * (t * cpt + c), min (256 * (t * cpt + c + 1)) B.num_of_bits) := by
  have hnc := hst.hnc
  obtain ⟨hg, hlast⟩ := worker_chunk_lt st P cpt t c hc1 hv hle ht hc
  have hcl := chunk_limit_valid st P cpt t hc1 hv hle
  unfold chunk_limits
  rw [hst.hs, hst.hn]
  by_cases h1 : t = P - 1 ∧ c = chunk_limit_of st P cpt t - 1
      ∧ B.num_of_bits % (st.num_chunks * 256) ≠ 0
  · rw [if_pos h1]
    have hg1 : t * cpt + c = st.num_chunks - 1 := by
      rw [hcl, if_pos h1.1] at h1 hc
      obtain ⟨a1, a2, _⟩ := h1
      rw [a1]
      omega
    generalize t * cpt = g0 at *
    refine Prod.ext (by show g0 * 256 + 256 * c = _; omega) ?_
    show B.num_of_bits = _
    omega
  · rw [if_neg h1]
    have hle2 : 256 * (t * cpt + c + 1) ≤ B.num_of_bits := by
      by_cases h2 : t * cpt + c = st.num_chunks - 1
      · obtain ⟨a1, a2⟩ := hlast h2
        have h3 : B.num_of_bits % (st.num_chunks * 256) = 0 := by
          by_contra h3; exact h1 ⟨a1, a2, h3⟩
        by_contra hlt
        have h4 : B.num_of_bits < st.num_chunks * 256 := by omega
        rw [Nat.mod_eq_of_lt h4] at h3
        omega
      · omega
    generalize t * cpt = g0 at *
    refine Prod.ext (by show g0 * 256 + 256 * c = _; omega) ?_
    show (if B.num_of_bits < 256 then _ else _) = _
    rw [if_neg (by omega)]
    omega

theorem worker_inv (st : rmMt) (B : BIT_ARRAY) (hst : Statics st B)
    (hlen : 256 < B.num_of_bits) (P cpt t : Nat) (hc1 : 1 ≤ cpt)
    (hv : (P - 1) * cpt < st.num_chunks) (hle : st.num_chunks ≤ (P - 1) * cpt + cpt)
    (ht : t < P) (a0 : Arrays) (c : Nat) (hc : c ≤ chunk_limit_of st P cpt t) :
    WorkerInv st (shiftB B (256 * (t * cpt))) (t * cpt) a0 c
      (forLoop c (fun chunk x =>
          process_chunk st P cpt (chunk_limit_of st P cpt t) t chunk x)
        ({ min := 0, max := 0, partial_excess := 0, num_mins := 1 }, a0)) := by
  induction c with
  | zero =>
    refine ⟨?_, fun c' h => by omega, fun c' h => by omega, fun c' h => by omega,
      fun j _ => rfl, fun j _ => ⟨rfl, rfl, rfl⟩⟩
    simp [forLoop, excessBefore, toInt16]
  | succ c ih =>
    have ih' := ih (by omega)
    clear ih
    rw [forLoop_succ]
    generalize forLoop c (fun chunk x =>
        process_chunk st P cpt (chunk_limit_of st P cpt t) t chunk x)
      ({ min := 0, max := 0, partial_excess := 0, num_mins := 1 }, a0) = x at ih'
    have hnc := hst.hnc
    have hlim := chunk_limits_valid st B hst hlen P cpt t c hc1 hv hle ht (by omega)
    obtain ⟨hg, _⟩ := worker_chunk_lt st P cpt t c hc1 hv hle ht (by omega)
    generalize chunk_limit_of st P cpt t = L at *
    generalize hg0 : t * cpt = g0 at *
    have hn' : (shiftB B (256 * g0)).num_of_bits = B.num_of_bits - 256 * g0 := rfl
    generalize hB' : shiftB B (256 * g0) = B' at *
    have hlo : 256 * c < B'.num_of_bits := by omega
    have hmin : min (256 * c) B'.num_of_bits = 256 * c := by omega
    have hcnt : min (256 * (g0 + c + 1)) B.num_of_bits - 256 * (g0 + c)
        = min (256 * (c + 1)) B'.num_of_bits - 256 * c := by omega
    have hoff : 256 * (g0 + c) - 256 * g0 = 256 * c := by omega
    have hsc := scan_inv B' (256 * c) { x.1 with num_mins := 1 }
      (by rw [← hmin]; exact ih'.pe) (min (256 * (c + 1)) B'.num_of_bits - 256 * c)
    have hhi : 256 * c + (min (256 * (c + 1)) B'.num_of_bits - 256 * c)
        = min (256 * (c + 1)) B'.num_of_bits := by omega
    have hpos : 0 < min (256 * (c + 1)) B'.num_of_bits - 256 * c := by omega
    have hct := scan_count B' (256 * c) { x.1 with num_mins := 1 }
      (by rw [← hmin]; exact ih'.pe) (min (256 * (c + 1)) B'.num_of_bits - 256 * c)
      (by omega) hpos
    unfold process_chunk
    rw [hlim, hst.hB]
    simp only [hg0]
    rw [hcnt, scan_shift B (256 * g0) (256 * (g0 + c)) (by omega), hB', hoff]
    generalize forLoop (min (256 * (c + 1)) B'.num_of_bits - 256 * c)
      (fun t v => scan_symbol B' (256 * c) (256 * c + t) v) { x.1 with num_mins := 1 } = v
      at hsc hct
    refine ⟨?_, ?_, ?_, ?_, ?_, ?_⟩
    · show v.partial_excess = _
      rw [hsc.pe, hhi]
    · intro c' hc'
      show setAt x.2.e_prime (g0 + c) v.partial_excess (g0 + c') = _
      by_cases h : c' = c
      · subst h; rw [setAt_same, hsc.pe, hhi]
      · rw [setAt_other _ _ (by omega)]; exact ih'.e_done c' (by omega)
    · intro c' hc'
      show RangeMinMax B' _ _ (setAt x.2.m_prime (st.internal_nodes + (g0 + c)) v.min _)
        (setAt x.2.M_prime (st.internal_nodes + (g0 + c)) v.max _)
      by_cases h : c' = c
      · subst h
        rw [setAt_same, setAt_same]
        refine ⟨fun p h1 h2 => ⟨hsc.lower p h1 (by omega), hsc.upper p h1 (by omega)⟩, ?_, ?_⟩
        · obtain ⟨p, h1, h2, h3⟩ := hsc.min_att hpos
          exact ⟨p, h1, by omega, h3⟩
        · obtain ⟨p, h1, h2, h3⟩ := hsc.max_att hpos
          exact ⟨p, h1, by omega, h3⟩
      · rw [setAt_other _ _ (by omega), setAt_other _ _ (by omega)]
        exact ih'.leaf_done c' (by omega)
    · intro c' hc'
      show setAt x.2.n_prime (st.internal_nodes + (g0 + c)) v.num_mins _
        = ((countW B' _ _ (setAt x.2.m_prime (st.internal_nodes + (g0 + c)) v.min _) : Nat) : Int)
      by_cases h : c' = c
      · subst h
        rw [setAt_same, setAt_same]
        exact hct.1
      · rw [setAt_other _ _ (by omega), setAt_other _ _ (by omega)]
        exact ih'.count_done c' (by omega)
    · intro j hj
      show setAt x.2.e_prime (g0 + c) v.partial_excess j = _
      rw [setAt_other _ _ (by omega)]; exact ih'.e_rest j (by omega)
    · intro j hj
      show setAt x.2.m_prime (st.internal_nodes + (g0 + c)) v.min j = _
        ∧ setAt x.2.M_prime (st.internal_nodes + (g0 + c)) v.max j = _
        ∧ setAt x.2.n_prime (st.internal_nodes + (g0 + c)) v.num_mins j = _
      rw [setAt_other _ _ (by omega), setAt_other _ _ (by omega), setAt_other _ _ (by omega)]
      exact ih'.rest j (by omega)

theorem chunkRel_congr (st : rmMt) (B : BIT_ARRAY) (cpt t c : Nat) (a a' : Arrays)
    (he : a'.e_prime (t * cpt + c) = a.e_prime (t * cpt + c))
    (hl : a'.m_prime (st.internal_nodes + (t * cpt + c)) = a.m_prime (st.internal_nodes + (t * cpt + c))
      ∧ a'.M_prime (st.internal_nodes + (t * cpt + c)) = a.M_prime (st.internal_nodes + (t * cpt + c))
      ∧ a'.n_prime (st.internal_nodes + (t * cpt + c)) = a.n_prime (st.internal_nodes + (t * cpt + c)))
    (h : ChunkRel st B cpt t c a) : ChunkRel st B cpt t c a' := by
  obtain ⟨h1, h2, h3⟩ := h
  refine ⟨?_, ?_, ?_⟩
  · rw [he]; exact h1
  · rw [hl.1, hl.2.1]; exact h2
  · rw [hl.1, hl.2.2]; exact h3

theorem chunk_limit_le (st : rmMt) (P cpt t : Nat) (hc1 : 1 ≤ cpt)
    (hv : (P - 1) * cpt < st.num_chunks) (hle : st.num_chunks ≤ (P - 1) * cpt + cpt) :
    chunk_limit_of st P cpt t ≤ cpt := by
  rw [chunk_limit_valid st P cpt t hc1 hv hle]
  split_ifs <;> omega

/-- Step 2.1 after the first `T` workers: their chunks hold the relative
values, and nothing else has been written. -/
theorem step21_inv (st : rmMt) (B : BIT_ARRAY) (hst : Statics st B)
    (hlen : 256 < B.num_of_bits) (P cpt : Nat) (hc1 : 1 ≤ cpt)
    (hv : (P - 1) * cpt < st.num_chunks) (hle : st.num_chunks ≤ (P - 1) * cpt + cpt)
    (a0 : Arrays) (T : Nat) (hT : T ≤ P) :
    (∀ t c, t < T → c < chunk_limit_of st P cpt t → ChunkRel st B cpt t c
      (forLoop T (fun thread a => thread_scan st P cpt thread a) a0))
    ∧ (∀ j, T * cpt ≤ j →
        (forLoop T (fun thread a => thread_scan st P cpt thread a) a0).e_prime j = a0.e_prime j)
    ∧ (∀ j, (j < st.internal_nodes ∨ st.internal_nodes + T * cpt ≤ j) →
        (forLoop T (fun thread a => thread_scan st P cpt thread a) a0).m_prime j = a0.m_prime j
        ∧ (forLoop T (fun thread a => thread_scan st P cpt thread a) a0).M_prime j = a0.M_prime j
        ∧ (forLoop T (fun thread a => thread_scan st P cpt thread a) a0).n_prime j
            = a0.n_prime j) := by
  induction T with
  | zero =>
    exact ⟨fun t c h => by omega, fun j _ => rfl, fun j _ => ⟨rfl, rfl, rfl⟩⟩
  | succ T ih =>
    obtain ⟨ih1, ih2, ih3⟩ := ih (by omega)
    rw [forLoop_succ, thread_scan_eq]
    generalize forLoop T (fun thread a => thread_scan st P cpt thread a) a0 = a at *
    have hw := worker_inv st B hst hlen P cpt T hc1 hv hle (by omega) a
      (chunk_limit_of st P cpt T) (le_refl _)
    have hL := chunk_limit_le st P cpt T hc1 hv hle
    generalize forLoop (chunk_limit_of st P cpt T)
      (fun chunk x => process_chunk st P cpt (chunk_limit_of st P cpt T) T chunk x)
      ({ min := 0, max := 0, partial_excess := 0, num_mins := 1 }, a) = x at hw
    have hT1 : (T + 1) * cpt = T * cpt + cpt := by ring
    refine ⟨?_, ?_, ?_⟩
    · intro t c ht hc
      by_cases htT : t = T
      · subst htT
        exact ⟨hw.e_done c hc, hw.leaf_done c hc, hw.count_done c hc⟩
      · have hLt := chunk_limit_le st P cpt t hc1 hv hle
        have h1 : (t + 1) * cpt ≤ T * cpt := Nat.mul_le_mul_right _ (by omega)
        have h2 : (t + 1) * cpt = t * cpt + cpt := by ring
        exact chunkRel_congr st B cpt t c a x.2
          (hw.e_rest _ (Or.inl (by omega))) (hw.rest _ (Or.inl (by omega))) (ih1 t c (by omega) hc)
    · intro j hj
      rw [hw.e_rest j (Or.inr (by omega))]
      exact ih2 j (by omega)
    · intro j hj
      have h := hw.rest j (by omega)
      have h' := ih3 j (by omega)
      exact ⟨h.1.trans h'.1, h.2.1.trans h'.2.1, h.2.2.trans h'.2.2⟩

theorem toInt16_add (x y : Int) : toInt16 (toInt16 x + toInt16 y) = toInt16 (x + y) := by
  unfold toInt16; omega

theorem toInt16_add_right (x y : Int) : toInt16 (x + toInt16 y) = toInt16 (x + y) := by
  unfold toInt16; omega

theorem toInt16_idem (x : Int) : toInt16 (toInt16 x) = toInt16 x := by
  unfold toInt16; omega

theorem succ_mul_le (t k cpt : Nat) (h : t < k) : t * cpt + cpt ≤ k * cpt := by
  have h1 : (t + 1) * cpt ≤ k * cpt := Nat.mul_le_mul_right _ (by omega)
  have h2 : (t + 1) * cpt = t * cpt + cpt := by ring
  omega

/-- The sequential pass of step 2.2 after `k` iterations: the last cell of
each of the workers `0..k` holds the wrapped excess `X (t+1)` at the end of the
worker, when step 2.1 left there the excess relative to the worker's start. -/
theorem seq_inv (P cpt : Nat) (hc1 : 1 ≤ cpt) (a1 : Arrays) (X : Nat → Int) (hX0 : X 0 = 0)
    (hrel : ∀ t, t + 1 < P → a1.e_prime (t * cpt + cpt - 1) = toInt16 (X (t + 1) - X t))
    (k : Nat) (hk : k ≤ P - 1 - 1) :
    (∀ t, t ≤ k → t + 1 < P →
        (forLoop k (fun t a =>
          let v := toInt16 (a.e_prime ((t + 1) * cpt + cpt - 1)
            + a.e_prime ((t + 1 - 1) * cpt + cpt - 1))
          { a with e_prime := setAt a.e_prime ((t + 1) * cpt + cpt - 1) v }) a1).e_prime
          (t * cpt + cpt - 1) = toInt16 (X (t + 1)))
    ∧ (∀ j, (∀ t, 1 ≤ t → t ≤ k → j ≠ t * cpt + cpt - 1) →
        (forLoop k (fun t a =>
          let v := toInt16 (a.e_prime ((t + 1) * cpt + cpt - 1)
            + a.e_prime ((t + 1 - 1) * cpt + cpt - 1))
          { a with e_prime := setAt a.e_prime ((t + 1) * cpt + cpt - 1) v }) a1).e_prime j
          = a1.e_prime j)
    ∧ (forLoop k (fun t a =>
          let v := toInt16 (a.e_prime ((t + 1) * cpt + cpt - 1)
            + a.e_prime ((t + 1 - 1) * cpt + cpt - 1))
          { a with e_prime := setAt a.e_prime ((t + 1) * cpt + cpt - 1) v }) a1).m_prime
        = a1.m_prime
    ∧ (forLoop k (fun t a =>
          let v := toInt16 (a.e_prime ((t + 1) * cpt + cpt - 1)
            + a.e_prime ((t + 1 - 1) * cpt + cpt - 1))
          { a with e_prime := setAt a.e_prime ((t + 1) * cpt + cpt - 1) v }) a1).M_prime
        = a1.M_prime
    ∧ (forLoop k (fun t a =>
          let v := toInt16 (a.e_prime ((t + 1) * cpt + cpt - 1)
            + a.e_prime ((t + 1 - 1) * cpt + cpt - 1))
          { a with e_prime := setAt a.e_prime ((t + 1) * cpt + cpt - 1) v }) a1).n_prime
        = a1.n_prime := by
  induction k with
  | zero =>
    refine ⟨?_, fun j _ => rfl, rfl, rfl, rfl⟩
    intro t ht htP
    have : t = 0 := by omega
    subst this
    rw [forLoop_zero, hrel 0 htP, hX0]
    simp
  | succ k ih =>
    obtain ⟨ih1, ih2, ih3, ih4, ih5⟩ := ih (by omega)
    rw [forLoop_succ]
    generalize forLoop k (fun t a =>
          let v := toInt16 (a.e_prime ((t + 1) * cpt + cpt - 1)
            + a.e_prime ((t + 1 - 1) * cpt + cpt - 1))
          { a with e_prime := setAt a.e_prime ((t + 1) * cpt + cpt - 1) v }) a1 = a at *
    simp only [Nat.add_sub_cancel]
    have hidx : ∀ t, t ≤ k → t * cpt + cpt - 1 ≠ (k + 1) * cpt + cpt - 1 := by
      intro t ht
      have := succ_mul_le t (k + 1) cpt (by omega)
      omega
    have hnew : a.e_prime ((k + 1) * cpt + cpt - 1) = toInt16 (X (k + 1 + 1) - X (k + 1)) := by
      rw [ih2 _ (fun t h1 h2 => (hidx t h2).symm)]
      exact hrel (k + 1) (by omega)
    have hold := ih1 k (le_refl _) (by omega)
    refine ⟨?_, ?_, ih3, ih4, ih5⟩
    · intro t ht htP
      show setAt a.e_prime _ _ _ = _
      by_cases h : t = k + 1
      · subst h
        rw [setAt_same, hnew, hold, toInt16_add]
        congr 1
        ring
      · rw [setAt_other _ _ (hidx t (by omega))]
        exact ih1 t (by omega) htP
    · intro j hj
      show setAt a.e_prime _ _ _ = _
      rw [setAt_other _ _ (hj (k + 1) (by omega) (le_refl _))]
      exact ih2 j (fun t h1 h2 => hj t h1 (by omega))

/-- The effect of the fix-up of one chunk (lines 196-202): the cell `D` it adds
is the last cell of the worker before. -/
theorem fix_chunk_spec (st : rmMt) (P cpt t c : Nat) (ht : 1 ≤ t) (hc1 : 1 ≤ cpt) (a : Arrays) :
    (fix_chunk st P cpt t c a).e_prime (t * cpt + c)
        = (if t = P - 1 ∨ c < cpt - 1 then
            toInt16 (a.e_prime (t * cpt + c) + a.e_prime (t * cpt - 1))
          else a.e_prime (t * cpt + c))
    ∧ (fix_chunk st P cpt t c a).m_prime (st.internal_nodes + (t * cpt + c))
        = toInt16 (a.m_prime (st.internal_nodes + (t * cpt + c)) + a.e_prime (t * cpt - 1))
    ∧ (fix_chunk st P cpt t c a).M_prime (st.internal_nodes + (t * cpt + c))
        = toInt16 (a.M_prime (st.internal_nodes + (t * cpt + c)) + a.e_prime (t * cpt - 1))
    ∧ (∀ j, j ≠ t * cpt + c → (fix_chunk st P cpt t c a).e_prime j = a.e_prime j)
    ∧ (∀ j, j ≠ st.internal_nodes + (t * cpt + c) →
        (fix_chunk st P cpt t c a).m_prime j = a.m_prime j
        ∧ (fix_chunk st P cpt t c a).M_prime j = a.M_prime j)
    ∧ (fix_chunk st P cpt t c a).n_prime = a.n_prime := by
  have hD : (t - 1) * cpt + cpt - 1 = t * cpt - 1 := by
    obtain ⟨k, rfl⟩ : ∃ k, t = k + 1 := ⟨t - 1, by omega⟩
    rw [Nat.add_sub_cancel]
    have : (k + 1) * cpt = k * cpt + cpt := by ring
    omega
  have hpos : cpt ≤ t * cpt := Nat.le_mul_of_pos_left _ (by omega)
  have hI : st.internal_nodes + t * cpt + c = st.internal_nodes + (t * cpt + c) := by omega
  have hne : t * cpt - 1 ≠ t * cpt + c := by omega
  unfold fix_chunk
  rw [hD, hI]
  by_cases hcond : t = P - 1 ∨ c < cpt - 1
  · simp only [if_pos hcond]
    refine ⟨?_, ?_, ?_, ?_, ?_, trivial⟩
    · show setAt _ _ _ _ = _
      rw [setAt_same]
    · show setAt _ _ _ _ = _
      rw [setAt_same]
      show toInt16 (_ + setAt _ _ _ _) = _
      rw [setAt_other _ _ hne]
    · show setAt _ _ _ _ = _
      rw [setAt_same]
      show toInt16 (_ + setAt _ _ _ _) = _
      rw [setAt_other _ _ hne]
    · intro j hj
      show setAt _ _ _ _ = _
      rw [setAt_other _ _ hj]
    · intro j hj
      exact ⟨setAt_other _ _ hj, setAt_other _ _ hj⟩
  · simp only [if_neg hcond]
    refine ⟨trivial, ?_, ?_, fun j _ => trivial, ?_, trivial⟩
    · show setAt _ _ _ _ = _
      rw [setAt_same]
    · show setAt _ _ _ _ = _
      rw [setAt_same]
    · intro j hj
      exact ⟨setAt_other _ _ hj, setAt_other _ _ hj⟩

/-- The fix-up of the first `L` chunks of worker `t ≥ 1`. -/
theorem fix_thread_spec (st : rmMt) (P cpt t : Nat) (ht : 1 ≤ t) (hc1 : 1 ≤ cpt) (a : Arrays)
    (L : Nat) :
    (∀ c, c < L →
      (forLoop L (fun chunk a => fix_chunk st P cpt t chunk a) a).e_prime (t * cpt + c)
        = (if t = P - 1 ∨ c < cpt - 1 then
            toInt16 (a.e_prime (t * cpt + c) + a.e_prime (t * cpt - 1))
          else a.e_prime (t * cpt + c))
      ∧ (forLoop L (fun chunk a => fix_chunk st P cpt t chunk a) a).m_prime
          (st.internal_nodes + (t * cpt + c))
        = toInt16 (a.m_prime (st.internal_nodes + (t * cpt + c)) + a.e_prime (t * cpt - 1))
      ∧ (forLoop L (fun chunk a => fix_chunk st P cpt t chunk a) a).M_prime
          (st.internal_nodes + (t * cpt + c))
        = toInt16 (a.M_prime (st.internal_nodes + (t * cpt + c)) + a.e_prime (t * cpt - 1)))
    ∧ (∀ j, (j < t * cpt ∨ t * cpt + L ≤ j) →
        (forLoop L (fun chunk a => fix_chunk st P cpt t chunk a) a).e_prime j = a.e_prime j)
    ∧ (∀ j, (j < st.internal_nodes + t * cpt ∨ st.internal_nodes + t * cpt + L ≤ j) →
        (forLoop L (fun chunk a => fix_chunk st P cpt t chunk a) a).m_prime j = a.m_prime j
        ∧ (forLoop L (fun chunk a => fix_chunk st P cpt t chunk a) a).M_prime j = a.M_prime j)
    ∧ (forLoop L (fun chunk a => fix_chunk st P cpt t chunk a) a).n_prime = a.n_prime := by
  have hpos : cpt ≤ t * cpt := Nat.le_mul_of_pos_left _ (by omega)
  induction L with
  | zero =>
    exact ⟨fun c h => by omega, fun j _ => rfl, fun j _ => ⟨rfl, rfl⟩, rfl⟩
  | succ L ih =>
    obtain ⟨ih1, ih2, ih3, ih4⟩ := ih
    rw [forLoop_succ]
    generalize forLoop L (fun chunk a => fix_chunk st P cpt t chunk a) a = r at *
    obtain ⟨f1, f2, f3, f4, f5, f6⟩ := fix_chunk_spec st P cpt t L ht hc1 r
    have hD := ih2 (t * cpt - 1) (Or.inl (by omega))
    refine ⟨?_, ?_, ?_, by rw [f6, ih4]⟩
    · intro c hc
      by_cases h : c = L
      · subst h
        rw [f1, f2, f3, hD, ih2 _ (Or.inr (le_refl _)), (ih3 _ (Or.inr (by omega))).1,
          (ih3 _ (Or.inr (by omega))).2]
        exact ⟨rfl, rfl, rfl⟩
      · rw [f4 _ (by omega), (f5 _ (by omega)).1, (f5 _ (by omega)).2]
        exact ih1 c (by omega)
    · intro j hj
      rw [f4 j (by omega)]
      exact ih2 j (by omega)
    · intro j hj
      rw [(f5 j (by omega)).1, (f5 j (by omega)).2]
      exact ih3 j (by omega)

/-- The fix-up of step 2.2 after the workers `1..K`, each with `ul t ≤ cpt`
chunks: every chunk of these workers has received the last cell of the worker
before, which the fix-up never changes. -/
theorem fix_all_spec (st : rmMt) (P cpt : Nat) (hc1 : 1 ≤ cpt) (ul : Nat → Nat)
    (hul : ∀ t, ul t ≤ cpt) (as : Arrays) (K : Nat) (hK : K ≤ P - 1) :
    (∀ t c, 1 ≤ t → t ≤ K → c < ul t →
      (forLoop K (fun t a =>
          forLoop (ul (t + 1)) (fun chunk a => fix_chunk st P cpt (t + 1) chunk a) a) as).e_prime
          (t * cpt + c)
        = (if t = P - 1 ∨ c < cpt - 1 then
            toInt16 (as.e_prime (t * cpt + c) + as.e_prime (t * cpt - 1))
          else as.e_prime (t * cpt + c))
      ∧ (forLoop K (fun t a =>
          forLoop (ul (t + 1)) (fun chunk a => fix_chunk st P cpt (t + 1) chunk a) a) as).m_prime
          (st.internal_nodes + (t * cpt + c))
        = toInt16 (as.m_prime (st.internal_nodes + (t * cpt + c)) + as.e_prime (t * cpt - 1))
      ∧ (forLoop K (fun t a =>
          forLoop (ul (t + 1)) (fun chunk a => fix_chunk st P cpt (t + 1) chunk a) a) as).M_prime
          (st.internal_nodes + (t * cpt + c))
        = toInt16 (as.M_prime (st.internal_nodes + (t * cpt + c)) + as.e_prime (t * cpt - 1)))
    ∧ (∀ j, (j < cpt ∨ (K + 1) * cpt ≤ j) →
        (forLoop K (fun t a =>
          forLoop (ul (t + 1)) (fun chunk a => fix_chunk st P cpt (t + 1) chunk a) a) as).e_prime j
          = as.e_prime j)
    ∧ (∀ j, (j < st.internal_nodes + cpt ∨ st.internal_nodes + (K + 1) * cpt ≤ j) →
        (forLoop K (fun t a =>
          forLoop (ul (t + 1)) (fun chunk a => fix_chunk st P cpt (t + 1) chunk a) a) as).m_prime j
          = as.m_prime j
        ∧ (forLoop K (fun t a =>
          forLoop (ul (t + 1)) (fun chunk a => fix_chunk st P cpt (t + 1) chunk a) a) as).M_prime j
          = as.M_prime j)
    ∧ (forLoop K (fun t a =>
          forLoop (ul (t + 1)) (fun chunk a => fix_chunk st P cpt (t + 1) chunk a) a) as).n_prime
        = as.n_prime
    ∧ (∀ t, 1 ≤ t → t ≤ P - 1 →
        (forLoop K (fun t a =>
          forLoop (ul (t + 1)) (fun chunk a => fix_chunk st P cpt (t + 1) chunk a) a) as).e_prime
          (t * cpt - 1) = as.e_prime (t * cpt - 1)) := by
  induction K with
  | zero =>
    exact ⟨fun t c h1 h2 => by omega, fun j _ => rfl, fun j _ => ⟨rfl, rfl⟩, rfl, fun t _ _ => rfl⟩
  | succ K ih =>
    obtain ⟨ihA, ihB, ihC, ihD, ihE⟩ := ih (by omega)
    rw [forLoop_succ]
    generalize forLoop K (fun t a =>
      forLoop (ul (t + 1)) (fun chunk a => fix_chunk st P cpt (t + 1) chunk a) a) as = r at *
    obtain ⟨f1, f2, f3, f4⟩ := fix_thread_spec st P cpt (K + 1) (by omega) hc1 r (ul (K + 1))
    have hL := hul (K + 1)
    have hK1 : (K + 1) * cpt = K * cpt + cpt := by ring
    have hK2 : (K + 1 + 1) * cpt = (K + 1) * cpt + cpt := by ring
    have hpos : cpt ≤ (K + 1) * cpt := Nat.le_mul_of_pos_left _ (by omega)
    refine ⟨?_, ?_, ?_, by rw [f4, ihD], ?_⟩
    · intro t c h1 h2 hc
      by_cases h : t = K + 1
      · subst h
        obtain ⟨g1, g2, g3⟩ := f1 c hc
        rw [g1, g2, g3, ihB _ (Or.inr (by omega)), ihE (K + 1) (by omega) (by omega),
          (ihC _ (Or.inr (by omega))).1, (ihC _ (Or.inr (by omega))).2]
        exact ⟨rfl, rfl, rfl⟩
      · have hlt := succ_mul_le t (K + 1) cpt (by omega)
        have hct := hul t
        rw [f2 _ (Or.inl (by omega)), (f3 _ (Or.inl (by omega))).1,
          (f3 _ (Or.inl (by omega))).2]
        exact ihA t c h1 (by omega) hc
    · intro j hj
      rw [f2 j (by omega)]
      exact ihB j (by omega)
    · intro j hj
      rw [(f3 j (by omega)).1, (f3 j (by omega)).2]
      exact ihC j (by omega)
    · intro t h1 h2
      have hpt : cpt ≤ t * cpt := Nat.le_mul_of_pos_left _ (by omega)
      rcases Nat.lt_trichotomy t (K + 2) with h | h | h
      · have hle : t * cpt ≤ (K + 1) * cpt := Nat.mul_le_mul_right _ (by omega)
        rw [f2 _ (Or.inl (by omega))]
        exact ihE t h1 h2
      · subst h
        by_cases hc : cpt - 1 < ul (K + 1)
        · have e1 : (K + 2) * cpt - 1 = (K + 1) * cpt + (cpt - 1) := by
            have : (K + 2) * cpt = (K + 1) * cpt + cpt := by ring
            omega
          have hx := ihE (K + 2) h1 h2
          rw [e1] at hx ⊢
          rw [(f1 (cpt - 1) hc).1, if_neg (by omega)]
          exact hx
        · have e1 : (K + 2) * cpt = (K + 1) * cpt + cpt := by ring
          rw [f2 _ (Or.inr (by omega))]
          exact ihE (K + 2) h1 h2
      · have hle := succ_mul_le (K + 2) t cpt h
        have e1 : (K + 2) * cpt = (K + 1) * cpt + cpt := by ring
        rw [f2 _ (Or.inr (by omega))]
        exact ihE t h1 h2

theorem build_arrays_stage (st : rmMt) (P : Nat) :
    build_arrays st P
      = step_2_3_seq st (ceil_log st.k P)
          (step_2_3_par st (ceil_log st.k P) (st.k ^ ceil_log st.k P)
            (st.internal_nodes + st.num_chunks) (stage_2_2 st P)) := rfl

/-- After step 2.1 the last cell of a worker that is not the last one holds the
wrapped excess of the worker's whole range. -/
theorem rel_end (st : rmMt) (B : BIT_ARRAY) (hst : Statics st B) (hlen : 256 < B.num_of_bits)
    (P cpt : Nat) (hc1 : 1 ≤ cpt) (hv : (P - 1) * cpt < st.num_chunks)
    (hle : st.num_chunks ≤ (P - 1) * cpt + cpt) (a1 : Arrays)
    (h1 : ∀ t c, t < P → c < chunk_limit_of st P cpt t → ChunkRel st B cpt t c a1)
    (t : Nat) (ht : t + 1 < P) :
    a1.e_prime (t * cpt + cpt - 1)
      = toInt16 (excessBefore B (256 * ((t + 1) * cpt)) - excessBefore B (256 * (t * cpt))) := by
  have hnc := hst.hnc
  have hL : chunk_limit_of st P cpt t = cpt := by
    rw [chunk_limit_valid st P cpt t hc1 hv hle, if_neg (by omega)]
  have h := (h1 t (cpt - 1) (by omega) (by omega)).e
  have hQ := succ_mul_le t (P - 1) cpt (by omega)
  have e1 : t * cpt + (cpt - 1) = t * cpt + cpt - 1 := by omega
  have e2 : (t + 1) * cpt = t * cpt + cpt := by ring
  have hn' : (shiftB B (256 * (t * cpt))).num_of_bits = B.num_of_bits - 256 * (t * cpt) := rfl
  rw [e1, hn', shift_before] at h
  rw [h, e2]
  congr 3
  omega

/-- The fix-up of step 2.2 runs over the chunks each worker scanned in step 2.1. -/
theorem fix_loop_eq (st : rmMt) (P cpt : Nat) (hc1 : 1 ≤ cpt)
    (hv : (P - 1) * cpt < st.num_chunks) (hle : st.num_chunks ≤ (P - 1) * cpt + cpt)
    (h32 : P = 1 ∨ st.num_chunks < 4294967296) (a : Arrays) :
    step_2_2_fix st P cpt a
      = forLoop (P - 1) (fun t a =>
          forLoop (chunk_limit_of st P cpt (t + 1))
            (fun chunk a => fix_chunk st P cpt (t + 1) chunk a) a) a := by
  unfold step_2_2_fix
  apply forLoop_congr
  intro i s hi
  have h32' : st.num_chunks < 4294967296 := by
    rcases h32 with h | h
    · omega
    · exact h
  simp only []
  rw [chunk_limit_valid st P cpt (i + 1) hc1 hv hle]
  by_cases h : i + 1 = P - 1
  · rw [if_pos h, if_pos h]
    have : ((((st.num_chunks : Int) - (((P - 1) * cpt : Nat) : Int)) % 4294967296).toNat)
        = st.num_chunks - (P - 1) * cpt := by omega
    rw [this]
  · rw [if_neg h, if_neg h]

theorem rangeMinMax_int16 (B : BIT_ARRAY) (lo hi : Nat) (m M : Int)
    (h : RangeMinMax B lo hi m M) : toInt16 m = m ∧ toInt16 M = M := by
  obtain ⟨_, ⟨p, _, _, hp⟩, ⟨q, _, _, hq⟩⟩ := h
  rw [hp, hq]
  exact ⟨toInt16_idem _, toInt16_idem _⟩

/-- Steps 2.1 and 2.2 when every worker has a chunk: after step 2.1 the cells of
chunk `c` of worker `t` hold values relative to the worker's first bit
(`ChunkRel`); after step 2.2 `e'` holds the wrapped excess at the end of the chunk
and `m'`, `M'` have received, wrapped, the excess before the worker's first
bit. -/
theorem stage22_spec (st : rmMt) (B : BIT_ARRAY) (hst : Statics st B)
    (hlen : 256 < B.num_of_bits) (P : Nat) (hP : 1 ≤ P)
    (hv : (P - 1) * ((st.num_chunks + P - 1) / P) < st.num_chunks)
    (h32 : P = 1 ∨ st.num_chunks < 4294967296) (t c : Nat) (ht : t < P)
    (hc : c < chunk_limit_of st P ((st.num_chunks + P - 1) / P) t) :
    ChunkRel st B ((st.num_chunks + P - 1) / P) t c
      (step_2_1 st P ((st.num_chunks + P - 1) / P) zeroArrays)
    ∧ (stage_2_2 st P).e_prime (t * ((st.num_chunks + P - 1) / P) + c)
        = toInt16 (excessBefore B
            (min (256 * (t * ((st.num_chunks + P - 1) / P) + c + 1)) B.num_of_bits))
    ∧ (stage_2_2 st P).m_prime (st.internal_nodes + (t * ((st.num_chunks + P - 1) / P) + c))
        = toInt16 ((step_2_1 st P ((st.num_chunks + P - 1) / P) zeroArrays).m_prime
              (st.internal_nodes + (t * ((st.num_chunks + P - 1) / P) + c))
            + excessBefore B (256 * (t * ((st.num_chunks + P - 1) / P))))
    ∧ (stage_2_2 st P).M_prime (st.internal_nodes + (t * ((st.num_chunks + P - 1) / P) + c))
        = toInt16 ((step_2_1 st P ((st.num_chunks + P - 1) / P) zeroArrays).M_prime
              (st.internal_nodes + (t * ((st.num_chunks + P - 1) / P) + c))
            + excessBefore B (256 * (t * ((st.num_chunks + P - 1) / P))))
    ∧ (stage_2_2 st P).n_prime (st.internal_nodes + (t * ((st.num_chunks + P - 1) / P) + c))
        = (step_2_1 st P ((st.num_chunks + P - 1) / P) zeroArrays).n_prime
            (st.internal_nodes + (t * ((st.num_chunks + P - 1) / P) + c)) := by
  have hnc := hst.hnc
  obtain ⟨hc1, hle⟩ := cpt_facts st.num_chunks P hP (by omega)
  unfold stage_2_2
  generalize (st.num_chunks + P - 1) / P = cpt at *
  obtain ⟨s1, _, _⟩ := step21_inv st B hst hlen P cpt hc1 hv hle zeroArrays P (le_refl _)
  have s1' : ∀ t c, t < P → c < chunk_limit_of st P cpt t → ChunkRel st B cpt t c
      (step_2_1 st P cpt zeroArrays) := s1
  generalize step_2_1 st P cpt zeroArrays = a1 at *
  have hrel := rel_end st B hst hlen P cpt hc1 hv hle a1 s1'
  obtain ⟨q1, q2, q3, q4, q5⟩ := seq_inv P cpt hc1 a1 (fun t => excessBefore B (256 * (t * cpt)))
    (by simp [excessBefore]) hrel (P - 1 - 1) (le_refl _)
  have hseq : step_2_2_seq P cpt a1 = forLoop (P - 1 - 1) (fun t a =>
      let v := toInt16 (a.e_prime ((t + 1) * cpt + cpt - 1)
        + a.e_prime ((t + 1 - 1) * cpt + cpt - 1))
      { a with e_prime := setAt a.e_prime ((t + 1) * cpt + cpt - 1) v }) a1 := rfl
  rw [← hseq] at q1 q2 q3 q4 q5
  generalize step_2_2_seq P cpt a1 = a2 at *
  rw [fix_loop_eq st P cpt hc1 hv hle h32]
  obtain ⟨fA, fB, fC, fD, _⟩ := fix_all_spec st P cpt hc1 (chunk_limit_of st P cpt)
    (fun t => chunk_limit_le st P cpt t hc1 hv hle) a2 (P - 1) (le_refl _)
  generalize forLoop (P - 1) (fun t a =>
      forLoop (chunk_limit_of st P cpt (t + 1))
        (fun chunk a => fix_chunk st P cpt (t + 1) chunk a) a) a2 = a at *
  have hrelc := s1' t c ht hc
  have hL := chunk_limit_le st P cpt t hc1 hv hle
  have hLv := chunk_limit_valid st P cpt t hc1 hv hle
  obtain ⟨hg, _⟩ := worker_chunk_lt st P cpt t c hc1 hv hle ht hc
  have hn' : (shiftB B (256 * (t * cpt))).num_of_bits = B.num_of_bits - 256 * (t * cpt) := rfl
  have he1 := hrelc.e
  rw [hn', shift_before] at he1
  have hhi : 256 * (t * cpt) + min (256 * (c + 1)) (B.num_of_bits - 256 * (t * cpt))
      = min (256 * (t * cpt + c + 1)) B.num_of_bits := by omega
  rw [hhi] at he1
  obtain ⟨hm16, hM16⟩ := rangeMinMax_int16 _ _ _ _ _ hrelc.leaf
  have hPm : (P - 1 + 1) * cpt = (P - 1) * cpt + cpt := by ring
  refine ⟨hrelc, ?_, ?_, ?_, ?_⟩
  · -- e'
    by_cases ht0 : t = 0
    · subst ht0
      have hj : 0 * cpt + c < cpt := by omega
      rw [fB _ (Or.inl hj), q2 _ (fun t' a b => by
        have := Nat.le_mul_of_pos_left cpt (by omega : 0 < t')
        omega), he1]
      simp [excessBefore]
    · obtain ⟨g1, _, _⟩ := fA t c (by omega) (by omega) hc
      rw [g1]
      have hδ : a2.e_prime (t * cpt - 1) = toInt16 (excessBefore B (256 * (t * cpt))) := by
        have := q1 (t - 1) (by omega) (by omega)
        have e1 : (t - 1) * cpt + cpt - 1 = t * cpt - 1 := by
          obtain ⟨k, rfl⟩ : ∃ k, t = k + 1 := ⟨t - 1, by omega⟩
          rw [Nat.add_sub_cancel]
          have : (k + 1) * cpt = k * cpt + cpt := by ring
          omega
        rw [e1, show t - 1 + 1 = t by omega] at this
        exact this
      by_cases hcond : t = P - 1 ∨ c < cpt - 1
      · have hframe : a2.e_prime (t * cpt + c) = a1.e_prime (t * cpt + c) := by
          apply q2
          intro t' a b
          rcases Nat.lt_trichotomy t' t with h | h | h
          · have := succ_mul_le t' t cpt h
            omega
          · subst h
            rcases hcond with h | h <;> omega
          · have := succ_mul_le t t' cpt h
            omega
        rw [if_pos hcond, hframe, hδ, he1, toInt16_add]
        congr 1
        ring
      · rw [if_neg hcond]
        have hc2 : c = cpt - 1 := by
          rw [hLv, if_neg (by omega)] at hc
          omega
        have := q1 t (by omega) (by omega)
        have e1 : t * cpt + c = t * cpt + cpt - 1 := by omega
        rw [e1, this]
        have hQ := succ_mul_le t (P - 1) cpt (by omega)
        have e2 : (t + 1) * cpt = t * cpt + cpt := by ring
        congr 2
        rw [e2]
        omega
  · -- m'
    by_cases ht0 : t = 0
    · subst ht0
      have hj : st.internal_nodes + (0 * cpt + c) < st.internal_nodes + cpt := by omega
      rw [(fC _ (Or.inl hj)).1, q3]
      have hz : excessBefore B (256 * (0 * cpt)) = 0 := by simp [excessBefore]
      rw [hz, add_zero]
      exact hm16.symm
    · obtain ⟨_, g2, _⟩ := fA t c (by omega) (by omega) hc
      have hδ : a2.e_prime (t * cpt - 1) = toInt16 (excessBefore B (256 * (t * cpt))) := by
        have := q1 (t - 1) (by omega) (by omega)
        have e1 : (t - 1) * cpt + cpt - 1 = t * cpt - 1 := by
          obtain ⟨k, rfl⟩ : ∃ k, t = k + 1 := ⟨t - 1, by omega⟩
          rw [Nat.add_sub_cancel]
          have : (k + 1) * cpt = k * cpt + cpt := by ring
          omega
        rw [e1, show t - 1 + 1 = t by omega] at this
        exact this
      rw [g2, hδ, q3, toInt16_add_right]
  · -- M'
    by_cases ht0 : t = 0
    · subst ht0
      have hj : st.internal_nodes + (0 * cpt + c) < st.internal_nodes + cpt := by omega
      rw [(fC _ (Or.inl hj)).2, q4]
      have hz : excessBefore B (256 * (0 * cpt)) = 0 := by simp [excessBefore]
      rw [hz, add_zero]
      exact hM16.symm
    · obtain ⟨_, _, g3⟩ := fA t c (by omega) (by omega) hc
      have hδ : a2.e_prime (t * cpt - 1) = toInt16 (excessBefore B (256 * (t * cpt))) := by
        have := q1 (t - 1) (by omega) (by omega)
        have e1 : (t - 1) * cpt + cpt - 1 = t * cpt - 1 := by
          obtain ⟨k, rfl⟩ : ∃ k, t = k + 1 := ⟨t - 1, by omega⟩
          rw [Nat.add_sub_cancel]
          have : (k + 1) * cpt = k * cpt + cpt := by ring
          omega
        rw [e1, show t - 1 + 1 = t by omega] at this
        exact this
      rw [g3, hδ, q4, toInt16_add_right]
  · rw [fD, q5]

/-- Step 2.1 writes no cell but those of the chunks its workers scan. -/
theorem step21_frame (st : rmMt) (B : BIT_ARRAY) (hst : Statics st B)
    (hlen : 256 < B.num_of_bits) (P cpt : Nat) (hc1 : 1 ≤ cpt)
    (hv : (P - 1) * cpt < st.num_chunks) (hle : st.num_chunks ≤ (P - 1) * cpt + cpt)
    (a0 : Arrays) (T : Nat) (hT : T ≤ P) :
    (∀ j, (∀ t c, t < T → c < chunk_limit_of st P cpt t → j ≠ t * cpt + c) →
        (forLoop T (fun thread a => thread_scan st P cpt thread a) a0).e_prime j = a0.e_prime j)
    ∧ (∀ j, (∀ t c, t < T → c < chunk_limit_of st P cpt t →
          j ≠ st.internal_nodes + (t * cpt + c)) →
        (forLoop T (fun thread a => thread_scan st P cpt thread a) a0).m_prime j = a0.m_prime j
        ∧ (forLoop T (fun thread a => thread_scan st P cpt thread a) a0).M_prime j = a0.M_prime j
        ∧ (forLoop T (fun thread a => thread_scan st P cpt thread a) a0).n_prime j
            = a0.n_prime j) := by
  induction T with
  | zero => exact ⟨fun j _ => rfl, fun j _ => ⟨rfl, rfl, rfl⟩⟩
  | succ T ih =>
    obtain ⟨ih1, ih2⟩ := ih (by omega)
    rw [forLoop_succ, thread_scan_eq]
    generalize forLoop T (fun thread a => thread_scan st P cpt thread a) a0 = a at *
    have hw := worker_inv st B hst hlen P cpt T hc1 hv hle (by omega) a
      (chunk_limit_of st P cpt T) (le_refl _)
    generalize forLoop (chunk_limit_of st P cpt T)
      (fun chunk x => process_chunk st P cpt (chunk_limit_of st P cpt T) T chunk x)
      ({ min := 0, max := 0, partial_excess := 0, num_mins := 1 }, a) = x at hw
    refine ⟨?_, ?_⟩
    · intro j hj
      have hout : j < T * cpt ∨ T * cpt + chunk_limit_of st P cpt T ≤ j := by
        by_contra hc
        exact hj T (j - T * cpt) (by omega) (by omega) (by omega)
      rw [hw.e_rest j hout]
      exact ih1 j (fun t c h1 h2 => hj t c (by omega) h2)
    · intro j hj
      have hout : j < st.internal_nodes + T * cpt
          ∨ st.internal_nodes + T * cpt + chunk_limit_of st P cpt T ≤ j := by
        by_contra hc
        exact hj T (j - st.internal_nodes - T * cpt) (by omega) (by omega) (by omega)
      have h := hw.rest j hout
      have h' := ih2 j (fun t c h1 h2 => hj t c (by omega) h2)
      exact ⟨h.1.trans h'.1, h.2.1.trans h'.2.1, h.2.2.trans h'.2.2⟩

/-- Every chunk belongs to exactly one worker. -/
theorem chunk_worker (st : rmMt) (P cpt : Nat) (hP : 1 ≤ P) (hc1 : 1 ≤ cpt)
    (hv : (P - 1) * cpt < st.num_chunks) (hle : st.num_chunks ≤ (P - 1) * cpt + cpt)
    (g : Nat) (hg : g < st.num_chunks) :
    g / cpt < P ∧ g % cpt < chunk_limit_of st P cpt (g / cpt) ∧ g / cpt * cpt + g % cpt = g
    ∧ ∀ t c, c < chunk_limit_of st P cpt t → t * cpt + c = g → t = g / cpt ∧ c = g % cpt := by
  have hmod := Nat.mod_lt g (by omega : 0 < cpt)
  have hdm : g / cpt * cpt + g % cpt = g := Nat.div_add_mod' g cpt
  have hPc : P * cpt = (P - 1) * cpt + cpt := by
    obtain ⟨k, rfl⟩ : ∃ k, P = k + 1 := ⟨P - 1, by omega⟩
    rw [Nat.add_sub_cancel]; ring
  have hlt : g / cpt < P := (Nat.div_lt_iff_lt_mul (by omega)).2 (by omega)
  refine ⟨hlt, ?_, hdm, ?_⟩
  · rw [chunk_limit_valid st P cpt _ hc1 hv hle]
    by_cases h : g / cpt = P - 1
    · rw [if_pos h]
      rw [h] at hdm
      omega
    · rw [if_neg h]; exact hmod
  · intro t c hc hgt
    have hL := chunk_limit_le st P cpt t hc1 hv hle
    have ht : g / cpt = t := by
      rw [div_eq_iff_bounds g t cpt (by omega)]
      have : (t + 1) * cpt = t * cpt + cpt := by ring
      omega
    subst ht
    exact ⟨rfl, by omega⟩

theorem countExcess_succ (B : BIT_ARRAY) (lo len : Nat) (v : Int) :
    countExcess B lo (lo + (len + 1)) v
      = countExcess B lo (lo + len) v + (if excess B (lo + len) = v then 1 else 0) := by
  unfold countExcess
  rw [show lo + (len + 1) - lo = len + 1 by omega, show lo + len - lo = len by omega,
    List.range_succ, List.filter_append, List.length_append]
  congr 1
  by_cases h : excess B (lo + len) = v
  · simp [h]
  · simp [h]

/-- Where the excess fits 16 bits, counting wrapped values is counting values. -/
theorem countW_eq_countExcess (B : BIT_ARRAY) (lo : Nat) (v : Int) (len : Nat)
    (h : ∀ t, t < len → wexcess B (lo + t) = excess B (lo + t)) :
    countW B lo len v = countExcess B lo (lo + len) v := by
  induction len with
  | zero => simp [countW, countExcess]
  | succ len ih =>
    rw [countW, countExcess_succ, ih (fun t ht => h t (by omega)), h len (by omega)]

theorem shift_wexcess (B : BIT_ARRAY) (S p : Nat) :
    wexcess (shiftB B S) p = toInt16 (excess B (S + p) - excessBefore B S) := by
  unfold wexcess excess
  rw [shift_before]
  rfl

/-- A balanced string whose excess fits 16 bits has fitting relative excess for
every worker count. -/
theorem relFits_of_balanced (B : BIT_ARRAY) (P : Nat) (hbal : Balanced B)
    (hfit : FitsInt16 B) : RelFits B P := by
  intro t p _ h1 _ h3
  generalize 256 * (t * (((baseSt B).num_chunks + P - 1) / P)) = S at *
  have a1 := hbal.1 p h3
  have a2 := (hfit p h3).2
  have a3 := balanced_prefix_nonneg B hbal S (by omega)
  have a4 : excessBefore B S ≤ 32767 := by
    rcases Nat.eq_zero_or_pos S with h | h
    · subst h; simp [excessBefore]
    · have := (hfit (S - 1) (by omega)).2
      unfold excess at this
      rwa [show S - 1 + 1 = S by omega] at this
  omega

theorem big_bit (k : Nat) :
    bit_array_get_bit bigB (k : Int) = if 32768 ≤ k ∧ k < 65536 then 1 else 0 := by
  rw [bit_natCast]
  simp only [bigB, decide_eq_true_eq]
  by_cases h : 32768 ≤ k ∧ k < 65536
  · rw [if_pos ⟨h.2, h.1⟩, if_pos h]
  · rw [if_neg (fun c => h ⟨c.2, c.1⟩), if_neg h]

theorem big_before (k : Nat) (hk : k ≤ 65536) :
    excessBefore bigB k = if k ≤ 32768 then -(k : Int) else k - 65536 := by
  induction k with
  | zero => simp [excessBefore]
  | succ k ih =>
    rw [excessBefore_succ, ih (by omega), big_bit]
    split_ifs <;> push_cast <;> omega

theorem big_excess (k : Nat) (hk : k < 65536) :
    excess bigB k = if k < 32768 then -(k : Int) - 1 else k - 65535 := by
  unfold excess
  rw [big_before _ (by omega)]
  split_ifs <;> push_cast <;> omega

theorem big_fits : FitsInt16 bigB := by
  intro i hi
  have : i < 65536 := hi
  rw [big_excess i this]
  split_ifs <;> omega

theorem big_statics : (baseSt bigB).num_chunks = 256 ∧ (baseSt bigB).internal_nodes = 255
    ∧ ((baseSt bigB).num_chunks + 2 - 1) / 2 = 128
    ∧ chunk_limit_of (baseSt bigB) 2 128 1 = 128 := by decide

/-- Two workers are a valid worker count for `bigB`. -/
theorem big_valid : (2 - 1) * (((baseSt bigB).num_chunks + 2 - 1) / 2) < (baseSt bigB).num_chunks := by
  obtain ⟨hnc, hI, hcpt, hlim⟩ := big_statics
  rw [hcpt, hnc]; decide

theorem big_chunk : 127 < chunk_limit_of (baseSt bigB) 2 (((baseSt bigB).num_chunks + 2 - 1) / 2) 1 := by
  obtain ⟨hnc, hI, hcpt, hlim⟩ := big_statics
  rw [hcpt, hlim]; decide

/-- The last leaf of `bigB` after step 2.2 with two workers, from the values of
step 2.1. -/
theorem big_leaf : ∃ m M, RangeMinMax (shiftB bigB 32768) (256 * 127) 32768 m M
    ∧ (stage_2_2 (baseSt bigB) 2).m_prime ((baseSt bigB).internal_nodes + 255)
        = toInt16 (m + excessBefore bigB 32768)
    ∧ (stage_2_2 (baseSt bigB) 2).M_prime ((baseSt bigB).internal_nodes + 255)
        = toInt16 (M + excessBefore bigB 32768) := by
  obtain ⟨hnc, hI, hcpt, hlim⟩ := big_statics
  obtain ⟨hrel, _, hm, hM, _⟩ :=
    stage22_spec (baseSt bigB) bigB (statics_base bigB) (by decide) 2 (by decide) big_valid
      (Or.inr (by rw [hnc]; decide)) 1 127 (by decide) big_chunk
  obtain ⟨_, hleaf, _⟩ := hrel
  rw [hcpt] at hm hM hleaf
  exact ⟨_, _, hleaf, hm, hM⟩

/-- The wrapped excess of the second half of `bigB`, counted from its first bit. -/
theorem big_rel (p : Nat) (hp : p < 32768) :
    wexcess (shiftB bigB 32768) p = toInt16 ((p : Int) + 1) := by
  rw [shift_wexcess, big_excess _ (by omega), big_before _ (by omega)]
  rw [if_neg (by omega), if_pos (by omega)]
  congr 1
  push_cast
  ring

/-- The least and the greatest wrapped relative excess over the last chunk. -/
theorem big_rel_range (m M : Int) (h : RangeMinMax (shiftB bigB 32768) (256 * 127) 32768 m M) :
    m = -32768 ∧ M = 32767 := by
  obtain ⟨hb, ⟨p, _, _, hp3⟩, ⟨q, _, _, hq3⟩⟩ := h
  have r1 := toInt16_range (excess (shiftB bigB 32768) p)
  have r2 := toInt16_range (excess (shiftB bigB 32768) q)
  have b1 := (hb 32767 (by decide) (by decide)).1
  have b2 := (hb 32766 (by decide) (by decide)).2
  rw [big_rel _ (by decide)] at b1 b2
  have t1 : toInt16 (((32767 : Nat) : Int) + 1) = -32768 := by decide
  have t2 : toInt16 (((32766 : Nat) : Int) + 1) = 32767 := by decide
  rw [t1] at b1
  rw [t2] at b2
  have h1 : -32768 ≤ m := by rw [hp3]; exact r1.1
  have h2 : M ≤ 32767 := by rw [hq3]; exact r2.2
  omega

/-- The part of the children relation that step 2.3 keeps: in the model of
`st_create` with any number `P` of workers on a
bitstring of more than 256 bits, every internal node `v` whose children `2v+1`
and `2v+2` both exist, and which is built by the parallel part of step 2.3
(`v + 1 ≥ 2^p_level`, `p_level = ⌈log₂ P⌉`: every node when `P = 1`) or has no
child with `m' = M'`, has `m'[v] = min(m'[2v+1], m'[2v+2])` and
`M'[v] = max(M'[2v+1], M'[2v+2])`. -/
theorem node_min_max_of_children (P : Nat) (B : BIT_ARRAY) (hlen : 256 < B.num_of_bits)
    (v : Nat) :
    ∃ st, st_create P B = Except.ok st ∧
      (v < st.internal_nodes → 2 * v + 2 < st.internal_nodes + st.num_chunks →
        (2 ^ ceil_log 2 P ≤ v + 1
          ∨ (st.m_prime (2 * v + 1) ≠ st.M_prime (2 * v + 1)
            ∧ st.m_prime (2 * v + 2) ≠ st.M_prime (2 * v + 2))) →
        st.m_prime v = min (st.m_prime (2 * v + 1)) (st.m_prime (2 * v + 2))
        ∧ st.M_prime v = max (st.M_prime (2 * v + 1)) (st.M_prime (2 * v + 2))) :=
  ⟨builtWith P B, st_create_with P B hlen, fun hv hc hor => built_good P B v hv hc hor⟩

/-- The skip rule of the sequential part of step 2.3: on the string of 1030
closing parentheses indexed
with three workers, node 2 has both children 5 and 6 in the arrays, yet
`M'[2] = -1025` while `max(M'[5], M'[6]) = 0`: child 6 has `m' = M'` and is
skipped by the sequential part of step 2.3. -/
theorem top_level_skips_child :
    ∃ st, st_create 3 zeros1030 = Except.ok st
      ∧ 2 < st.internal_nodes ∧ 2 * 2 + 2 < st.internal_nodes + st.num_chunks
      ∧ st.M_prime 2 = -1025 ∧ st.M_prime 5 = -1025 ∧ st.M_prime 6 = 0 ∧ st.m_prime 6 = 0
      ∧ st.M_prime 2 ≠ max (st.M_prime (2 * 2 + 1)) (st.M_prime (2 * 2 + 2)) :=
  ⟨_, rfl, by decide!⟩

/-- Scenario S2 when `is_leaf` is given the height of the tree: on the string of
260 opening then 260 closing parentheses indexed by a one-worker `st_create`
the nine query results are those of the scenario. -/
theorem scenario_S2_with_height :
    ∃ st, st_create 1 S2 = Except.ok st
      ∧ sum st 259 = 260 ∧ sum st 519 = 0
      ∧ find_close st.height st 0 = 519 ∧ find_close st.height st 1 = 518
      ∧ find_open st 519 = 0
      ∧ rank_1 st 519 = 260 ∧ rank_0 st 519 = 260
      ∧ select_1 st 1 = 0 ∧ select_0 st 1 = 260 :=
  ⟨_, rfl, by decide!⟩

/-- Scenario S5 when `is_leaf` is given the height of the tree: on the string of
2048 opening then 2048 closing parentheses indexed by a one-worker `st_create`,
`find_close(i) = 4095 − i` for every `i < 2048`. -/
theorem scenario_S5_with_height :
    ∃ st, st_create 1 S5 = Except.ok st
      ∧ ∀ i : Nat, i < 2048 → find_close st.height st (i : Int) = 4095 - (i : Int) :=
  ⟨builtSt S5, st_create_one S5 S5_len, fun i hi => S5_find_close i hi⟩

/-- Step 2.1 when every worker has a chunk: for more than 256 bits, `P ≥ 1`
workers, `cpt = ⌈num_chunks / P⌉` and `(P − 1)·cpt < num_chunks`, the chunk ids
`t·cpt + c`, `c < chunk_limit`, of worker `t` are exactly those in
`[t·cpt, min((t+1)·cpt, num_chunks))`, at least one; chunk `g` has the limits
`[256·g, min(256·(g+1), n))`; every chunk `g < num_chunks` belongs to exactly one
worker; and step 2.1 writes no cell `e'[j]` with `j ≥ num_chunks` and no cell of
`m'`, `M'`, `n'` outside the leaves of these chunks. -/
theorem step_2_1_ranges (B : BIT_ARRAY) (hlen : 256 < B.num_of_bits) (P : Nat) (hP : 1 ≤ P)
    (hv : (P - 1) * (((baseSt B).num_chunks + P - 1) / P) < (baseSt B).num_chunks) :
    (∀ t, t < P →
      0 < chunk_limit_of (baseSt B) P (((baseSt B).num_chunks + P - 1) / P) t
      ∧ chunk_limit_of (baseSt B) P (((baseSt B).num_chunks + P - 1) / P) t
        = min ((t + 1) * (((baseSt B).num_chunks + P - 1) / P)) (baseSt B).num_chunks
          - t * (((baseSt B).num_chunks + P - 1) / P)
      ∧ ∀ c, c < chunk_limit_of (baseSt B) P (((baseSt B).num_chunks + P - 1) / P) t →
        t * (((baseSt B).num_chunks + P - 1) / P) + c < (baseSt B).num_chunks
        ∧ chunk_limits (baseSt B) P (((baseSt B).num_chunks + P - 1) / P)
            (chunk_limit_of (baseSt B) P (((baseSt B).num_chunks + P - 1) / P) t) t c
          = (256 * (t * (((baseSt B).num_chunks + P - 1) / P) + c),
              min (256 * (t * (((baseSt B).num_chunks + P - 1) / P) + c + 1)) B.num_of_bits))
    ∧ (∀ g, g < (baseSt B).num_chunks → ∃ t c, t < P
        ∧ c < chunk_limit_of (baseSt B) P (((baseSt B).num_chunks + P - 1) / P) t
        ∧ t * (((baseSt B).num_chunks + P - 1) / P) + c = g
        ∧ ∀ t' c', c' < chunk_limit_of (baseSt B) P (((baseSt B).num_chunks + P - 1) / P) t' →
            t' * (((baseSt B).num_chunks + P - 1) / P) + c' = g → t' = t ∧ c' = c)
    ∧ (∀ (a0 : Arrays) j,
        ((baseSt B).num_chunks ≤ j →
          (step_2_1 (baseSt B) P (((baseSt B).num_chunks + P - 1) / P) a0).e_prime j
            = a0.e_prime j)
        ∧ ((j < (baseSt B).internal_nodes
              ∨ (baseSt B).internal_nodes + (baseSt B).num_chunks ≤ j) →
          (step_2_1 (baseSt B) P (((baseSt B).num_chunks + P - 1) / P) a0).m_prime j
            = a0.m_prime j
          ∧ (step_2_1 (baseSt B) P (((baseSt B).num_chunks + P - 1) / P) a0).M_prime j
            = a0.M_prime j
          ∧ (step_2_1 (baseSt B) P (((baseSt B).num_chunks + P - 1) / P) a0).n_prime j
            = a0.n_prime j)) := by
  have hst := statics_base B
  have hnc := hst.hnc
  obtain ⟨hc1, hle⟩ := cpt_facts (baseSt B).num_chunks P hP (by omega)
  generalize ((baseSt B).num_chunks + P - 1) / P = cpt at *
  refine ⟨?_, ?_, ?_⟩
  · intro t ht
    have hcl := chunk_limit_valid (baseSt B) P cpt t hc1 hv hle
    have ht1 : (t + 1) * cpt = t * cpt + cpt := by ring
    refine ⟨?_, ?_, ?_⟩
    · rw [hcl]; split_ifs <;> omega
    · rw [hcl]
      by_cases h : t = P - 1
      · rw [if_pos h]; subst h; omega
      · rw [if_neg h]
        have := succ_mul_le t (P - 1) cpt (by omega)
        omega
    · intro c hc
      exact ⟨(worker_chunk_lt (baseSt B) P cpt t c hc1 hv hle ht hc).1,
        chunk_limits_valid (baseSt B) B hst hlen P cpt t c hc1 hv hle ht hc⟩
  · intro g hg
    obtain ⟨h1, h2, h3, h4⟩ := chunk_worker (baseSt B) P cpt hP hc1 hv hle g hg
    exact ⟨g / cpt, g % cpt, h1, h2, h3, h4⟩
  · intro a0 j
    obtain ⟨f1, f2⟩ := step21_frame (baseSt B) B hst hlen P cpt hc1 hv hle a0 P (le_refl _)
    refine ⟨?_, ?_⟩
    · intro hj
      apply f1
      intro t c ht hc hjj
      have := (worker_chunk_lt (baseSt B) P cpt t c hc1 hv hle ht hc).1
      omega
    · intro hj
      apply f2
      intro t c ht hc hjj
      have := (worker_chunk_lt (baseSt B) P cpt t c hc1 hv hle ht hc).1
      omega

theorem node_pass_e (st : rmMt) (total pos : Nat) (a : Arrays) :
    (node_pass st total pos a).e_prime = a.e_prime := by
  unfold node_pass
  refine forLoop_induct (fun x => x.e_prime = a.e_prime) _ _ ?_ a rfl
  intro i s _ hs
  show (update_node _ _ _ _).e_prime = a.e_prime
  rw [update_node_e]; exact hs

theorem node_pass_top_e (st : rmMt) (pos : Nat) (a : Arrays) :
    (node_pass_top st pos a).e_prime = a.e_prime := by
  unfold node_pass_top
  refine forLoop_induct (fun x => x.e_prime = a.e_prime) _ _ ?_ a rfl
  intro i s _ hs
  show (if _ then s else _).e_prime = _
  split_ifs
  · exact hs
  · rw [update_node_e]; exact hs

/-- Step 2.3 never writes `e'`. -/
theorem step_2_3_e (st : rmMt) (p ns total : Nat) (a : Arrays) :
    (step_2_3_seq st p (step_2_3_par st p ns total a)).e_prime = a.e_prime := by
  have h1 : (step_2_3_par st p ns total a).e_prime = a.e_prime := by
    unfold step_2_3_par
    refine forLoop_induct (fun x => x.e_prime = a.e_prime) _ _ ?_ a rfl
    intro i s _ hs
    refine forLoop_induct (fun x => x.e_prime = a.e_prime) _ _ ?_ s hs
    intro i2 s2 _ hs2
    refine forLoop_induct (fun x => x.e_prime = a.e_prime) _ _ ?_ s2 hs2
    intro i3 s3 _ hs3
    show (node_pass _ _ _ _).e_prime = a.e_prime
    rw [node_pass_e]; exact hs3
  rw [← h1]
  generalize step_2_3_par st p ns total a = b
  unfold step_2_3_seq
  refine forLoop_induct (fun x => x.e_prime = b.e_prime) _ _ ?_ b rfl
  intro i s _ hs
  refine forLoop_induct (fun x => x.e_prime = b.e_prime) _ _ ?_ s hs
  intro i2 s2 _ hs2
  show (node_pass_top _ _ _).e_prime = b.e_prime
  rw [node_pass_top_e]; exact hs2

theorem statics_with (P : Nat) (B : BIT_ARRAY) : Statics (builtWith P B) B :=
  ⟨rfl, rfl, rfl, rfl, rfl, rfl, by simp [builtWith, baseSt, init_rmMt]⟩

/-- Invariant 1 up to wrapping, for every worker count that gives each worker a
chunk: `e'[c]` is the wrapped excess at the end of chunk `c`. -/
theorem with_e_prime (P : Nat) (B : BIT_ARRAY) (hlen : 256 < B.num_of_bits) (hP : 1 ≤ P)
    (hv : (P - 1) * (((baseSt B).num_chunks + P - 1) / P) < (baseSt B).num_chunks)
    (hb : P = 1 ∨ B.num_of_bits + 256 ≤ 4294967296)
    (c : Nat) (hc : c < (baseSt B).num_chunks) :
    (builtWith P B).e_prime c = toInt16 (excessBefore B (min (256 * (c + 1)) B.num_of_bits)) := by
  have hst := statics_base B
  have hnc := hst.hnc
  show (build_arrays (baseSt B) P).e_prime c = _
  rw [build_arrays_stage, step_2_3_e]
  obtain ⟨hc1, hle⟩ := cpt_facts (baseSt B).num_chunks P hP (by omega)
  obtain ⟨ht, hcl, hg, _⟩ := chunk_worker (baseSt B) P _ hP hc1 hv hle c hc
  have h32 : P = 1 ∨ (baseSt B).num_chunks < 4294967296 := by
    rcases hb with h | h
    · exact Or.inl h
    · right; omega
  have h := (stage22_spec (baseSt B) B hst hlen P hP hv h32 _ _ ht hcl).2.1
  rw [hg] at h
  exact h

/-- Value of `sum` on an index built by workers that each have a chunk, whatever
the excesses are. -/
theorem with_sum (P : Nat) (B : BIT_ARRAY) (hlen : 256 < B.num_of_bits) (hP : 1 ≤ P)
    (hv : (P - 1) * (((baseSt B).num_chunks + P - 1) / P) < (baseSt B).num_chunks)
    (hb : P = 1 ∨ B.num_of_bits + 256 ≤ 4294967296) (i : Nat) (hi : i < B.num_of_bits) :
    sum (builtWith P B) (i : Int)
      = toInt16 (excessBefore B (256 * (i / 256)))
        + (excess B i - excessBefore B (256 * (i / 256))) := by
  have hst := statics_with P B
  have hnc := (statics_base B).hnc
  rw [sum_nat (builtWith P B) hst.hs i (by rw [hst.hn]; exact hi), hst.hB]
  by_cases h : i / 256 = 0
  · rw [if_neg (by simpa using h), h]
    simp [excessBefore, toInt16, excess]
  · rw [if_pos h, with_e_prime P B hlen hP hv hb (i / 256 - 1) (by omega)]
    have e : min (256 * (i / 256 - 1 + 1)) B.num_of_bits = 256 * (i / 256) := by omega
    rw [e]
    rfl

theorem with_sum_fits (P : Nat) (B : BIT_ARRAY) (hlen : 256 < B.num_of_bits) (hP : 1 ≤ P)
    (hv : (P - 1) * (((baseSt B).num_chunks + P - 1) / P) < (baseSt B).num_chunks)
    (hb : P = 1 ∨ B.num_of_bits + 256 ≤ 4294967296) (hfit : FitsInt16 B)
    (i : Nat) (hi : i < B.num_of_bits) : sum (builtWith P B) (i : Int) = excess B i := by
  rw [with_sum P B hlen hP hv hb i hi, wrapped_prefix_of_fits B hfit _ (by omega)]
  ring

theorem with_rank (P : Nat) (B : BIT_ARRAY) (hlen : 256 < B.num_of_bits) (hP : 1 ≤ P)
    (hv : (P - 1) * (((baseSt B).num_chunks + P - 1) / P) < (baseSt B).num_chunks)
    (hb : P = 1 ∨ B.num_of_bits + 256 ≤ 4294967296) (hfit : FitsInt16 B)
    (i : Nat) (hi : i < B.num_of_bits) :
    rank_1 (builtWith P B) (i : Int) = onesBefore B (i + 1)
      ∧ rank_0 (builtWith P B) (i : Int) = zerosBefore B (i + 1) := by
  have hst := statics_with P B
  have hs := with_sum_fits P B hlen hP hv hb hfit i hi
  have h1 := excess_eq_ones B (i + 1)
  have h0 := excess_eq_zeros B (i + 1)
  unfold rank_1 rank_0
  rw [hst.hn]
  simp only []
  rw [if_neg (by omega), hs]
  unfold excess
  constructor
  · rw [h1]
    have : ((i : Int) + 1 + (2 * (onesBefore B (i + 1) : Int) - ((i + 1 : Nat) : Int)))
        = 2 * (onesBefore B (i + 1) : Int) := by push_cast; ring
    rw [this]
    exact Int.mul_tdiv_cancel_left _ (by decide)
  · rw [h0]
    have : ((i : Int) + 1 - (((i + 1 : Nat) : Int) - 2 * (zerosBefore B (i + 1) : Int)))
        = 2 * (zerosBefore B (i + 1) : Int) := by push_cast; ring
    rw [this]
    exact Int.mul_tdiv_cancel_left _ (by decide)

/-- Below `2^32 − 256` bits the `unsigned int` limits of a chunk are the
unbounded ones, for every worker count that gives each worker a chunk. -/
theorem chunk_limits_u32_eq (arch64 : Bool) (st : rmMt) (B : BIT_ARRAY) (hst : Statics st B)
    (hlen : 256 < B.num_of_bits) (hn : B.num_of_bits + 256 ≤ 4294967296)
    (P cpt t c : Nat) (hc1 : 1 ≤ cpt) (hv : (P - 1) * cpt < st.num_chunks)
    (hle : st.num_chunks ≤ (P - 1) * cpt + cpt) (ht : t < P)
    (hc : c < chunk_limit_of st P cpt t) :
    chunk_limits_u32 arch64 st P cpt (chunk_limit_of st P cpt t) t c
      = chunk_limits st P cpt (chunk_limit_of st P cpt t) t c := by
  have hnc := hst.hnc
  have hg := (worker_chunk_lt st P cpt t c hc1 hv hle ht hc).1
  have e1 : t * cpt * 256 + 256 * c = 256 * (t * cpt + c) := by ring
  unfold chunk_limits_u32 chunk_limits
  rw [hst.hs, hst.hn, e1]
  have m1 : 256 * (t * cpt + c) % 4294967296 = 256 * (t * cpt + c) :=
    Nat.mod_eq_of_lt (by omega)
  have m2 : B.num_of_bits % 4294967296 = B.num_of_bits := Nat.mod_eq_of_lt (by omega)
  have m3 : (256 * (t * cpt + c) + 256) % 4294967296 = 256 * (t * cpt + c) + 256 :=
    Nat.mod_eq_of_lt (by omega)
  have m4 : st.num_chunks * 256 % 4294967296 = st.num_chunks * 256 :=
    Nat.mod_eq_of_lt (by omega)
  rw [m1, m2, m3, m4]
  cases arch64 <;> simp

theorem step_2_1_u32_eq (arch64 : Bool) (st : rmMt) (B : BIT_ARRAY) (hst : Statics st B)
    (hlen : 256 < B.num_of_bits) (hn : B.num_of_bits + 256 ≤ 4294967296)
    (P cpt : Nat) (hc1 : 1 ≤ cpt) (hv : (P - 1) * cpt < st.num_chunks)
    (hle : st.num_chunks ≤ (P - 1) * cpt + cpt) (a : Arrays) :
    step_2_1_u32 arch64 st P cpt a = step_2_1 st P cpt a := by
  unfold step_2_1_u32 step_2_1
  apply forLoop_congr
  intro t s ht
  rw [thread_scan_eq]
  show (forLoop (chunk_limit_of st P cpt t)
    (fun chunk x => process_chunk_u32 arch64 st P cpt (chunk_limit_of st P cpt t) t chunk x)
    _).2 = _
  congr 1
  apply forLoop_congr
  intro c x hc
  unfold process_chunk_u32 process_chunk
  rw [chunk_limits_u32_eq arch64 st B hst hlen hn P cpt t c hc1 hv hle ht hc]

/-- Below `2^32 − 256` bits, and when every worker has a chunk, `st_create` with
the `unsigned int` limits is `st_create` with unbounded limits. -/
theorem st_create_u32_eq (arch64 : Bool) (B : BIT_ARRAY) (hlen : 256 < B.num_of_bits)
    (hn : B.num_of_bits + 256 ≤ 4294967296) (P : Nat) (hP : 1 ≤ P)
    (hv : (P - 1) * (((baseSt B).num_chunks + P - 1) / P) < (baseSt B).num_chunks) :
    stage_2_2_u32 arch64 (baseSt B) P = stage_2_2 (baseSt B) P
    ∧ st_create_u32 arch64 P B = st_create P B := by
  have hst := statics_base B
  have hnc := hst.hnc
  obtain ⟨hc1, hle⟩ := cpt_facts (baseSt B).num_chunks P hP (by omega)
  have h1 : stage_2_2_u32 arch64 (baseSt B) P = stage_2_2 (baseSt B) P := by
    unfold stage_2_2_u32 stage_2_2
    rw [step_2_1_u32_eq arch64 (baseSt B) B hst hlen hn P _ hc1 hv hle]
  refine ⟨h1, ?_⟩
  have h2 : build_arrays_u32 arch64 (baseSt B) P = build_arrays (baseSt B) P := by
    rw [build_arrays_stage]
    unfold build_arrays_u32
    rw [h1]
  unfold st_create_u32 st_create
  simp only []
  show (if _ then _ else Except.ok { (baseSt B) with
      e_prime := (build_arrays_u32 arch64 (baseSt B) P).e_prime,
      m_prime := (build_arrays_u32 arch64 (baseSt B) P).m_prime,
      M_prime := (build_arrays_u32 arch64 (baseSt B) P).M_prime,
      n_prime := (build_arrays_u32 arch64 (baseSt B) P).n_prime }) = _
  rw [h2]
  rfl

theorem wrap_bit (k : Nat) :
    bit_array_get_bit wrapB (k : Int)
      = if (k < 4294967040 ∧ k % 2 = 0) ∨ (4294967040 ≤ k ∧ k < 4294967169) then 1 else 0 := by
  rw [bit_natCast]
  simp only [wrapB, decide_eq_true_eq]
  by_cases h : (k < 4294967040 ∧ k % 2 = 0) ∨ (4294967040 ≤ k ∧ k < 4294967169)
  · rw [if_pos ⟨by omega, h⟩, if_pos h]
  · rw [if_neg (fun c => h c.2), if_neg h]

theorem wrap_before (k : Nat) (hk : k ≤ 4294967298) :
    excessBefore wrapB k
      = if k ≤ 4294967040 then ((k % 2 : Nat) : Int)
        else if k ≤ 4294967169 then (k : Int) - 4294967040 else 4294967298 - (k : Int) := by
  induction k with
  | zero => simp [excessBefore]
  | succ k ih =>
    rw [excessBefore_succ, ih (by omega), wrap_bit]
    split_ifs <;> push_cast <;> omega

theorem wrap_excess (k : Nat) (hk : k < 4294967298) :
    excess wrapB k
      = if k < 4294967040 then (((k + 1) % 2 : Nat) : Int)
        else if k < 4294967169 then (k : Int) - 4294967039 else 4294967297 - (k : Int) := by
  unfold excess
  rw [wrap_before _ (by omega)]
  split_ifs <;> push_cast <;> omega

theorem wrap_balanced : Balanced wrapB := by
  refine ⟨?_, ?_⟩
  · intro i hi
    have : i < 4294967298 := hi
    rw [wrap_excess i this]
    split_ifs <;> omega
  · show excessBefore wrapB 4294967298 = 0
    rw [wrap_before _ (le_refl _)]
    simp

theorem wrap_fits : FitsInt16 wrapB := by
  intro i hi
  have : i < 4294967298 := hi
  rw [wrap_excess i this]
  split_ifs <;> omega

theorem wrap_statics : 256 < wrapB.num_of_bits ∧ (baseSt wrapB).num_chunks = 16777217
    ∧ (baseSt wrapB).height = 25 ∧ (baseSt wrapB).internal_nodes = 33554431 := by decide

/-- The cells a chunk writes for itself hold the final values of the worker's
variables. -/
theorem process_chunk_vars (st : rmMt) (P cpt L t c : Nat) (x : ChunkVars × Arrays) :
    (process_chunk st P cpt L t c x).2.m_prime (st.internal_nodes + (t * cpt + c))
      = (process_chunk st P cpt L t c x).1.min
    ∧ (process_chunk st P cpt L t c x).2.M_prime (st.internal_nodes + (t * cpt + c))
      = (process_chunk st P cpt L t c x).1.max := by
  unfold process_chunk
  simp [setAt]

/-- A chunk of a single worker writes only its own cells, with the
`unsigned int` limits too. -/
theorem process_chunk_u32_frame (arch64 : Bool) (st : rmMt) (cpt L c : Nat)
    (x : ChunkVars × Arrays) (j : Nat) (hj : j ≠ c) :
    (process_chunk_u32 arch64 st 1 cpt L 0 c x).2.e_prime j = x.2.e_prime j
    ∧ (process_chunk_u32 arch64 st 1 cpt L 0 c x).2.m_prime (st.internal_nodes + j)
        = x.2.m_prime (st.internal_nodes + j)
    ∧ (process_chunk_u32 arch64 st 1 cpt L 0 c x).2.M_prime (st.internal_nodes + j)
        = x.2.M_prime (st.internal_nodes + j)
    ∧ (process_chunk_u32 arch64 st 1 cpt L 0 c x).2.n_prime (st.internal_nodes + j)
        = x.2.n_prime (st.internal_nodes + j) := by
  unfold process_chunk_u32
  have h1 : j ≠ 0 * cpt + c := by omega
  have h2 : st.internal_nodes + j ≠ st.internal_nodes + (0 * cpt + c) := by omega
  exact ⟨setAt_other _ _ h1, setAt_other _ _ h2, setAt_other _ _ h2, setAt_other _ _ h2⟩

/-- The chunks of a single worker that end below bit 2^32 and are not the last
one have the same limits with `unsigned int` arithmetic. -/
theorem u32_prefix (arch64 : Bool) (st : rmMt) (B : BIT_ARRAY) (hst : Statics st B)
    (hlen : 256 < B.num_of_bits) (K : Nat) (hK : 256 * K < 4294967296)
    (hnc : K < st.num_chunks) (x0 : ChunkVars × Arrays) :
    forLoop K (fun chunk x =>
        process_chunk_u32 arch64 st 1 st.num_chunks st.num_chunks 0 chunk x) x0
      = forLoop K (fun chunk x => process_chunk st 1 st.num_chunks st.num_chunks 0 chunk x) x0 := by
  apply forLoop_congr
  intro c x hc
  have e : chunk_limits_u32 arch64 st 1 st.num_chunks st.num_chunks 0 c
      = chunk_limits st 1 st.num_chunks st.num_chunks 0 c := by
    unfold chunk_limits_u32 chunk_limits
    rw [hst.hs, hst.hn]
    have hne : ¬ (0 = 1 - 1 ∧ c = st.num_chunks - 1
        ∧ B.num_of_bits % (if arch64 = true then st.num_chunks * 256
            else st.num_chunks * 256 % 4294967296) ≠ 0) := fun h => by
      have := h.2.1; omega
    have hne' : ¬ (0 = 1 - 1 ∧ c = st.num_chunks - 1
        ∧ B.num_of_bits % (st.num_chunks * 256) ≠ 0) := fun h => by
      have := h.2.1; omega
    rw [if_neg hne, if_neg hne']
    have m1 : (0 * st.num_chunks * 256 + 256 * c) % 4294967296
        = 0 * st.num_chunks * 256 + 256 * c := Nat.mod_eq_of_lt (by simp; omega)
    rw [m1]
    have m3 : (0 * st.num_chunks * 256 + 256 * c + 256) % 4294967296
        = 0 * st.num_chunks * 256 + 256 * c + 256 := Nat.mod_eq_of_lt (by simp; omega)
    rw [m3, if_neg (by omega), if_neg (by omega)]
  unfold process_chunk_u32 process_chunk
  rw [e]

theorem loop_vars (st : rmMt) (k : Nat) (x0 : ChunkVars × Arrays) :
    (forLoop (k + 1) (fun chunk x =>
        process_chunk st 1 st.num_chunks st.num_chunks 0 chunk x) x0).2.m_prime
          (st.internal_nodes + k)
      = (forLoop (k + 1) (fun chunk x =>
        process_chunk st 1 st.num_chunks st.num_chunks 0 chunk x) x0).1.min
    ∧ (forLoop (k + 1) (fun chunk x =>
        process_chunk st 1 st.num_chunks st.num_chunks 0 chunk x) x0).2.M_prime
          (st.internal_nodes + k)
      = (forLoop (k + 1) (fun chunk x =>
        process_chunk st 1 st.num_chunks st.num_chunks 0 chunk x) x0).1.max := by
  rw [forLoop_succ]
  have := process_chunk_vars st 1 st.num_chunks st.num_chunks 0 k
    (forLoop k (fun chunk x => process_chunk st 1 st.num_chunks st.num_chunks 0 chunk x) x0)
  rw [show 0 * st.num_chunks + k = k by omega] at this
  exact this

theorem u32_unscanned (arch64 : Bool) (st : rmMt) (B : BIT_ARRAY) (hst : Statics st B)
    (hlen : 256 < B.num_of_bits) (K : Nat) (hK : 256 * (K + 1) = 4294967296)
    (hnc : K + 1 < st.num_chunks) (C : Nat) (hC : K + 1 ≤ C) :
    Unscanned st B K
      (forLoop C (fun chunk x =>
          process_chunk_u32 arch64 st 1 st.num_chunks st.num_chunks 0 chunk x)
        ({ min := 0, max := 0, partial_excess := 0, num_mins := 1 }, zeroArrays)).2 := by
  have hnc' := hst.hnc
  induction C, hC using Nat.le_induction with
  | base =>
    rw [forLoop_succ, u32_prefix arch64 st B hst hlen K (by omega) (by omega)]
    have inv := thread_inv st B hst hlen zeroArrays K (by omega)
    have hvars := loop_vars st (K - 1)
      ({ min := 0, max := 0, partial_excess := 0, num_mins := 1 }, zeroArrays)
    rw [show K - 1 + 1 = K by omega] at hvars
    generalize forLoop K (fun chunk x =>
          process_chunk st 1 st.num_chunks st.num_chunks 0 chunk x)
        ({ min := 0, max := 0, partial_excess := 0, num_mins := 1 }, zeroArrays) = Y at *
    have hpe := inv.pe
    rw [show min (256 * K) B.num_of_bits = 256 * K by omega] at hpe
    have hprev := inv.leaf_done (K - 1) (by omega)
    rw [show min (256 * (K - 1 + 1)) B.num_of_bits = 256 * K by omega] at hprev
    have hlim : chunk_limits_u32 arch64 st 1 st.num_chunks st.num_chunks 0 K
        = (256 * K, 0) := by
      unfold chunk_limits_u32
      rw [hst.hs, hst.hn]
      have hne : ¬ (0 = 1 - 1 ∧ K = st.num_chunks - 1
          ∧ B.num_of_bits % (if arch64 = true then st.num_chunks * 256
              else st.num_chunks * 256 % 4294967296) ≠ 0) := fun h => by
        have := h.2.1; omega
      rw [if_neg hne, if_neg (by omega)]
      have m1 : (0 * st.num_chunks * 256 + 256 * K) % 4294967296 = 256 * K := by
        rw [Nat.zero_mul, Nat.zero_mul, Nat.zero_add]
        exact Nat.mod_eq_of_lt (by omega)
      rw [m1]
      have m2 : (256 * K + 256) % 4294967296 = 0 := by
        have : 256 * K + 256 = 4294967296 := by omega
        rw [this]
      rw [m2]
    have hstep : process_chunk_u32 arch64 st 1 st.num_chunks st.num_chunks 0 K Y
        = ({ Y.1 with num_mins := 1 },
            { e_prime := setAt Y.2.e_prime (0 * st.num_chunks + K) Y.1.partial_excess
              m_prime := setAt Y.2.m_prime (st.internal_nodes + (0 * st.num_chunks + K)) Y.1.min
              M_prime := setAt Y.2.M_prime (st.internal_nodes + (0 * st.num_chunks + K)) Y.1.max
              n_prime := setAt Y.2.n_prime (st.internal_nodes + (0 * st.num_chunks + K)) 1 }) := by
      unfold process_chunk_u32
      rw [hlim]
      simp [forLoop]
    rw [hstep]
    have z : 0 * st.num_chunks + K = K := by omega
    have hne : st.internal_nodes + (K - 1) ≠ st.internal_nodes + K := by omega
    refine ⟨?_, ?_, ?_, ?_, ?_⟩
    · show setAt _ _ _ K = _
      rw [z, setAt_same, hpe]
    · show setAt _ _ _ _ = setAt _ _ _ _
      rw [z, setAt_same, setAt_other _ _ hne, hvars.1]
    · show setAt _ _ _ _ = setAt _ _ _ _
      rw [z, setAt_same, setAt_other _ _ hne, hvars.2]
    · show setAt _ _ _ _ = _
      rw [z, setAt_same]
    · show RangeMinMax B _ _ (setAt _ _ _ _) (setAt _ _ _ _)
      rw [z, setAt_other _ _ hne, setAt_other _ _ hne]
      exact hprev
  | succ C hC ih =>
    rw [forLoop_succ]
    generalize forLoop C (fun chunk x =>
          process_chunk_u32 arch64 st 1 st.num_chunks st.num_chunks 0 chunk x)
        ({ min := 0, max := 0, partial_excess := 0, num_mins := 1 }, zeroArrays) = Y at *
    have f1 := process_chunk_u32_frame arch64 st st.num_chunks st.num_chunks C Y K (by omega)
    have f2 := process_chunk_u32_frame arch64 st st.num_chunks st.num_chunks C Y (K - 1)
      (by omega)
    obtain ⟨i1, i2, i3, i4, i5⟩ := ih
    refine ⟨?_, ?_, ?_, ?_, ?_⟩
    · rw [f1.1]; exact i1
    · rw [f1.2.1, f2.2.1]; exact i2
    · rw [f1.2.2.1, f2.2.2.1]; exact i3
    · rw [f1.2.2.2]; exact i4
    · rw [f2.2.1, f2.2.2.1]; exact i5

/-- The leaves after steps 2.1 and 2.2 of a one-worker build with unbounded chunk
limits: least and greatest excess of the chunk and the count of the least one. -/
theorem leaf_cells_nat (B : BIT_ARRAY) (hlen : 256 < B.num_of_bits)
    (hfit : FitsInt16 B) (c : Nat) (hc : c < (baseSt B).num_chunks) :
    (∀ p, 256 * c ≤ p → p < min (256 * (c + 1)) B.num_of_bits →
        (stage_2_2 (baseSt B) 1).m_prime ((baseSt B).internal_nodes + c) ≤ excess B p
        ∧ excess B p ≤ (stage_2_2 (baseSt B) 1).M_prime ((baseSt B).internal_nodes + c))
    ∧ (∃ p, 256 * c ≤ p ∧ p < min (256 * (c + 1)) B.num_of_bits
        ∧ (stage_2_2 (baseSt B) 1).m_prime ((baseSt B).internal_nodes + c) = excess B p)
    ∧ (∃ p, 256 * c ≤ p ∧ p < min (256 * (c + 1)) B.num_of_bits
        ∧ (stage_2_2 (baseSt B) 1).M_prime ((baseSt B).internal_nodes + c) = excess B p)
    ∧ (stage_2_2 (baseSt B) 1).n_prime ((baseSt B).internal_nodes + c)
        = (countExcess B (256 * c) (min (256 * (c + 1)) B.num_of_bits)
            ((stage_2_2 (baseSt B) 1).m_prime ((baseSt B).internal_nodes + c)) : Nat) := by
  have hst := statics_base B
  have hnc := hst.hnc
  have hv : (1 - 1) * (((baseSt B).num_chunks + 1 - 1) / 1) < (baseSt B).num_chunks := by
    simp; omega
  obtain ⟨hc1, hle⟩ := cpt_facts (baseSt B).num_chunks 1 (le_refl _) (by omega)
  have hcl : c < chunk_limit_of (baseSt B) 1 (((baseSt B).num_chunks + 1 - 1) / 1) 0 := by
    rw [chunk_limit_valid (baseSt B) 1 _ 0 hc1 hv hle]
    simp; exact hc
  obtain ⟨hrel, _, hm, hM, hn⟩ :=
    stage22_spec (baseSt B) B hst hlen 1 (le_refl _) hv (Or.inl rfl) 0 c (by omega) hcl
  generalize ((baseSt B).num_chunks + 1 - 1) / 1 = cpt at *
  obtain ⟨_, hleaf, hcount⟩ := hrel
  have hz : 256 * (0 * cpt) = 0 := by simp
  have h0 : 0 * cpt + c = c := by simp
  rw [hz, shift_zero, h0] at hleaf hcount
  rw [hz, h0] at hm hM
  rw [h0] at hn
  have hE : excessBefore B 0 = 0 := rfl
  rw [hE, add_zero] at hm hM
  obtain ⟨i1, i2⟩ := rangeMinMax_int16 B _ _ _ _ hleaf
  rw [i1] at hm
  rw [i2] at hM
  rw [hm, hM, hn]
  generalize (step_2_1 (baseSt B) 1 cpt zeroArrays).m_prime ((baseSt B).internal_nodes + c) = m
    at *
  generalize (step_2_1 (baseSt B) 1 cpt zeroArrays).M_prime ((baseSt B).internal_nodes + c) = M
    at *
  obtain ⟨hb, ⟨p, hp1, hp2, hp3⟩, ⟨q, hq1, hq2, hq3⟩⟩ := hleaf
  have hw : ∀ p, p < min (256 * (c + 1)) B.num_of_bits → wexcess B p = excess B p :=
    fun p hp => wexcess_of_fits B hfit p (by omega)
  refine ⟨?_, ⟨p, hp1, hp2, ?_⟩, ⟨q, hq1, hq2, ?_⟩, ?_⟩
  · intro r hr1 hr2
    rw [← hw r hr2]
    exact hb r hr1 hr2
  · rw [← hw p hp2]; exact hp3
  · rw [← hw q hq2]; exact hq3
  · rw [hcount, countW_eq_countExcess B (256 * c) m _ (fun t ht => hw _ (by omega))]
    congr 2
    omega

/-- Steps 2.1 and 2.2 with unbounded chunk limits, when every worker has a chunk:
`e'` is the excess at the end of the chunk, and the leaves hold the least and the
greatest excess of the chunk when the relative excess of every worker fits. -/
theorem stage_2_2_abs_nat (B : BIT_ARRAY) (hlen : 256 < B.num_of_bits) (P : Nat)
    (hP : 1 ≤ P)
    (hv : (P - 1) * (((baseSt B).num_chunks + P - 1) / P) < (baseSt B).num_chunks)
    (h32 : (baseSt B).num_chunks < 4294967296) (hfit : FitsInt16 B)
    (g : Nat) (hg : g < (baseSt B).num_chunks) :
    (stage_2_2 (baseSt B) P).e_prime g = excess B (min (256 * (g + 1)) B.num_of_bits - 1)
    ∧ (RelFits B P →
      (∀ p, 256 * g ≤ p → p < min (256 * (g + 1)) B.num_of_bits →
        (stage_2_2 (baseSt B) P).m_prime ((baseSt B).internal_nodes + g) ≤ excess B p
        ∧ excess B p ≤ (stage_2_2 (baseSt B) P).M_prime ((baseSt B).internal_nodes + g))
      ∧ (∃ p, 256 * g ≤ p ∧ p < min (256 * (g + 1)) B.num_of_bits
        ∧ (stage_2_2 (baseSt B) P).m_prime ((baseSt B).internal_nodes + g) = excess B p)
      ∧ (∃ p, 256 * g ≤ p ∧ p < min (256 * (g + 1)) B.num_of_bits
        ∧ (stage_2_2 (baseSt B) P).M_prime ((baseSt B).internal_nodes + g) = excess B p)) := by
  have hst := statics_base B
  have hnc := hst.hnc
  obtain ⟨hc1, hle⟩ := cpt_facts (baseSt B).num_chunks P hP (by omega)
  obtain ⟨ht, hc, hg', _⟩ := chunk_worker (baseSt B) P _ hP hc1 hv hle g hg
  have hL := chunk_limit_le (baseSt B) P _ (g / (((baseSt B).num_chunks + P - 1) / P)) hc1 hv hle
  obtain ⟨hrel, he, hm, hM, _⟩ :=
    stage22_spec (baseSt B) B hst hlen P hP hv (Or.inr h32) _ _ ht hc
  unfold RelFits
  generalize ((baseSt B).num_chunks + P - 1) / P = cpt at *
  generalize g / cpt = t at *
  generalize g % cpt = c at *
  rw [hg'] at he hm hM
  obtain ⟨_, hleaf, _⟩ := hrel
  rw [hg'] at hleaf
  have hn' : (shiftB B (256 * (t * cpt))).num_of_bits = B.num_of_bits - 256 * (t * cpt) := rfl
  rw [hn'] at hleaf
  have hS : 256 * g = 256 * (t * cpt) + 256 * c := by omega
  have hS1 : 256 * ((t + 1) * cpt) = 256 * (t * cpt) + 256 * cpt := by ring
  have hgn : 256 * g < B.num_of_bits := by omega
  refine ⟨?_, ?_⟩
  · rw [he, wrapped_prefix_of_fits B hfit _ (by omega)]
    unfold excess
    congr 1
    omega
  · intro hrf
    rw [hm, hM]
    generalize (step_2_1 (baseSt B) P cpt zeroArrays).m_prime ((baseSt B).internal_nodes + g) = m
      at *
    generalize (step_2_1 (baseSt B) P cpt zeroArrays).M_prime ((baseSt B).internal_nodes + g) = M
      at *
    generalize hSd : 256 * (t * cpt) = S at *
    have hw : ∀ p, S ≤ p → p < min (256 * (g + 1)) B.num_of_bits →
        wexcess (shiftB B S) (p - S) = excess B p - excessBefore B S := by
      intro p h1 h2
      rw [shift_wexcess, show S + (p - S) = p by omega]
      have := hrf t p ht (by omega) (by omega) (by omega)
      rw [hSd] at this
      exact toInt16_of_fits this.1 this.2
    obtain ⟨hb, ⟨p, hp1, hp2, hp3⟩, ⟨q, hq1, hq2, hq3⟩⟩ := hleaf
    have hp' := hw (S + p) (by omega) (by omega)
    have hq' := hw (S + q) (by omega) (by omega)
    rw [show S + p - S = p by omega] at hp'
    rw [show S + q - S = q by omega] at hq'
    have fp := hfit (S + p) (by omega)
    have fq := hfit (S + q) (by omega)
    have em : toInt16 (m + excessBefore B S) = excess B (S + p) := by
      rw [hp3, hp', sub_add_cancel]
      exact toInt16_of_fits fp.1 fp.2
    have eM : toInt16 (M + excessBefore B S) = excess B (S + q) := by
      rw [hq3, hq', sub_add_cancel]
      exact toInt16_of_fits fq.1 fq.2
    rw [em, eM]
    refine ⟨?_, ⟨S + p, by omega, by omega, rfl⟩, ⟨S + q, by omega, by omega, rfl⟩⟩
    intro r hr1 hr2
    have hr := hb (r - S) (by omega) (by omega)
    rw [hw r (by omega) hr2, hp3, hq3, hp', hq'] at hr
    omega

/-- Every node of the tree of a one-worker build with unbounded chunk limits holds
the least and the greatest excess of the bits it covers. -/
theorem tree_min_max_nat (B : BIT_ARRAY) (hlen : 256 < B.num_of_bits) (hbal : Balanced B)
    (hfit : FitsInt16 B) :
    ∃ st, st_create 1 B = Except.ok st ∧ st.internal_nodes = 2 ^ st.height - 1
      ∧ ∀ l k, l ≤ st.height → k < 2 ^ l → nodeLo st.height l k < B.num_of_bits →
        (∀ p, nodeLo st.height l k ≤ p → p < nodeHi B.num_of_bits st.height l k →
          st.m_prime (2 ^ l - 1 + k) ≤ excess B p ∧ excess B p ≤ st.M_prime (2 ^ l - 1 + k))
        ∧ (∃ p, nodeLo st.height l k ≤ p ∧ p < nodeHi B.num_of_bits st.height l k
            ∧ excess B p = st.m_prime (2 ^ l - 1 + k))
        ∧ (∃ p, nodeLo st.height l k ≤ p ∧ p < nodeHi B.num_of_bits st.height l k
            ∧ excess B p = st.M_prime (2 ^ l - 1 + k)) := by
  refine ⟨builtSt B, st_create_one B hlen, (statics_built B).hI, ?_⟩
  intro l k hl hk hcov
  have h := (built_tree B hlen (balanced_last B (by omega) hbal) l k hl hk).1 hcov
  have hlt : ∀ p, p < nodeHi B.num_of_bits (builtSt B).height l k → p < B.num_of_bits := by
    intro p hp
    unfold nodeHi at hp
    omega
  obtain ⟨b, ⟨p1, c1, c2, c3⟩, ⟨p2, d1, d2, d3⟩⟩ := h
  refine ⟨?_, ⟨p1, c1, c2, ?_⟩, ⟨p2, d1, d2, ?_⟩⟩
  · intro p e1 e2
    have := b p e1 e2
    rwa [wexcess_of_fits B hfit p (hlt p e2)] at this
  · rw [c3, wexcess_of_fits B hfit p1 (hlt p1 c2)]
  · rw [d3, wexcess_of_fits B hfit p2 (hlt p2 d2)]

theorem st_create_u32_ok (arch64 : Bool) (P : Nat) (B : BIT_ARRAY)
    (hlen : 256 < B.num_of_bits) :
    st_create_u32 arch64 P B = Except.ok
      { baseSt B with
        e_prime := (build_arrays_u32 arch64 (baseSt B) P).e_prime
        m_prime := (build_arrays_u32 arch64 (baseSt B) P).m_prime
        M_prime := (build_arrays_u32 arch64 (baseSt B) P).M_prime
        n_prime := (build_arrays_u32 arch64 (baseSt B) P).n_prime } := by
  unfold st_create_u32
  simp only []
  rw [if_neg (by show ¬ (256 ≥ B.num_of_bits); omega)]
  rfl

/-- With one worker, steps 2.1 and 2.2 are the chunk loop of that worker. -/
theorem stage_u32_one (arch64 : Bool) (st : rmMt) :
    stage_2_2_u32 arch64 st 1
      = (forLoop st.num_chunks (fun chunk x =>
          process_chunk_u32 arch64 st 1 st.num_chunks st.num_chunks 0 chunk x)
        ({ min := 0, max := 0, partial_excess := 0, num_mins := 1 }, zeroArrays)).2 := by
  unfold stage_2_2_u32 step_2_2_fix step_2_2_seq step_2_1_u32 thread_scan_u32
  simp [forLoop]

theorem build_u32_one (arch64 : Bool) (st : rmMt) (hk : st.k = 2) :
    build_arrays_u32 arch64 st 1 = levelsDone st st.height (stage_2_2_u32 arch64 st 1) := by
  unfold build_arrays_u32 step_2_3_par step_2_3_seq levelsDone
  simp [forLoop, ceil_log, ceil_log_from, hk]

/-- The level loop of step 2.3 leaves the leaves as they are. -/
theorem levelsDone_leaf (st : rmMt) (hk : st.k = 2) (hI : st.internal_nodes = 2 ^ st.height - 1)
    (t : Nat) (ht : t ≤ st.height) (a : Arrays) (j : Nat) (hj : st.internal_nodes ≤ j) :
    (levelsDone st t a).m_prime j = a.m_prime j
    ∧ (levelsDone st t a).M_prime j = a.M_prime j := by
  unfold levelsDone
  refine forLoop_induct
    (fun x => x.m_prime j = a.m_prime j ∧ x.M_prime j = a.M_prime j) t _ ?_ a ⟨rfl, rfl⟩
  intro i s hi hs
  have hp : 0 < 2 ^ (st.height - 1 - i) := by positivity
  have hpow : 2 ^ (st.height - 1 - i) * 2 ≤ 2 ^ st.height := by
    rw [← pow_succ]
    exact Nat.pow_le_pow_right (by decide) (by omega)
  have h := (level_pass_spec st hk (st.internal_nodes + st.num_chunks)
    (2 ^ (st.height - 1 - i) - 1) s (2 ^ (st.height - 1 - i)) (by omega)).2.1 j
      (Or.inr (by omega))
  show (forLoop _ _ s).m_prime j = _ ∧ (forLoop _ _ s).M_prime j = _
  rw [h.1, h.2]
  exact hs

/-- The chunk 2^24 − 1 of `wrapB` is not scanned by a single worker. -/
theorem wrap_unscanned (arch64 : Bool) :
    Unscanned (baseSt wrapB) wrapB 16777215 (stage_2_2_u32 arch64 (baseSt wrapB) 1) := by
  rw [stage_u32_one]
  exact u32_unscanned arch64 (baseSt wrapB) wrapB (statics_base wrapB) (by decide) 16777215
    (by decide) (by decide) (baseSt wrapB).num_chunks (by decide)

theorem wrap_stale_e (arch64 : Bool) :
    (stage_2_2_u32 arch64 (baseSt wrapB) 1).e_prime 16777215 = 0 := by
  rw [(wrap_unscanned arch64).e, wrap_before _ (by decide), if_pos (by decide)]
  decide

theorem wrap_stale_M (arch64 : Bool) :
    (stage_2_2_u32 arch64 (baseSt wrapB) 1).M_prime ((baseSt wrapB).internal_nodes + 16777215)
      ≤ 1 := by
  have h := wrap_unscanned arch64
  rw [h.M]
  obtain ⟨_, _, ⟨q, q1, q2, q3⟩⟩ := h.prev
  rw [q3]
  unfold wexcess
  have hq : q < 4294967040 := by
    have : 256 * 16777215 = 4294967040 := by decide
    omega
  rw [wrap_excess q (by omega), if_pos hq]
  have : (((q + 1) % 2 : Nat) : Int) ≤ 1 := by omega
  have h0 : (0 : Int) ≤ (((q + 1) % 2 : Nat) : Int) := by omega
  rw [toInt16_of_fits (by omega) (by omega)]
  exact this

/-- The index `st_create` returns, step 2.1 with the `unsigned int` limits: the
static fields of `init_rmMt` and the arrays of the three steps. -/
theorem st_create_u32_cells (arch64 : Bool) (P : Nat) (B : BIT_ARRAY)
    (hlen : 256 < B.num_of_bits) :
    ∃ st, st_create_u32 arch64 P B = Except.ok st
      ∧ st.num_chunks = (B.num_of_bits + 256 - 1) / 256
      ∧ st.height = (baseSt B).height
      ∧ st.internal_nodes = 2 ^ st.height - 1
      ∧ st.e_prime = (stage_2_2_u32 arch64 (baseSt B) P).e_prime
      ∧ st.m_prime = (build_arrays_u32 arch64 (baseSt B) P).m_prime
      ∧ st.M_prime = (build_arrays_u32 arch64 (baseSt B) P).M_prime := by
  refine ⟨_, st_create_u32_ok arch64 P B hlen, rfl, rfl, (statics_base B).hI, ?_, rfl, rfl⟩
  show (build_arrays_u32 arch64 (baseSt B) P).e_prime = _
  unfold build_arrays_u32
  rw [step_2_3_e]

theorem one_valid (B : BIT_ARRAY) (hlen : 256 < B.num_of_bits) :
    (1 - 1) * (((baseSt B).num_chunks + 1 - 1) / 1) < (baseSt B).num_chunks := by
  have hnc := (statics_base B).hnc
  simp
  omega

/-- The last leaf of `bigB` after step 2.2 with two workers and unbounded chunk
limits: `m' = 0` and `M' = −1`. -/
theorem big_last_leaf :
    (stage_2_2 (baseSt bigB) 2).m_prime ((baseSt bigB).internal_nodes + 255) = 0
    ∧ (stage_2_2 (baseSt bigB) 2).M_prime ((baseSt bigB).internal_nodes + 255) = -1 := by
  obtain ⟨m, M, hleaf, hm, hM⟩ := big_leaf
  obtain ⟨hmv, hMv⟩ := big_rel_range m M hleaf
  have hB : excessBefore bigB 32768 = -32768 := by
    rw [big_before _ (by decide)]; simp
  rw [hmv, hB] at hm
  rw [hMv, hB] at hM
  refine ⟨?_, ?_⟩
  · rw [hm]; decide
  · rw [hM]; decide

/-! ## The claims -/

/-- C1: after a one-worker `st_create` on a bitstring of more than 256 bits
whose prefix excesses all fit in int16, `sum(i)` equals `excess(i)`, the sum over
`j ≤ i` of `2·B[j] − 1`, for every position `i < n`. -/
theorem sum_eq_excess (B : BIT_ARRAY) (hlen : 256 < B.num_of_bits) (hfit : FitsInt16 B)
    (i : Nat) (hi : i < B.num_of_bits) :
    ∃ st, st_create 1 B = Except.ok st ∧ sum st (i : Int) = excess B i :=
  ⟨builtSt B, st_create_one B hlen, built_sum_fits B hlen hfit i hi⟩

/-- Witness for `sum_eq_excess`: the theorem at the string `(( ()^127 ))` of 258 bits. -/
theorem sum_eq_excess_witness :
    256 < B258.num_of_bits ∧ FitsInt16 B258 ∧
      ∃ st, st_create 1 B258 = Except.ok st ∧ sum st ((257 : Nat) : Int) = excess B258 257 :=
  ⟨B258_len, B258_fits, sum_eq_excess B258 B258_len B258_fits 257 (by decide)⟩

/-- C2 (failing input): in the balanced string `(( ()^127 ))` of 258 bits the
opening parenthesis at position 1 is closed at position 256, the first bit of
the next chunk, yet `find_close(1)` returns -1 on the one-worker index, and
`sum(-1) = sum(1) − 1` fails. -/
theorem find_close_misses_sibling_start :
    Balanced B258 ∧ ∃ st, st_create 1 B258 = Except.ok st
      ∧ bit_array_get_bit B258 1 = 1 ∧ bit_array_get_bit B258 256 = 0
      ∧ excess B258 256 = excess B258 1 - 1
      ∧ (∀ j, j < 256 → 1 < j → excess B258 j ≠ excess B258 1 - 1)
      ∧ find_close st.height st 1 = -1
      ∧ sum st (find_close st.height st 1) ≠ sum st 1 - 1 :=
  ⟨B258_balanced, _, rfl, by decide!⟩

/-- C4 (failing input): on the same string neither round trip holds at the
matching pair (1, 256): `find_open(find_close(1)) = -1` and
`find_close(find_open(256)) = -1`, although `find_open(256) = 1`. -/
theorem round_trip_fails_at_sibling_start :
    Balanced B258 ∧ ∃ st, st_create 1 B258 = Except.ok st
      ∧ bit_array_get_bit B258 1 = 1 ∧ bit_array_get_bit B258 256 = 0
      ∧ find_open st (find_close st.height st 1) = -1
      ∧ find_open st 256 = 1
      ∧ find_close st.height st (find_open st 256) = -1 :=
  ⟨B258_balanced, _, rfl, by decide!⟩

/-- C5 (failing input): on the string `()^129` of 258 bits, with `i = 0` and
`d = 1`, the smallest `j > 0` with `excess(j) = excess(0) + d − 1` is 2, yet
`fwd_search(0, 1)` returns 1. -/
theorem fwd_search_ignores_d_in_leaf :
    ∃ st, st_create 1 alt258 = Except.ok st
      ∧ excess alt258 2 = excess alt258 0 + 1 - 1
      ∧ excess alt258 1 ≠ excess alt258 0 + 1 - 1
      ∧ fwd_search st.height st 0 1 = 1 :=
  ⟨_, rfl, by decide!⟩

/-- C3 (counterexample): on 32769 opening then 32769 closing parentheses, the
closing parenthesis at 32770 is matched by `find_open` with 32767, but
`sum(32767) = 32768` whereas `sum(32770) + 1 = -32768`. -/
theorem find_open_sum_wraps :
    Balanced deepB ∧ ∃ st, st_create 1 deepB = Except.ok st
      ∧ bit_array_get_bit deepB 32770 = 0
      ∧ find_open st 32770 = 32767 ∧ sum st 32767 = 32768 ∧ sum st 32770 = -32769 :=
  ⟨deep_balanced, builtSt deepB, st_create_one deepB deep_len,
    by have := deep_bit 32770; simpa using this,
    deep_find_open, deep_sum_32767, deep_sum_32770⟩

/-- C6 (counterexample): on 32769 opening then 32769 closing parentheses
`rank_1(32768)` is 1, while `B[0..32768]` holds 32769 one-bits. -/
theorem rank_1_wraps :
    Balanced deepB ∧ ∃ st, st_create 1 deepB = Except.ok st
      ∧ rank_1 st 32768 = 1 ∧ onesBefore deepB 32769 = 32769 :=
  ⟨deep_balanced, builtSt deepB, st_create_one deepB deep_len, deep_rank_1,
    deep_ones 32769 (le_refl _)⟩

/-- C7 (counterexample): on 32769 opening then 32769 closing parentheses
`select_1(32769)` is 32768, the position of the 32769-th 1-bit, but
`sum(32768) = -32767` whereas `2·32769 − 32768 − 1 = 32769`. -/
theorem select_1_sum_wraps :
    Balanced deepB ∧ ∃ st, st_create 1 deepB = Except.ok st
      ∧ select_1 st 32769 = 32768 ∧ sum st 32768 = -32767 :=
  ⟨deep_balanced, builtSt deepB, st_create_one deepB deep_len, deep_select_1, deep_sum_32768⟩

/-- C8 (amended): on a one-worker index of a balanced string of more than 256
bits whose prefix excesses fit in int16, for `1 ≤ i ≤ n/2`, `select_0(i)` is the
position of the `i`-th 0-bit, the smallest `j` with `sum(j) = j + 1 − 2i`, and
it lies in the scan window `[2i−1, 2i−1+M'[0])`. -/
theorem select_0_ith_zero (B : BIT_ARRAY) (hlen : 256 < B.num_of_bits) (hbal : Balanced B)
    (hfit : FitsInt16 B) (i : Nat) (h1 : 1 ≤ i) (h2 : 2 * i ≤ B.num_of_bits) :
    ∃ st, st_create 1 B = Except.ok st ∧ ∃ r : Nat,
      select_0 st (i : Int) = (r : Int) ∧ r < B.num_of_bits ∧ bit_array_get_bit B r = 0
      ∧ zerosBefore B (r + 1) = i
      ∧ sum st (r : Int) = (r : Int) + 1 - 2 * i
      ∧ (∀ r' : Nat, r' < r → sum st (r' : Int) ≠ (r' : Int) + 1 - 2 * i)
      ∧ 2 * (i : Int) - 1 ≤ r ∧ (r : Int) < 2 * i - 1 + st.M_prime 0 := by
  obtain ⟨r, a1, a2, a3, a4, a5, a6, a7, a8⟩ := select_0_spec B hlen hbal hfit i h1 h2
  refine ⟨builtSt B, st_create_one B hlen, r, a1, a2, a3, a4, ?_, ?_, a7, a8⟩
  · rw [built_sum_fits B hlen hfit r a2]; exact a5
  · intro r' a
    rw [built_sum_fits B hlen hfit r' (by omega)]
    exact a6 r' a

/-- Witness for `select_0_ith_zero`: the theorem at the string `(( ()^127 ))` of 258 bits. -/
theorem select_0_ith_zero_witness :
    256 < B258.num_of_bits ∧ Balanced B258 ∧ FitsInt16 B258 ∧
    ∃ st, st_create 1 B258 = Except.ok st ∧ ∃ r : Nat,
      select_0 st ((3 : Nat) : Int) = (r : Int) ∧ r < B258.num_of_bits
      ∧ bit_array_get_bit B258 r = 0
      ∧ zerosBefore B258 (r + 1) = 3
      ∧ sum st (r : Int) = (r : Int) + 1 - 2 * (3 : Nat)
      ∧ (∀ r' : Nat, r' < r → sum st (r' : Int) ≠ (r' : Int) + 1 - 2 * (3 : Nat))
      ∧ 2 * ((3 : Nat) : Int) - 1 ≤ r ∧ (r : Int) < 2 * (3 : Nat) - 1 + st.M_prime 0 :=
  ⟨B258_len, B258_balanced, B258_fits,
    select_0_ith_zero B258 B258_len B258_balanced B258_fits 3 (by decide) (by decide)⟩

/-- C8 (counterexample): on 32769 opening then 32769 closing parentheses the
first 0-bit is at position 32769, but `M'[0] ≤ 32767` and `select_0(1)` returns
-1: the scan window ends before that position. -/
theorem select_0_window_short :
    Balanced deepB ∧ ∃ st, st_create 1 deepB = Except.ok st
      ∧ bit_array_get_bit deepB 32769 = 0 ∧ zerosBefore deepB 32770 = 1
      ∧ st.M_prime 0 ≤ 32767 ∧ select_0 st 1 = -1 :=
  ⟨deep_balanced, builtSt deepB, st_create_one deepB deep_len,
    by have := deep_bit 32769; simpa using this,
    deep_zeros_32770, deep_root_max, deep_select_0⟩

/-- C11 (failing input): on the balanced string `()^130` of 260 bits the root of
the one-worker index has `m'[0] = 0` and `n'[0] = 129`, while 130 positions have
excess 0; the leaves hold 128 and 2. -/
theorem root_count_misses_sibling_minima :
    Balanced alt260 ∧ ∃ st, st_create 1 alt260 = Except.ok st
      ∧ st.internal_nodes = 1 ∧ st.num_chunks = 2
      ∧ st.m_prime 0 = 0 ∧ st.m_prime 1 = 0 ∧ st.m_prime 2 = 0
      ∧ st.n_prime 1 = 128 ∧ st.n_prime 2 = 2
      ∧ st.n_prime 0 = 129
      ∧ countExcess alt260 0 260 (st.m_prime 0) = 130 :=
  ⟨alt_balanced 260 (by decide), _, rfl, by decide!⟩

/-- C13 (failing input): on the balanced string `()^513` of 1026 bits (five
chunks) three workers leave `n'[2] = 1` where one worker leaves `n'[2] = 2`, and
on `()^1153` of 2306 bits (ten chunks) four workers leave `n'[2] = 130` where one
worker leaves `n'[2] = 131`. -/
theorem worker_count_changes_n_prime :
    (Balanced alt1026 ∧ ∃ st1 st3, st_create 1 alt1026 = Except.ok st1
      ∧ st_create 3 alt1026 = Except.ok st3
      ∧ st1.n_prime 2 = 2 ∧ st3.n_prime 2 = 1)
    ∧ (Balanced alt2306 ∧ ∃ st1 st4, st_create 1 alt2306 = Except.ok st1
      ∧ st_create 4 alt2306 = Except.ok st4
      ∧ st1.n_prime 2 = 131 ∧ st4.n_prime 2 = 130) :=
  ⟨⟨alt_balanced 1026 (by decide), _, _, rfl, rfl, by decide!⟩,
    ⟨alt_balanced 2306 (by decide), _, _, rfl, rfl, by decide!⟩⟩

/-- C14 (failing input): on the string `(()())` of 6 bits, `st_create` ends in
`exit(0)`, exit status zero, for every number of workers. -/
theorem st_create_short_exits_zero :
    B6.num_of_bits ≤ 256 ∧ ∀ P : Nat, st_create P B6 = Except.error 0 :=
  ⟨by decide, fun _ => rfl⟩

/-- C15: for every index over `n` bits, `sum(i)` is the sentinel -1 for every
`i ≥ n` and every negative `i`, whatever `B` and `e'` hold: the result is the
same after replacing both. -/
theorem sum_out_of_range (st : rmMt) (i : Int) (h : i < 0 ∨ i ≥ st.n) :
    sum st i = -1 ∧ ∀ (B : BIT_ARRAY) (e : Nat → Int),
      sum { st with B := B, e_prime := e } i = -1 := by
  refine ⟨?_, fun B e => ?_⟩
  · unfold sum
    rw [if_pos h]
  · unfold sum
    rw [if_pos h]

/-- Witness for `sum_out_of_range`: position 258 of an index over 258 bits. -/
theorem sum_out_of_range_witness :
    ((258 : Int) < 0 ∨ (258 : Int) ≥ (builtSt B258).n) ∧
    (sum (builtSt B258) 258 = -1 ∧ ∀ (B : BIT_ARRAY) (e : Nat → Int),
      sum { builtSt B258 with B := B, e_prime := e } 258 = -1) :=
  ⟨Or.inr (by decide), sum_out_of_range (builtSt B258) 258 (Or.inr (by decide))⟩

/-- C16: for every index and every position `i < n`, `find_close(i) = -1` when
`B[i] = 0` and `find_open(i) = -1` when `B[i] = 1`. -/
theorem find_opposite_sentinel (heigh : Nat) (st : rmMt) (i : Int) (_hi : 0 ≤ i ∧ i < st.n) :
    (bit_array_get_bit st.B i = 0 → find_close heigh st i = -1)
    ∧ (bit_array_get_bit st.B i = 1 → find_open st i = -1) := by
  refine ⟨fun h => ?_, fun h => ?_⟩
  · unfold find_close
    rw [if_pos h]
  · unfold find_open
    rw [if_pos h]

/-- Witness for `find_opposite_sentinel`: the closing parenthesis at 256 and the
opening parenthesis at 1 of the string `(( ()^127 ))`. -/
theorem find_opposite_sentinel_witness :
    ((0 : Int) ≤ 256 ∧ (256 : Int) < (builtSt B258).n)
    ∧ bit_array_get_bit (builtSt B258).B 256 = 0
    ∧ find_close (builtSt B258).height (builtSt B258) 256 = -1
    ∧ bit_array_get_bit (builtSt B258).B 1 = 1
    ∧ find_open (builtSt B258) 1 = -1 :=
  ⟨⟨by decide, by decide⟩, by decide,
    (find_opposite_sentinel (builtSt B258).height (builtSt B258) 256
      ⟨by decide, by decide⟩).1 (by decide),
    by decide,
    (find_opposite_sentinel (builtSt B258).height (builtSt B258) 1
      ⟨by decide, by decide⟩).2 (by decide)⟩

/-- C17 (failing input): on `()^129` of 258 bits no position after 0 has excess
`excess(0) + 5 − 1 = 5`, yet `fwd_search(0, 5)` returns 1; on `(( ()^127 ))`
there is no position after 257 at all, yet `fwd_search(257, 0)` returns 258. -/
theorem fwd_search_not_found_returns_position :
    (∃ st, st_create 1 alt258 = Except.ok st
      ∧ (∀ j : Nat, j < 258 → 0 < j → excess alt258 j ≠ excess alt258 0 + 5 - 1)
      ∧ fwd_search st.height st 0 5 = 1)
    ∧ (∃ st, st_create 1 B258 = Except.ok st
      ∧ st.n = 258 ∧ fwd_search st.height st 257 0 = 258) :=
  ⟨⟨_, rfl, by decide!⟩, ⟨_, rfl, by decide!⟩⟩

/-- C20 (amended): for every index over `n` bits and every `i ≥ 0`,
`rank_1(i) = (i' + 1 + sum(i')) / 2` and `rank_0(i) = (i' + 1 − sum(i')) / 2`
with `i' = min(i, n − 1)`, the division truncating. -/
theorem rank_clamped (st : rmMt) (i : Int) (h : 0 ≤ i) :
    rank_1 st i
      = Int.tdiv (min i ((st.n : Int) - 1) + 1 + sum st (min i ((st.n : Int) - 1))) 2
    ∧ rank_0 st i
      = Int.tdiv (min i ((st.n : Int) - 1) + 1 - sum st (min i ((st.n : Int) - 1))) 2 := by
  unfold rank_1 rank_0
  by_cases hc : i < 0 ∨ i ≥ st.n
  · have e : min i ((st.n : Int) - 1) = (st.n : Int) - 1 := by
      apply min_eq_right; omega
    simp only [if_pos hc, e, and_self]
  · have e : min i ((st.n : Int) - 1) = i := by
      apply min_eq_left; omega
    simp only [if_neg hc, e, and_self]

/-- Witness for `rank_clamped`: position 300 of an index over 258 bits. -/
theorem rank_clamped_witness :
    (0 : Int) ≤ 300 ∧
    (rank_1 (builtSt B258) 300
      = Int.tdiv (min 300 (((builtSt B258).n : Int) - 1) + 1
          + sum (builtSt B258) (min 300 (((builtSt B258).n : Int) - 1))) 2
    ∧ rank_0 (builtSt B258) 300
      = Int.tdiv (min 300 (((builtSt B258).n : Int) - 1) + 1
          - sum (builtSt B258) (min 300 (((builtSt B258).n : Int) - 1))) 2) :=
  ⟨by decide, rank_clamped (builtSt B258) 300 (by decide)⟩

/-- C20 (counterexample): on `(( ()^127 ))` of 258 bits, `rank_1(300) = 129`
while `(300 + 1 + sum(min(300, 257))) / 2 = 150`, and likewise for `rank_0`. -/
theorem rank_beyond_end :
    ∃ st, st_create 1 B258 = Except.ok st ∧ st.n = 258
      ∧ rank_1 st 300 = 129 ∧ (300 + 1 + sum st (min 300 ((st.n : Int) - 1))) / 2 = 150
      ∧ rank_1 st 300 ≠ (300 + 1 + sum st (min 300 ((st.n : Int) - 1))) / 2
      ∧ rank_0 st 300 ≠ (300 + 1 - sum st (min 300 ((st.n : Int) - 1))) / 2 :=
  ⟨_, rfl, by decide!⟩

/-- C26: `bwd_search(i, d)` is the same for every `d`; it is the largest
`j ≤ i` such that the bits `B[j..i]` have excess 0, and -1 when there is no such
`j`. -/
theorem bwd_search_ignores_d (st : rmMt) (i : Nat) (d d' : Int) :
    bwd_search st (i : Int) d = bwd_search st (i : Int) d'
    ∧ ((∃ j : Nat, bwd_search st (i : Int) d = (j : Int) ∧ j ≤ i
          ∧ rangeExcess st.B j (i + 1 - j) = 0
          ∧ ∀ j', j < j' → j' ≤ i → rangeExcess st.B j' (i + 1 - j') ≠ 0)
      ∨ (bwd_search st (i : Int) d = -1
          ∧ ∀ j, j ≤ i → rangeExcess st.B j (i + 1 - j) ≠ 0)) := by
  have hcnt : ((i : Int) + 1).toNat = i + 1 := by omega
  have hseg : ∀ j, j ≤ i → (rangeExcess st.B j (i + 1 - j) = 0
      ↔ excessBefore st.B j = excessBefore st.B (i + 1)) := by
    intro j hj
    rw [rangeExcess_eq, show j + (i + 1 - j) = i + 1 by omega]
    constructor <;> intro h <;> omega
  have hstart : ∀ T : Int, T = T + (excessBefore st.B (i + 1) - excessBefore st.B (i + 1)) := by
    intro T; ring
  have key : ∀ x : Int,
      ((∃ r, r < i + 1 ∧ excessBefore st.B r = excessBefore st.B (i + 1)
          ∧ (∀ r', r < r' → r' < i + 1 → excessBefore st.B r' ≠ excessBefore st.B (i + 1))
          ∧ bwd_search st (i : Int) x = (r : Int))
        ∨ ((∀ r', r' < i + 1 → excessBefore st.B r' ≠ excessBefore st.B (i + 1))
          ∧ bwd_search st (i : Int) x = -1)) := by
    intro x
    unfold bwd_search naive_bwd_search
    rw [hcnt]
    rcases last_zero_segment st.B i (i + 1) (le_refl _) with ⟨r, h1, h2, h3⟩ | h4
    · left
      refine ⟨r, h1, h2, h3, ?_⟩
      have := bwd_loop_found st (sum st (i : Int) + x) i r h2 (i + 1) i (by omega) (by omega)
        (fun r' a b => h3 r' a (by omega))
      rw [← hstart] at this
      exact this
    · right
      refine ⟨h4, ?_⟩
      have := bwd_loop_none st (sum st (i : Int) + x) i (i + 1) i rfl
        (fun r' a => h4 r' (by omega))
      rw [← hstart] at this
      exact this
  refine ⟨?_, ?_⟩
  · rcases key d with ⟨r, h1, h2, h3, h4⟩ | ⟨h5, h6⟩
    · rcases key d' with ⟨r', g1, g2, g3, g4⟩ | ⟨g5, _⟩
      · rw [h4, g4]
        have : r = r' := by
          rcases Nat.lt_trichotomy r r' with c | c | c
          · exact absurd g2 (h3 r' c g1)
          · exact c
          · exact absurd h2 (g3 r c h1)
        rw [this]
      · exact absurd h2 (g5 r h1)
    · rcases key d' with ⟨r', g1, g2, _, _⟩ | ⟨_, g6⟩
      · exact absurd g2 (h5 r' g1)
      · rw [h6, g6]
  · rcases key d with ⟨r, h1, h2, h3, h4⟩ | ⟨h5, h6⟩
    · left
      refine ⟨r, h4, by omega, (hseg r (by omega)).2 h2, ?_⟩
      intro j' a b c
      exact h3 j' a (by omega) ((hseg j' b).1 c)
    · right
      refine ⟨h6, ?_⟩
      intro j a c
      exact h5 j (by omega) ((hseg j a).1 c)

/-- C24 (failing input): `is_leaf` reads the global `heigh`, not the index: for
every value of `heigh` the test `is_leaf(1)` is wrong on the index of
`(( ()^127 ))` (one internal node, node 1 is a leaf) or on that of scenario S2
(three internal nodes, node 1 is internal). -/
theorem is_leaf_ignores_index :
    ∀ heigh : Nat, ∃ st1 st2, st_create 1 B258 = Except.ok st1 ∧ st_create 1 S2 = Except.ok st2
      ∧ st1.internal_nodes = 2 ^ st1.height - 1 ∧ st2.internal_nodes = 2 ^ st2.height - 1
      ∧ st1.internal_nodes = 1 ∧ st2.internal_nodes = 3
      ∧ ¬ ((is_leaf heigh 1 = true ↔ (1 : Int) ≥ st1.internal_nodes)
          ∧ (is_leaf heigh 1 = true ↔ (1 : Int) ≥ st2.internal_nodes)) := by
  intro heigh
  refine ⟨_, _, rfl, rfl, by decide, by decide, by decide, by decide, ?_⟩
  rintro ⟨h1, h2⟩
  have a : is_leaf heigh 1 = true := h1.2 (by decide)
  exact absurd (h2.1 a) (by decide)

/-- C25: `check_leaf_r(i, t)` is the same position for every target `t`: the
first `j > i` in the chunk of `i` whose excess relative to `i` is -1, or `i − 1`
when there is none; and when there is such a `j`, `fwd_search(i, d)` returns it
for every `d`. -/
theorem check_leaf_r_ignores_target (heigh : Nat) (st : rmMt) (hs : st.s = 256) (i : Nat)
    (t t' : Int) :
    check_leaf_r st (i : Int) t = check_leaf_r st (i : Int) t'
    ∧ ((∃ j : Nat, check_leaf_r st (i : Int) t = (j : Int) ∧ i < j ∧ j < (i / 256 + 1) * 256
          ∧ rangeExcess st.B (i + 1) (j - i) = -1
          ∧ (∀ j', i < j' → j' < j → rangeExcess st.B (i + 1) (j' - i) ≠ -1)
          ∧ ∀ d, fwd_search heigh st (i : Int) d = (j : Int))
      ∨ (check_leaf_r st (i : Int) t = (i : Int) - 1
          ∧ ∀ j', i < j' → j' < (i / 256 + 1) * 256 →
              rangeExcess st.B (i + 1) (j' - i) ≠ -1)) := by
  refine ⟨?_, ?_⟩
  · rcases check_leaf_r_first st hs i t with ⟨k, _, h2, h3, h4⟩ | ⟨h5, h6⟩
    · rcases check_leaf_r_first st hs i t' with ⟨k', g1, g2, g3, g4⟩ | ⟨_, g6⟩
      · have : k = k' := by
          rcases Nat.lt_trichotomy k k' with c | c | c
          · exact absurd h3 (g4 k c)
          · exact c
          · exact absurd g3 (h4 k' c)
        rw [h2, g2, this]
      · exact absurd h3 (g6 k (by omega))
    · rcases check_leaf_r_first st hs i t' with ⟨k', g1, _, g3, _⟩ | ⟨g5, _⟩
      · exact absurd g3 (h6 k' g1)
      · rw [h5, g5]
  · rcases check_leaf_r_first st hs i t with ⟨k, h1, h2, h3, h4⟩ | ⟨h5, h6⟩
    · left
      refine ⟨i + 1 + k, h2, by omega, by omega, ?_, ?_, ?_⟩
      · rw [show i + 1 + k - i = k + 1 by omega]; exact h3
      · intro j' a b
        have := h4 (j' - i - 1) (by omega)
        rw [show j' - i - 1 + 1 = j' - i by omega] at this
        exact this
      · intro d
        have hd : check_leaf_r st (i : Int) (sum st (i : Int) + d) = ((i + 1 + k : Nat) : Int) := by
          rcases check_leaf_r_first st hs i (sum st (i : Int) + d) with
            ⟨k', _, g2, g3, g4⟩ | ⟨_, g6⟩
          · have : k = k' := by
              rcases Nat.lt_trichotomy k k' with c | c | c
              · exact absurd h3 (g4 k c)
              · exact c
              · exact absurd g3 (h4 k' c)
            rw [g2, this]
          · exact absurd h3 (g6 k h1)
        unfold fwd_search
        simp only []
        rw [hd, if_pos (by push_cast; omega)]
    · right
      refine ⟨h5, ?_⟩
      intro j' a b
      have := h6 (j' - i - 1) (by omega)
      rw [show j' - i - 1 + 1 = j' - i by omega] at this
      exact this

/-- Witness for `check_leaf_r_ignores_target`: position 0 of the index of `()^129`,
targets 1 and 5. -/
theorem check_leaf_r_ignores_target_witness :
    (builtSt alt258).s = 256 ∧
    (check_leaf_r (builtSt alt258) ((0 : Nat) : Int) 1 = check_leaf_r (builtSt alt258) ((0 : Nat) : Int) 5
    ∧ ((∃ j : Nat, check_leaf_r (builtSt alt258) ((0 : Nat) : Int) 1 = (j : Int) ∧ 0 < j
          ∧ j < (0 / 256 + 1) * 256
          ∧ rangeExcess (builtSt alt258).B (0 + 1) (j - 0) = -1
          ∧ (∀ j', 0 < j' → j' < j → rangeExcess (builtSt alt258).B (0 + 1) (j' - 0) ≠ -1)
          ∧ ∀ d, fwd_search (builtSt alt258).height (builtSt alt258) ((0 : Nat) : Int) d = (j : Int))
      ∨ (check_leaf_r (builtSt alt258) ((0 : Nat) : Int) 1 = ((0 : Nat) : Int) - 1
          ∧ ∀ j', 0 < j' → j' < (0 / 256 + 1) * 256 →
              rangeExcess (builtSt alt258).B (0 + 1) (j' - 0) ≠ -1))) :=
  ⟨rfl, check_leaf_r_ignores_target (builtSt alt258).height (builtSt alt258) rfl 0 1 5⟩

/-- C21 (failing input): `st_create` with three workers on the 258 bits (two
chunks, `cpt = 1`) of the balanced string `(( ()^127 ))`. Worker 2, whose range
`[2·cpt, min(3·cpt, num_chunks))` is empty, has `chunk_limit = 1` and writes the
leaf `internal_nodes + 2 = 3`, whereas `m'`, `M'`, `n'` have the three cells
`0..2`; worker 1 scans chunk 1 over the bits `[256, 512)`, beyond the 258 bits,
and `e'[1]` ends as −254 whereas the excess through the last bit is 0. -/
theorem surplus_worker_scans_beyond :
    Balanced B258 ∧ B258.num_of_bits = 258
    ∧ (baseSt B258).num_chunks = 2 ∧ ((baseSt B258).num_chunks + 3 - 1) / 3 = 1
    ∧ chunk_limit_of (baseSt B258) 3 1 2 = 1
    ∧ min ((2 + 1) * 1) (baseSt B258).num_chunks - 2 * 1 = 0
    ∧ chunk_limits (baseSt B258) 3 1 (chunk_limit_of (baseSt B258) 3 1 1) 1 0 = (256, 512)
    ∧ zeroArrays.n_prime ((baseSt B258).internal_nodes + 2) = 0
    ∧ (step_2_1 (baseSt B258) 3 1 zeroArrays).n_prime ((baseSt B258).internal_nodes + 2) = 1
    ∧ ∃ st, st_create 3 B258 = Except.ok st
      ∧ st.num_chunks = 2 ∧ st.internal_nodes = 1
      ∧ st.n_prime 3 = 1
      ∧ st.e_prime 1 = -254 ∧ excess B258 257 = 0 :=
  ⟨B258_balanced, rfl, by decide!, by decide!, by decide!, by decide!, by decide!, by decide!,
    by decide!, _, rfl, by decide!⟩

/-- C12 (failing input): on the balanced string `()^130` of 260 bits indexed by
one worker, the root 0 has both children 1 and 2 in the arrays and both attain
its minimum (`m'[1] = m'[2] = m'[0] = 0`), with `n'[1] = 128` and `n'[2] = 2`;
the relation gives `n'[0] = 128 + 2 = 130`, yet `n'[0] = 129`. The relations for
`m'` and `M'` hold at this node. -/
theorem node_count_not_sum_of_children :
    Balanced alt260 ∧ ∃ st, st_create 1 alt260 = Except.ok st
      ∧ 0 < st.internal_nodes ∧ 2 * 0 + 2 < st.internal_nodes + st.num_chunks
      ∧ st.m_prime 0 = min (st.m_prime (2 * 0 + 1)) (st.m_prime (2 * 0 + 2))
      ∧ st.M_prime 0 = max (st.M_prime (2 * 0 + 1)) (st.M_prime (2 * 0 + 2))
      ∧ (if st.m_prime (2 * 0 + 1) = st.m_prime 0 then st.n_prime (2 * 0 + 1) else 0)
          + (if st.m_prime (2 * 0 + 2) = st.m_prime 0 then st.n_prime (2 * 0 + 2) else 0) = 130
      ∧ st.n_prime 0 = 129 :=
  ⟨alt_balanced 260 (by decide), _, rfl, by decide!⟩

/-- C18 (failing input): scenario S2, the string of 260 opening then 260 closing
parentheses indexed by a one-worker `st_create` (a tree of height 2). The
results that do not reach `is_leaf` are those of the scenario; `find_close(0)`
and `find_close(1)` go through the descent, which stops where `is_leaf` says so:
they are 519 and 518 only when the identifier `heigh` read by `is_leaf` is 2;
for `heigh` 0 or 1 both are −257, for `heigh` 3 they are 2047 and −1. -/
theorem scenario_S2_needs_height :
    ∃ st, st_create 1 S2 = Except.ok st ∧ st.height = 2
      ∧ sum st 259 = 260 ∧ sum st 519 = 0 ∧ find_open st 519 = 0
      ∧ rank_1 st 519 = 260 ∧ rank_0 st 519 = 260
      ∧ select_1 st 1 = 0 ∧ select_0 st 1 = 260
      ∧ (∀ heigh, heigh < 2 →
          find_close heigh st 0 = -257 ∧ find_close heigh st 1 = -257)
      ∧ find_close 2 st 0 = 519 ∧ find_close 2 st 1 = 518
      ∧ find_close 3 st 0 = 2047 ∧ find_close 3 st 1 = -1 :=
  ⟨_, rfl, by decide!⟩

/-- C19 (failing input): scenario S5, the string of 2048 opening then 2048
closing parentheses indexed by a one-worker `st_create` (a tree of height 4).
Every `find_close(i)`, `i < 2048`, goes through the descent, which stops where
`is_leaf` says so: `find_close(i) = 4095 − i` when the identifier `heigh` read by
`is_leaf` is 4, but `find_close(0)` is −3329 for `heigh` 0 or 1, −2305 for 2,
−257 for 3 and 11775 for 5. -/
theorem scenario_S5_needs_height :
    ∃ st, st_create 1 S5 = Except.ok st ∧ st.height = 4
      ∧ (∀ i : Nat, i < 2048 → find_close 4 st (i : Int) = 4095 - (i : Int))
      ∧ find_close 0 st 0 = -3329 ∧ find_close 1 st 0 = -3329
      ∧ find_close 2 st 0 = -2305 ∧ find_close 3 st 0 = -257
      ∧ find_close 5 st 0 = 11775 :=
  ⟨builtSt S5, st_create_one S5 S5_len, by decide, fun i hi => S5_find_close i hi, by decide!⟩

/-- C3 (amended): for a balanced string of more than 256 bits indexed by
`st_create` with `P ≥ 1` workers that each have a chunk
(`(P − 1)·⌈num_chunks / P⌉ < num_chunks`) and a closing parenthesis at `j`,
`find_open(j)` is the matching opening parenthesis: the largest `r < j` with
`B[r] = 1` and `excess(r) = excess(j) + 1`; when the prefix excesses are within
int16 (and `n ≤ 2^32 − 256` if there is more than one worker) it is also the
largest such `r` with `sum(r) = sum(j) + 1`. -/
theorem find_open_matching (B : BIT_ARRAY) (hlen : 256 < B.num_of_bits) (hbal : Balanced B)
    (P : Nat) (hP : 1 ≤ P)
    (hv : (P - 1) * (((baseSt B).num_chunks + P - 1) / P) < (baseSt B).num_chunks)
    (j : Nat) (hj : j < B.num_of_bits) (hbit : bit_array_get_bit B j = 0) :
    ∃ st, st_create P B = Except.ok st ∧ ∃ r : Nat,
      find_open st (j : Int) = (r : Int) ∧ r < j ∧ bit_array_get_bit B r = 1
      ∧ excess B r = excess B j + 1
      ∧ (∀ r', r < r' → r' < j →
          ¬ (bit_array_get_bit B r' = 1 ∧ excess B r' = excess B j + 1))
      ∧ (P = 1 ∨ B.num_of_bits + 256 ≤ 4294967296 → FitsInt16 B →
          sum st (r : Int) = sum st (j : Int) + 1
          ∧ ∀ r' : Nat, r < r' → r' < j →
              ¬ (bit_array_get_bit B r' = 1 ∧ sum st (r' : Int) = sum st (j : Int) + 1)) := by
  obtain ⟨r, h1, h2, h3, h4, h5⟩ :=
    find_open_spec B hbal (builtWith P B) (statics_with P B).hB j hj hbit
  refine ⟨builtWith P B, st_create_with P B hlen, r, h1, h2, h3, h4, h5, ?_⟩
  intro hb hfit
  rw [with_sum_fits P B hlen hP hv hb hfit r (by omega),
    with_sum_fits P B hlen hP hv hb hfit j hj]
  refine ⟨h4, ?_⟩
  intro r' a b
  rw [with_sum_fits P B hlen hP hv hb hfit r' (by omega)]
  exact h5 r' a b

/-- Witness for `find_open_matching`: two workers on the string `(( ()^127 ))` of
258 bits, the closing parenthesis at 256. -/
theorem find_open_matching_witness :
    256 < B258.num_of_bits ∧ Balanced B258 ∧ 1 ≤ 2
    ∧ (2 - 1) * (((baseSt B258).num_chunks + 2 - 1) / 2) < (baseSt B258).num_chunks
    ∧ 256 < B258.num_of_bits ∧ bit_array_get_bit B258 ((256 : Nat) : Int) = 0 ∧
    ∃ st, st_create 2 B258 = Except.ok st ∧ ∃ r : Nat,
      find_open st ((256 : Nat) : Int) = (r : Int) ∧ r < 256 ∧ bit_array_get_bit B258 r = 1
      ∧ excess B258 r = excess B258 256 + 1
      ∧ (∀ r', r < r' → r' < 256 →
          ¬ (bit_array_get_bit B258 r' = 1 ∧ excess B258 r' = excess B258 256 + 1))
      ∧ (2 = 1 ∨ B258.num_of_bits + 256 ≤ 4294967296 → FitsInt16 B258 →
          sum st (r : Int) = sum st ((256 : Nat) : Int) + 1
          ∧ ∀ r' : Nat, r < r' → r' < 256 →
              ¬ (bit_array_get_bit B258 r' = 1
                  ∧ sum st (r' : Int) = sum st ((256 : Nat) : Int) + 1)) :=
  ⟨B258_len, B258_balanced, by decide, by decide, by decide, by decide!,
    find_open_matching B258 B258_len B258_balanced 2 (by decide) (by decide) 256 (by decide)
      (by decide!)⟩

/-- C6 (amended): on an index of a bitstring of more than 256 bits whose prefix
excesses fit in int16, built by `P ≥ 1` workers that each have a chunk
(`(P − 1)·⌈num_chunks / P⌉ < num_chunks`; `n ≤ 2^32 − 256` if there is more than
one worker), `rank_1(i)` is the number of 1-bits and `rank_0(i)` the number of
0-bits among `B[0..i]`, for every `i < n`. -/
theorem rank_counts_bits (B : BIT_ARRAY) (hlen : 256 < B.num_of_bits) (hfit : FitsInt16 B)
    (P : Nat) (hP : 1 ≤ P)
    (hv : (P - 1) * (((baseSt B).num_chunks + P - 1) / P) < (baseSt B).num_chunks)
    (hb : P = 1 ∨ B.num_of_bits + 256 ≤ 4294967296)
    (i : Nat) (hi : i < B.num_of_bits) :
    ∃ st, st_create P B = Except.ok st
      ∧ rank_1 st (i : Int) = onesBefore B (i + 1)
      ∧ rank_0 st (i : Int) = zerosBefore B (i + 1) :=
  ⟨builtWith P B, st_create_with P B hlen, with_rank P B hlen hP hv hb hfit i hi⟩

/-- Witness for `rank_counts_bits`: two workers on the string `(( ()^127 ))` of
258 bits, position 256. -/
theorem rank_counts_bits_witness :
    256 < B258.num_of_bits ∧ FitsInt16 B258 ∧ 1 ≤ 2
    ∧ (2 - 1) * (((baseSt B258).num_chunks + 2 - 1) / 2) < (baseSt B258).num_chunks
    ∧ (2 = 1 ∨ B258.num_of_bits + 256 ≤ 4294967296) ∧ 256 < B258.num_of_bits ∧
    ∃ st, st_create 2 B258 = Except.ok st
      ∧ rank_1 st ((256 : Nat) : Int) = onesBefore B258 (256 + 1)
      ∧ rank_0 st ((256 : Nat) : Int) = zerosBefore B258 (256 + 1) :=
  ⟨B258_len, B258_fits, by decide, by decide, Or.inr (by decide), by decide,
    rank_counts_bits B258 B258_len B258_fits 2 (by decide) (by decide) (Or.inr (by decide)) 256
      (by decide)⟩

/-- C7 (amended): for a balanced string of more than 256 bits indexed by
`st_create` with `P ≥ 1` workers that each have a chunk
(`(P − 1)·⌈num_chunks / P⌉ < num_chunks`) and `1 ≤ i ≤ n/2`, `select_1(i)` is the
position of the `i`-th 1-bit, the smallest `j` with `excess(j) = 2i − j − 1`;
when the prefix excesses are within int16 (and `n ≤ 2^32 − 256` if there is more
than one worker) it is also the smallest `j` with `sum(j) = 2i − j − 1`. -/
theorem select_1_ith_one (B : BIT_ARRAY) (hlen : 256 < B.num_of_bits) (hbal : Balanced B)
    (P : Nat) (hP : 1 ≤ P)
    (hv : (P - 1) * (((baseSt B).num_chunks + P - 1) / P) < (baseSt B).num_chunks)
    (i : Nat) (h1 : 1 ≤ i) (h2 : 2 * i ≤ B.num_of_bits) :
    ∃ st, st_create P B = Except.ok st ∧ ∃ r : Nat,
      select_1 st (i : Int) = (r : Int) ∧ r < B.num_of_bits ∧ bit_array_get_bit B r = 1
      ∧ onesBefore B (r + 1) = i
      ∧ excess B r = 2 * (i : Int) - r - 1
      ∧ (∀ r', r' < r → excess B r' ≠ 2 * (i : Int) - r' - 1)
      ∧ (P = 1 ∨ B.num_of_bits + 256 ≤ 4294967296 → FitsInt16 B →
          sum st (r : Int) = 2 * (i : Int) - r - 1
          ∧ ∀ r' : Nat, r' < r → sum st (r' : Int) ≠ 2 * (i : Int) - r' - 1) := by
  obtain ⟨r, a1, a2, a3, a4, a5, a6⟩ :=
    select_1_spec B hbal (builtWith P B) (statics_with P B).hB i h1 h2
  refine ⟨builtWith P B, st_create_with P B hlen, r, a1, by omega, a3, a4, a5, a6, ?_⟩
  intro hb hfit
  rw [with_sum_fits P B hlen hP hv hb hfit r (by omega)]
  refine ⟨a5, ?_⟩
  intro r' a
  rw [with_sum_fits P B hlen hP hv hb hfit r' (by omega)]
  exact a6 r' a

/-- Witness for `select_1_ith_one`: two workers on the string `(( ()^127 ))` of
258 bits, the third 1-bit. -/
theorem select_1_ith_one_witness :
    256 < B258.num_of_bits ∧ Balanced B258 ∧ 1 ≤ 2
    ∧ (2 - 1) * (((baseSt B258).num_chunks + 2 - 1) / 2) < (baseSt B258).num_chunks
    ∧ 1 ≤ 3 ∧ 2 * 3 ≤ B258.num_of_bits ∧
    ∃ st, st_create 2 B258 = Except.ok st ∧ ∃ r : Nat,
      select_1 st ((3 : Nat) : Int) = (r : Int) ∧ r < B258.num_of_bits
      ∧ bit_array_get_bit B258 r = 1
      ∧ onesBefore B258 (r + 1) = 3
      ∧ excess B258 r = 2 * ((3 : Nat) : Int) - r - 1
      ∧ (∀ r', r' < r → excess B258 r' ≠ 2 * ((3 : Nat) : Int) - r' - 1)
      ∧ (2 = 1 ∨ B258.num_of_bits + 256 ≤ 4294967296 → FitsInt16 B258 →
          sum st (r : Int) = 2 * ((3 : Nat) : Int) - r - 1
          ∧ ∀ r' : Nat, r' < r → sum st (r' : Int) ≠ 2 * ((3 : Nat) : Int) - r' - 1) :=
  ⟨B258_len, B258_balanced, by decide, by decide, by decide, by decide,
    select_1_ith_one B258 B258_len B258_balanced 2 (by decide) (by decide) 3 (by decide)
      (by decide)⟩

/-- C9 (amended): after a one-worker `st_create` on a bitstring of more than 256
and at most `2^32 − 256` bits whose prefix excesses fit in int16, `e'[c]` is the
excess of `B` from bit 0 through the last bit of chunk `c`, for every chunk
`c < num_chunks`. Step 2.1 is taken with its `unsigned int` limits, for either
width of `num_chunks`. -/
theorem e_prime_eq_chunk_excess (arch64 : Bool) (B : BIT_ARRAY) (hlen : 256 < B.num_of_bits)
    (hn : B.num_of_bits + 256 ≤ 4294967296) (hfit : FitsInt16 B) (c : Nat)
    (hc : c < (B.num_of_bits + 256 - 1) / 256) :
    ∃ st, st_create_u32 arch64 1 B = Except.ok st
      ∧ st.num_chunks = (B.num_of_bits + 256 - 1) / 256
      ∧ st.e_prime c = excess B (min ((c + 1) * 256) B.num_of_bits - 1) := by
  rw [(st_create_u32_eq arch64 B hlen hn 1 (le_refl _) (one_valid B hlen)).2]
  refine ⟨builtSt B, st_create_one B hlen, rfl, ?_⟩
  rw [built_e_prime B hlen c hc, wrapped_prefix_of_fits B hfit _ (by omega)]
  unfold excess
  congr 1
  omega

/-- Witness for `e_prime_eq_chunk_excess`: the second chunk of the string
`(( ()^127 ))` of 258 bits. -/
theorem e_prime_eq_chunk_excess_witness :
    256 < B258.num_of_bits ∧ B258.num_of_bits + 256 ≤ 4294967296 ∧ FitsInt16 B258
      ∧ 1 < (B258.num_of_bits + 256 - 1) / 256 ∧
      ∃ st, st_create_u32 true 1 B258 = Except.ok st
        ∧ st.num_chunks = (B258.num_of_bits + 256 - 1) / 256
        ∧ st.e_prime 1 = excess B258 (min ((1 + 1) * 256) B258.num_of_bits - 1) :=
  ⟨B258_len, by decide, B258_fits, by decide,
    e_prime_eq_chunk_excess true B258 B258_len (by decide) B258_fits 1 (by decide)⟩

/-- C9 (counterexample): on the balanced string `wrapB` of 2^32 + 2 bits, whose
prefix excesses lie in `[0, 129]`, the chunk 2^24 − 1 ends at bit 2^32 − 1, where
the excess is 2; its `ulimit = llimit + 256` wraps to 0, the chunk is not
scanned, and a one-worker `st_create` leaves `e'[2^24 − 1] = 0`, the excess at the
end of the chunk before. -/
theorem e_prime_stale_past_u32 :
    256 < wrapB.num_of_bits ∧ FitsInt16 wrapB
    ∧ 16777215 < (wrapB.num_of_bits + 256 - 1) / 256
    ∧ excess wrapB (min ((16777215 + 1) * 256) wrapB.num_of_bits - 1) = 2
    ∧ ∀ arch64, ∃ st, st_create_u32 arch64 1 wrapB = Except.ok st
        ∧ st.num_chunks = (wrapB.num_of_bits + 256 - 1) / 256
        ∧ st.e_prime 16777215 = 0 := by
  refine ⟨by decide, wrap_fits, by decide, ?_, ?_⟩
  · have e : min ((16777215 + 1) * 256) wrapB.num_of_bits - 1 = 4294967295 := by decide
    rw [e, wrap_excess _ (by decide), if_neg (by decide), if_neg (by decide)]
    norm_num
  · intro arch64
    obtain ⟨st, hok, hnc, _, _, he, _, _⟩ := st_create_u32_cells arch64 1 wrapB (by decide)
    refine ⟨st, hok, hnc, ?_⟩
    rw [he]
    exact wrap_stale_e arch64

/-- C23 (amended): after steps 2.1 and 2.2 of `st_create` with one worker on more
than 256 and at most `2^32 − 256` bits whose prefix excesses fit `int16`, for
every chunk `c < num_chunks` the leaf cell `internal_nodes + c` holds in `m'` the
least and in `M'` the greatest `excess(p)` over the bits `p` of chunk `c`
(`256·c ≤ p < min(256·(c+1), n)`), and in `n'` the number of these `p` with
`excess(p) = m'`. Step 2.1 is taken with its `unsigned int` limits, for either
width of `num_chunks`. -/
theorem leaf_cells_one_worker (arch64 : Bool) (B : BIT_ARRAY) (hlen : 256 < B.num_of_bits)
    (hn : B.num_of_bits + 256 ≤ 4294967296)
    (hfit : FitsInt16 B) (c : Nat) (hc : c < (baseSt B).num_chunks) :
    (∀ p, 256 * c ≤ p → p < min (256 * (c + 1)) B.num_of_bits →
        (stage_2_2_u32 arch64 (baseSt B) 1).m_prime ((baseSt B).internal_nodes + c) ≤ excess B p
        ∧ excess B p
          ≤ (stage_2_2_u32 arch64 (baseSt B) 1).M_prime ((baseSt B).internal_nodes + c))
    ∧ (∃ p, 256 * c ≤ p ∧ p < min (256 * (c + 1)) B.num_of_bits
        ∧ (stage_2_2_u32 arch64 (baseSt B) 1).m_prime ((baseSt B).internal_nodes + c)
          = excess B p)
    ∧ (∃ p, 256 * c ≤ p ∧ p < min (256 * (c + 1)) B.num_of_bits
        ∧ (stage_2_2_u32 arch64 (baseSt B) 1).M_prime ((baseSt B).internal_nodes + c)
          = excess B p)
    ∧ (stage_2_2_u32 arch64 (baseSt B) 1).n_prime ((baseSt B).internal_nodes + c)
        = (countExcess B (256 * c) (min (256 * (c + 1)) B.num_of_bits)
            ((stage_2_2_u32 arch64 (baseSt B) 1).m_prime ((baseSt B).internal_nodes + c))
            : Nat) := by
  rw [(st_create_u32_eq arch64 B hlen hn 1 (le_refl _) (one_valid B hlen)).1]
  exact leaf_cells_nat B hlen hfit c hc

/-- Witness for `leaf_cells_one_worker`: the second chunk of `(( ()^127 ))`. -/
theorem leaf_cells_one_worker_witness :
    256 < B258.num_of_bits ∧ B258.num_of_bits + 256 ≤ 4294967296 ∧ FitsInt16 B258
    ∧ 1 < (baseSt B258).num_chunks
    ∧ (stage_2_2_u32 false (baseSt B258) 1).n_prime ((baseSt B258).internal_nodes + 1)
        = (countExcess B258 (256 * 1) (min (256 * (1 + 1)) B258.num_of_bits)
            ((stage_2_2_u32 false (baseSt B258) 1).m_prime ((baseSt B258).internal_nodes + 1))
            : Nat) :=
  ⟨B258_len, by decide, B258_fits, by decide,
    (leaf_cells_one_worker false B258 B258_len (by decide) B258_fits 1 (by decide)).2.2.2⟩

/-- C23 (counterexample): on the string `wrapB` of 2^32 + 2 bits, whose prefix
excesses lie in `[0, 129]`, the chunk 2^24 − 1 is not scanned by the single
worker (its `ulimit` wraps to 0): after steps 2.1 and 2.2 its leaf holds
`M' ≤ 1`, the greatest excess of the chunk before, and `n' = 1`, while bit
2^32 − 128 of the chunk has excess 129. -/
theorem leaf_stale_past_u32 :
    256 < wrapB.num_of_bits ∧ FitsInt16 wrapB ∧ 16777215 < (baseSt wrapB).num_chunks
    ∧ 256 * 16777215 ≤ 4294967168
    ∧ 4294967168 < min (256 * (16777215 + 1)) wrapB.num_of_bits
    ∧ excess wrapB 4294967168 = 129
    ∧ ∀ arch64,
        (stage_2_2_u32 arch64 (baseSt wrapB) 1).M_prime
            ((baseSt wrapB).internal_nodes + 16777215) ≤ 1
        ∧ (stage_2_2_u32 arch64 (baseSt wrapB) 1).n_prime
            ((baseSt wrapB).internal_nodes + 16777215) = 1 := by
  refine ⟨by decide, wrap_fits, by decide, by decide, by decide, ?_, ?_⟩
  · rw [wrap_excess _ (by decide), if_neg (by decide), if_pos (by decide)]
    norm_num
  · intro arch64
    exact ⟨wrap_stale_M arch64, (wrap_unscanned arch64).n⟩

/-- C22 (amended): after steps 2.1 and 2.2 of `st_create` on more than 256 and at
most `2^32 − 256` bits whose prefix excesses fit `int16`, with `P ≥ 1` workers and
`(P − 1)·⌈num_chunks / P⌉ < num_chunks`, every `e'[g]`, `g < num_chunks`, is the
excess at the last bit of chunk `g`; and if moreover the excess relative to the
first bit of each worker's range fits `int16` over that range, the leaf of chunk
`g` holds in `m'` the least and in `M'` the greatest `excess(p)` over the bits `p`
of the chunk. Step 2.1 is taken with its `unsigned int` limits, for either width
of `num_chunks`. -/
theorem stage_2_2_absolute (arch64 : Bool) (B : BIT_ARRAY) (hlen : 256 < B.num_of_bits)
    (hn : B.num_of_bits + 256 ≤ 4294967296) (P : Nat) (hP : 1 ≤ P)
    (hv : (P - 1) * (((baseSt B).num_chunks + P - 1) / P) < (baseSt B).num_chunks)
    (hfit : FitsInt16 B) (g : Nat) (hg : g < (baseSt B).num_chunks) :
    (stage_2_2_u32 arch64 (baseSt B) P).e_prime g
      = excess B (min (256 * (g + 1)) B.num_of_bits - 1)
    ∧ (RelFits B P →
      (∀ p, 256 * g ≤ p → p < min (256 * (g + 1)) B.num_of_bits →
        (stage_2_2_u32 arch64 (baseSt B) P).m_prime ((baseSt B).internal_nodes + g)
          ≤ excess B p
        ∧ excess B p
          ≤ (stage_2_2_u32 arch64 (baseSt B) P).M_prime ((baseSt B).internal_nodes + g))
      ∧ (∃ p, 256 * g ≤ p ∧ p < min (256 * (g + 1)) B.num_of_bits
        ∧ (stage_2_2_u32 arch64 (baseSt B) P).m_prime ((baseSt B).internal_nodes + g)
          = excess B p)
      ∧ (∃ p, 256 * g ≤ p ∧ p < min (256 * (g + 1)) B.num_of_bits
        ∧ (stage_2_2_u32 arch64 (baseSt B) P).M_prime ((baseSt B).internal_nodes + g)
          = excess B p)) := by
  have hnc := (statics_base B).hnc
  rw [(st_create_u32_eq arch64 B hlen hn P hP hv).1]
  exact stage_2_2_abs_nat B hlen P hP hv (by omega) hfit g hg

/-- Witness for `stage_2_2_absolute`: two workers on `(( ()^127 ))`, second chunk. -/
theorem stage_2_2_absolute_witness :
    256 < B258.num_of_bits ∧ B258.num_of_bits + 256 ≤ 4294967296 ∧ 1 ≤ 2
    ∧ (2 - 1) * (((baseSt B258).num_chunks + 2 - 1) / 2) < (baseSt B258).num_chunks
    ∧ FitsInt16 B258 ∧ 1 < (baseSt B258).num_chunks ∧ RelFits B258 2
    ∧ (stage_2_2_u32 true (baseSt B258) 2).e_prime 1
        = excess B258 (min (256 * (1 + 1)) B258.num_of_bits - 1)
    ∧ (∃ p, 256 * 1 ≤ p ∧ p < min (256 * (1 + 1)) B258.num_of_bits
        ∧ (stage_2_2_u32 true (baseSt B258) 2).M_prime ((baseSt B258).internal_nodes + 1)
          = excess B258 p) :=
  ⟨B258_len, by decide, by decide, by decide, B258_fits, by decide,
    relFits_of_balanced B258 2 B258_balanced B258_fits,
    (stage_2_2_absolute true B258 B258_len (by decide) 2 (by decide) (by decide) B258_fits 1
      (by decide)).1,
    ((stage_2_2_absolute true B258 B258_len (by decide) 2 (by decide) (by decide) B258_fits 1
      (by decide)).2 (relFits_of_balanced B258 2 B258_balanced B258_fits)).2.2⟩

/-- C22 (counterexample): two inputs with prefix excesses within int16. On the
65536 bits `)^32768 (^32768` (excesses in `[−32768, 0]`) two workers
(`(2 − 1)·128 < 256` chunks) leave after step 2.2 `m' = 0` and `M' = −1` in the
leaf of the last chunk, 255, while the excess over its bits runs from −255 (bit
65280) to 0 (bit 65535). On the 2^32 + 2 bits of `wrapB` (excesses in `[0, 129]`)
one worker leaves `e'[2^24 − 1] = 0`, while the excess through the last bit of
that chunk is 2: the chunk ends at bit 2^32 and is not scanned. -/
theorem relative_excess_wraps :
    (256 < bigB.num_of_bits ∧ FitsInt16 bigB
      ∧ (2 - 1) * (((baseSt bigB).num_chunks + 2 - 1) / 2) < (baseSt bigB).num_chunks
      ∧ 255 < (baseSt bigB).num_chunks
      ∧ 256 * 255 ≤ 65280 ∧ 65535 < min (256 * (255 + 1)) bigB.num_of_bits
      ∧ excess bigB 65280 = -255 ∧ excess bigB 65535 = 0
      ∧ ∀ arch64,
          (stage_2_2_u32 arch64 (baseSt bigB) 2).m_prime ((baseSt bigB).internal_nodes + 255)
            = 0
          ∧ (stage_2_2_u32 arch64 (baseSt bigB) 2).M_prime
              ((baseSt bigB).internal_nodes + 255) = -1)
    ∧ (256 < wrapB.num_of_bits ∧ FitsInt16 wrapB
      ∧ (1 - 1) * (((baseSt wrapB).num_chunks + 1 - 1) / 1) < (baseSt wrapB).num_chunks
      ∧ 16777215 < (baseSt wrapB).num_chunks
      ∧ excess wrapB (min (256 * (16777215 + 1)) wrapB.num_of_bits - 1) = 2
      ∧ ∀ arch64, (stage_2_2_u32 arch64 (baseSt wrapB) 1).e_prime 16777215 = 0) := by
  refine ⟨⟨by decide, big_fits, big_valid, ?_, by decide, by decide, ?_, ?_, ?_⟩,
    ⟨by decide, wrap_fits, one_valid wrapB (by decide), by decide, ?_, wrap_stale_e⟩⟩
  · rw [big_statics.1]; decide
  · rw [big_excess _ (by decide)]; simp
  · rw [big_excess _ (by decide)]; simp
  · intro arch64
    rw [(st_create_u32_eq arch64 bigB (by decide) (by decide) 2 (by decide) big_valid).1]
    exact big_last_leaf
  · have e : min (256 * (16777215 + 1)) wrapB.num_of_bits - 1 = 4294967295 := by decide
    rw [e, wrap_excess _ (by decide), if_neg (by decide), if_neg (by decide)]
    norm_num

/-- C10 (amended): after a one-worker `st_create` on a balanced string of more
than 256 and at most `2^32 − 256` bits whose prefix excesses fit in int16, for
every node of the summary tree (node `k` of level `l`, stored at index
`2^l − 1 + k`; the leaves are the level `height`) that covers at least one bit,
`m'` is the minimum and `M'` the maximum of `excess(p)` over the bits `p` the node
covers. Step 2.1 is taken with its `unsigned int` limits, for either width of
`num_chunks`. -/
theorem tree_min_max (arch64 : Bool) (B : BIT_ARRAY) (hlen : 256 < B.num_of_bits)
    (hn : B.num_of_bits + 256 ≤ 4294967296) (hbal : Balanced B) (hfit : FitsInt16 B) :
    ∃ st, st_create_u32 arch64 1 B = Except.ok st ∧ st.internal_nodes = 2 ^ st.height - 1
      ∧ ∀ l k, l ≤ st.height → k < 2 ^ l → nodeLo st.height l k < B.num_of_bits →
        (∀ p, nodeLo st.height l k ≤ p → p < nodeHi B.num_of_bits st.height l k →
          st.m_prime (2 ^ l - 1 + k) ≤ excess B p ∧ excess B p ≤ st.M_prime (2 ^ l - 1 + k))
        ∧ (∃ p, nodeLo st.height l k ≤ p ∧ p < nodeHi B.num_of_bits st.height l k
            ∧ excess B p = st.m_prime (2 ^ l - 1 + k))
        ∧ (∃ p, nodeLo st.height l k ≤ p ∧ p < nodeHi B.num_of_bits st.height l k
            ∧ excess B p = st.M_prime (2 ^ l - 1 + k)) := by
  rw [(st_create_u32_eq arch64 B hlen hn 1 (le_refl _) (one_valid B hlen)).2]
  exact tree_min_max_nat B hlen hbal hfit

/-- Witness for `tree_min_max`: the theorem at the string `(( ()^127 ))` of 258 bits. -/
theorem tree_min_max_witness :
    256 < B258.num_of_bits ∧ B258.num_of_bits + 256 ≤ 4294967296 ∧ Balanced B258
    ∧ FitsInt16 B258 ∧
    ∃ st, st_create_u32 true 1 B258 = Except.ok st ∧ st.internal_nodes = 2 ^ st.height - 1
      ∧ ∀ l k, l ≤ st.height → k < 2 ^ l → nodeLo st.height l k < B258.num_of_bits →
        (∀ p, nodeLo st.height l k ≤ p → p < nodeHi B258.num_of_bits st.height l k →
          st.m_prime (2 ^ l - 1 + k) ≤ excess B258 p
            ∧ excess B258 p ≤ st.M_prime (2 ^ l - 1 + k))
        ∧ (∃ p, nodeLo st.height l k ≤ p ∧ p < nodeHi B258.num_of_bits st.height l k
            ∧ excess B258 p = st.m_prime (2 ^ l - 1 + k))
        ∧ (∃ p, nodeLo st.height l k ≤ p ∧ p < nodeHi B258.num_of_bits st.height l k
            ∧ excess B258 p = st.M_prime (2 ^ l - 1 + k)) :=
  ⟨B258_len, by decide, B258_balanced, B258_fits,
    tree_min_max true B258 B258_len (by decide) B258_balanced B258_fits⟩

/-- C10 (counterexample): two balanced inputs. On 32769 opening then 32769
closing parentheses the tree has height 9 and the leaf of chunk 127 covers the
bits 32512..32767; its `M'` is below `excess(32767) = 32768`. On the 2^32 + 2
bits of `wrapB` the tree has height 25 and the leaf of chunk 2^24 − 1 covers the
bits `2^32 − 256 .. 2^32 − 1`; its `M'` is at most 1, below
`excess(2^32 − 128) = 129`: the chunk ends at bit 2^32 and is not scanned. -/
theorem leaf_max_wraps :
    (Balanced deepB ∧ ∀ arch64, ∃ st, st_create_u32 arch64 1 deepB = Except.ok st
      ∧ st.height = 9
      ∧ nodeLo 9 9 127 ≤ 32767 ∧ 32767 < nodeHi deepB.num_of_bits 9 9 127
      ∧ excess deepB 32767 = 32768
      ∧ st.M_prime (2 ^ 9 - 1 + 127) < excess deepB 32767)
    ∧ (Balanced wrapB ∧ ∀ arch64, ∃ st, st_create_u32 arch64 1 wrapB = Except.ok st
      ∧ st.height = 25
      ∧ nodeLo 25 25 16777215 ≤ 4294967168
      ∧ 4294967168 < nodeHi wrapB.num_of_bits 25 25 16777215
      ∧ excess wrapB 4294967168 = 129
      ∧ st.M_prime (2 ^ 25 - 1 + 16777215) ≤ 1) := by
  refine ⟨⟨deep_balanced, ?_⟩, ⟨wrap_balanced, ?_⟩⟩
  · intro arch64
    rw [(st_create_u32_eq arch64 deepB deep_len (by decide) 1 (le_refl _)
      (one_valid deepB deep_len)).2]
    exact ⟨builtSt deepB, st_create_one deepB deep_len, by decide, by decide, by decide,
      by rw [deep_excess]; simp,
      by rw [deep_excess, if_pos (by decide)]; have := deep_leaf_127; omega⟩
  · intro arch64
    obtain ⟨hl, hnc, hh, hI⟩ := wrap_statics
    obtain ⟨st, hok, _, sh, _, _, _, sM⟩ := st_create_u32_cells arch64 1 wrapB hl
    refine ⟨st, hok, by rw [sh, hh], by decide, by decide, ?_, ?_⟩
    · rw [wrap_excess _ (by decide), if_neg (by decide), if_pos (by decide)]
      norm_num
    · have hst := statics_base wrapB
      have e : (2 ^ 25 - 1 + 16777215 : Nat) = (baseSt wrapB).internal_nodes + 16777215 := by
        rw [hI]; norm_num
      rw [sM, e, build_u32_one arch64 _ hst.hk,
        (levelsDone_leaf (baseSt wrapB) hst.hk hst.hI (baseSt wrapB).height (le_refl _) _
          ((baseSt wrapB).internal_nodes + 16777215) (by omega)).2]
      exact wrap_stale_M arch64

end SuccinctTree
